import Mathlib

/-!
# Pointer maps, stack frames and statement lowering of the Go compilers' `pgen.c`

A shallow embedding of the parts of `src/cmd/gc/pgen.c` (the Go compiler) and
`src/cmd/cc/pgen.c` (the C compiler) that build the garbage collector's
pointer map of a function's argument area and lay out its stack frame, and
of the function `gen` of `src/cmd/cc/pgen.c` that lowers statements to
branches, followed by theorems about them.

Conventions of the embedding:

* C integers are `Int`; `/` and `%` of C are `Int.tdiv` and `Int.tmod`
  (truncation toward zero).  Where the 32-bit range of a result matters
  (`argsize`), the value is wrapped by `int32`; byte offsets and word
  indexes, which stay far below `2^31`, are not wrapped.
* A nil `Type*` is the constructor `T`; dereferencing it aborts the walk.
* `fatal` ends the compilation: it is the `fatal` outcome of a walk.
  `yyerror` records a diagnostic and returns to its caller.
* Functions that live in other files of the compilers (`isslice`,
  `haspointers`, `rnd`, `listsort`, `markautoused`, `align`, ...) are
  parameters gathered in a structure.
* The globals of `gen` (`pc`, `p`, `canreach`, `breakpc`, ...) are the fields
  of a state that every step takes and returns.  An instruction is known by
  the number of its record; positions are the values of `pc`.  The counters
  `nbreak` and `ncontin` are not wrapped.
-/

namespace Pgen

/-- One datum laid down in a data symbol: `width` bytes at byte offset `off`
holding `val`. -/
structure Datum where
  off : Int
  width : Int
  val : Int
  deriving DecidableEq

/-- The data of a symbol, in the order in which it was laid down. -/
abbrev Sym := List Datum

/-- The number of 32-bit chunks that hold `n` bits: `n / 32` rounded up. -/
def nchunks (n : Int) : Nat := (n.toNat + 31) / 32

namespace Gc

/-! ## Types of the Go compiler (`Type` of `go.h`) -/

/-- Kinds of type (`t->etype`) that `walktype1` tells apart; `TFIELD` is a
struct field entry and `TOTHER` stands for every kind the switch of
`walktype1` does not list. -/
inductive EType where
  | TINT8 | TUINT8 | TINT16 | TUINT16 | TINT32 | TUINT32 | TINT64 | TUINT64
  | TINT | TUINT | TUINTPTR | TBOOL | TFLOAT32 | TFLOAT64
  | TCOMPLEX64 | TCOMPLEX128
  | TPTR32 | TPTR64 | TUNSAFEPTR | TFUNC | TCHAN | TMAP
  | TSTRING | TINTER | TARRAY | TSTRUCT | TFIELD | TOTHER
  deriving DecidableEq

/-- A `Type*` of the Go compiler: `T` is the nil pointer, `mk` a type record
with the fields `walktype1` reads.  For a struct `type` is the first field
entry; a field entry holds the field offset in `width`, the field type in
`type` and the next entry in `down`.  For an array `type` is the element
type and `bound` the length (`-1` for a slice). -/
inductive Typ where
  | T : Typ
  | mk (etype : EType) (width align bound : Int) (type down : Typ) : Typ
  deriving DecidableEq

/-- The field `t->width`; `0` stands in for the read through a nil pointer,
which no caller below performs on a path that goes on. -/
def Typ.width : Typ → Int
  | .T => 0
  | .mk _ w _ _ _ _ => w

/-- The field `t->etype` (`TOTHER` for nil). -/
def Typ.etype : Typ → EType
  | .T => .TOTHER
  | .mk e _ _ _ _ _ => e

/-- The field `t->align`. -/
def Typ.align : Typ → Int
  | .T => 0
  | .mk _ _ a _ _ _ => a

/-- The field `t->bound`. -/
def Typ.bound : Typ → Int
  | .T => 0
  | .mk _ _ _ b _ _ => b

/-! ## Bit vectors (`Bvec`) -/

/-- A bit vector: `n` bits stored in 32-bit words `b`. -/
structure Bvec where
  n : Int
  b : List Nat
  deriving DecidableEq

/-- Modelled from the spec: `bvalloc` of the compiler's bit-vector module is
not in the sources at hand.  It gives a vector of `n` bits ("a bit per
machine-word-sized slot"), all clear, "packed into 4-byte (32-bit) chunks,
one chunk per 32 consecutive word-slots". -/
def bvalloc (n : Int) : Bvec :=
  { n := n, b := List.replicate ((n.toNat + 31) / 32) 0 }

/-- Modelled from the spec: `bvset` of the compiler's bit-vector module is not
in the sources at hand.  "bit i set means the word at offset i * wordsize
holds a pointer": bit `i` lives in chunk `i / 32` at position `i % 32`.  An
index outside `0 .. n-1` has no slot; the model answers `none` there, and
`walktype1` turns that into a fatal outcome. -/
def bvset (bv : Bvec) (i : Int) : Option Bvec :=
  if i < 0 ∨ bv.n ≤ i then none
  else
    some { n := bv.n
           b := bv.b.set (i.toNat / 32)
                  (bv.b.getD (i.toNat / 32) 0 ||| 1 <<< (i.toNat % 32)) }

/-- Bit `i` of the vector (false outside `0 .. n-1`). -/
def bvget (bv : Bvec) (i : Int) : Bool :=
  decide (0 ≤ i ∧ i < bv.n) && (bv.b.getD (i.toNat / 32) 0).testBit (i.toNat % 32)

/-! ## The type walk `walktype1` -/

/-- The reasons for which a walk stops. -/
inductive Fatal where
  /-- The text "walktype1: invalid initial alignment". -/
  | initialAlignment
  /-- The text "walktype1: invalid alignment". -/
  | alignment
  /-- The text "walktype1: invalid TARRAY alignment". -/
  | tarrayAlignment
  /-- The text "walktype1: invalid bound". -/
  | bound
  /-- The text "walktype1: unexpected type". -/
  | unexpected
  /-- An index handed to `bvset` has no slot in the vector. -/
  | bvsetRange
  /-- A nil pointer was dereferenced. -/
  | nilType
  /-- The text "bad width" of `allocauto`. -/
  | badWidth
  deriving DecidableEq

/-- Outcome of a walk: it finished with the running offset and the vector, or
the compiler stopped; the vector is kept in both cases so that one can say
which bits had been set. -/
inductive Walk where
  | done (xoffset : Int) (bv : Bvec)
  | fatal (why : Fatal) (bv : Bvec)
  deriving DecidableEq

/-- The vector a walk ended with. -/
def Walk.bv : Walk → Bvec
  | .done _ bv => bv
  | .fatal _ bv => bv

/-- What `walktype1` takes from the rest of the compiler: the pointer width
and the predicates `isslice` and `haspointers`. -/
structure Arch where
  widthptr : Int
  isslice : Typ → Bool
  haspointers : Typ → Bool

/-- The three statements shared by the pointer-shaped cases: check the
alignment to `widthptr` (failing with `why`), set bit `xoffset / widthptr`,
advance by `width`. -/
def walkptr (A : Arch) (why : Fatal) (width xoffset : Int) (bv : Bvec) : Walk :=
  if Int.tmod xoffset A.widthptr ≠ 0 then .fatal why bv
  else
    match bvset bv (Int.tdiv xoffset A.widthptr) with
    | none => .fatal .bvsetRange bv
    | some bv1 => .done (xoffset + width) bv1

/-- The loop `for(i = 0; i < t->bound; ++i) walktype1(t->type, xoffset, bv)`
with `f` the walk of the element type and `n` the number of rounds. -/
def walkarray (f : Int → Bvec → Walk) : Nat → Int → Bvec → Walk
  | 0, xoffset, bv => .done xoffset bv
  | n + 1, xoffset, bv =>
    match f xoffset bv with
    | .fatal why bv1 => .fatal why bv1
    | .done x1 bv1 => walkarray f n x1 bv1

mutual
/-- The function `walktype1(t, &xoffset, bv)` of `gc/pgen.c`. -/
def walktype1 (A : Arch) : Typ → Int → Bvec → Walk
  | .T, _, bv => .fatal .nilType bv
  | .mk etype width align bound type down, xoffset, bv =>
    if align > 0 ∧ Int.tmod xoffset align ≠ 0 then .fatal .initialAlignment bv
    else
      match etype with
      | .TINT8 | .TUINT8 | .TINT16 | .TUINT16 | .TINT32 | .TUINT32
      | .TINT64 | .TUINT64 | .TINT | .TUINT | .TUINTPTR | .TBOOL
      | .TFLOAT32 | .TFLOAT64 | .TCOMPLEX64 | .TCOMPLEX128 =>
        .done (xoffset + width) bv
      | .TPTR32 | .TPTR64 | .TUNSAFEPTR | .TFUNC | .TCHAN | .TMAP =>
        walkptr A .alignment width xoffset bv
      | .TSTRING =>
        walkptr A .alignment width xoffset bv
      | .TINTER =>
        if Int.tmod xoffset A.widthptr ≠ 0 then .fatal .alignment bv
        else
          match bvset bv (Int.tdiv xoffset A.widthptr) with
          | none => .fatal .bvsetRange bv
          | some bv1 =>
            match bvset bv1 (Int.tdiv (xoffset + A.widthptr) A.widthptr) with
            | none => .fatal .bvsetRange bv1
            | some bv2 => .done (xoffset + width) bv2
      | .TARRAY =>
        if bound < -1 then .fatal .bound bv
        else if A.isslice (.mk etype width align bound type down) then
          walkptr A .tarrayAlignment width xoffset bv
        else if !A.haspointers type then .done (xoffset + width) bv
        else walkarray (walktype1 A type) bound.toNat xoffset bv
      | .TSTRUCT => walkfields A width type 0 xoffset bv
      | _ => .fatal .unexpected bv
/-- The field loop of the `TSTRUCT` case, entered at field entry `t1` with
the running `o`, followed by the closing `*xoffset += t->width - o`, where
`width` is the width of the struct. -/
def walkfields (A : Arch) (width : Int) : Typ → Int → Int → Bvec → Walk
  | .T, o, xoffset, bv => .done (xoffset + (width - o)) bv
  | .mk _ fieldoffset _ _ ftype down, o, xoffset, bv =>
    match walktype1 A ftype (xoffset + (fieldoffset - o)) bv with
    | .fatal why bv1 => .fatal why bv1
    | .done x1 bv1 => walkfields A width down (fieldoffset + ftype.width) x1 bv1
end

/-- The function `walktype(type, bv)`: the walk started at offset 0. -/
def walktype (A : Arch) (type : Typ) (bv : Bvec) : Walk :=
  walktype1 A type 0 bv

/-! ## Emission of the pointer map (`pointermap`, `gcsymbol`) -/

/-- Modelled from the spec: `duint32` of the object writer is not in the
sources at hand.  It lays the 4-byte value `v` (taken modulo `2^32`) at byte
offset `off` of the symbol and answers the offset after it ("a 4-byte
local-frame-size field, followed by a 4-byte pointer-word count"). -/
def duint32 (s : Sym) (off : Int) (v : Int) : Sym × Int :=
  (s ++ [{ off := off, width := 4, val := v % 4294967296 }], off + 4)

/-- What `pointermap` reads of `fn->type`: the width of the argument area and
the results of `getthisx`, `getinargx` and `getoutargx` (`T` for nil). -/
structure FuncType where
  argwid : Int
  thistype : Typ
  inargtype : Typ
  outargtype : Typ

/-- The loop `for(i = 0; i < bv->n; i += 32) off = duint32(gcsym, off,
bv->b[i/32])`, entered with the running `i`; `fuel` bounds the number of
rounds (`bv->n` rounds are more than the loop makes). -/
def emitwords (bv : Bvec) : Nat → Int → Sym → Int → Sym × Int
  | 0, _, gcsym, off => (gcsym, off)
  | fuel + 1, i, gcsym, off =>
    if i < bv.n then
      let r := duint32 gcsym off (bv.b.getD (Int.tdiv i 32).toNat 0)
      emitwords bv fuel (i + 32) r.1 r.2
    else (gcsym, off)

/-- The three guarded calls of `walktype` in `pointermap`: receiver, incoming
and outgoing arguments, each walked from offset 0 into the same vector. -/
def walkargs (A : Arch) (fn : FuncType) (bv : Bvec) : Except Fatal Bvec :=
  let step (t : Typ) (bv : Bvec) : Except Fatal Bvec :=
    if t = .T then .ok bv
    else
      match walktype A t bv with
      | .done _ bv1 => .ok bv1
      | .fatal why _ => .error why
  match step fn.thistype bv with
  | .error why => .error why
  | .ok bv1 =>
    match step fn.inargtype bv1 with
    | .error why => .error why
    | .ok bv2 => step fn.outargtype bv2

/-- The function `pointermap(gcsym, off, fn)` of `gc/pgen.c`: the symbol after
the emission and the offset of the end of the map, or the fatal error of a
walk. -/
def pointermap (A : Arch) (gcsym : Sym) (off : Int) (fn : FuncType) :
    Except Fatal (Sym × Int) :=
  match walkargs A fn (bvalloc (Int.tdiv fn.argwid A.widthptr)) with
  | .error why => .error why
  | .ok bv =>
    let r := duint32 gcsym off bv.n
    .ok (emitwords bv bv.n.toNat 0 r.1 r.2)

/-- The function `gcsymbol(gcsym, fn)` of `gc/pgen.c` for the frame size
`stksize`: the data of the symbol and the size it is declared with by
`ggloblsym`. -/
def gcsymbol (A : Arch) (stksize : Int) (gcsym : Sym) (fn : FuncType) :
    Except Fatal (Sym × Int) :=
  let r := duint32 gcsym 0 stksize
  pointermap A r.1 r.2 fn

end Gc

namespace Gc

/-! ## Stack variables (`cmpstackvar`, `allocauto`) -/

/-- Storage classes of a name (`n->class`). -/
inductive Class where
  | PEXTERN | PAUTO | PPARAM | PPARAMOUT | PFUNC
  deriving DecidableEq

/-- Node operations (`n->op`) that the declaration list can hold. -/
inductive Op where
  | ONAME | OLITERAL | OTYPE | OOTHER
  deriving DecidableEq

/-- A declared name, with the fields that `cmpstackvar` and `allocauto` read
or write.  `id` tells nodes apart (the address of the node); `used` is an
unsigned byte; `width` and `align` are `n->type->width` and
`n->type->align`. -/
structure Node where
  id : Nat
  op : Op
  class_ : Class
  used : Nat
  xoffset : Int
  stkdelta : Int
  width : Int
  align : Int
  deriving DecidableEq

/-- The function `cmpstackvar(a, b)` of `gc/pgen.c`. -/
def cmpstackvar (a b : Node) : Int :=
  if a.class_ ≠ b.class_ then
    (if a.class_ = .PAUTO then 1 else -1)
  else if a.class_ ≠ .PAUTO then
    if a.xoffset < b.xoffset then -1
    else if a.xoffset > b.xoffset then 1
    else 0
  else if (decide (a.used = 0)) != (decide (b.used = 0)) then
    (b.used : Int) - (a.used : Int)
  else b.align - a.align

/-- Diagnostics recorded by `yyerror`. -/
inductive Diag where
  /-- The text "stack frame too large (>2GB)". -/
  | frameTooLarge
  deriving DecidableEq

/-- What `allocauto` takes from the rest of the compiler: the target letter,
the pointer width, `MAXWIDTH`, the rounding function `rnd`, the list sort
`listsort`, and `markautoused`, given as the set of node ids that the
instructions of the function refer to. -/
structure AutoEnv where
  thechar : Char
  widthptr : Int
  MAXWIDTH : Int
  rnd : Int → Int → Int
  listsort : (Node → Node → Int) → List Node → List Node
  markautoused : Nat → Bool

/-- The globals that `allocauto` reads and writes: the declaration list
`curfn->dcl`, the frame size `stksize` and the diagnostics so far. -/
structure Frame where
  dcl : List Node
  stksize : Int
  errors : List Diag
  deriving DecidableEq

/-- The test `n->class == PAUTO && n->op == ONAME && !n->used`. -/
def unusedauto (n : Node) : Bool :=
  decide (n.class_ = .PAUTO) && decide (n.op = .ONAME) && decide (n.used = 0)

/-- The loop that cuts the list before the first unused auto after its head:
`for(ll = curfn->dcl; ll->next != nil; ll = ll->next)`, entered at `ll`. -/
def chop : List Node → List Node
  | [] => []
  | [a] => [a]
  | a :: b :: rest => if unusedauto b then [a] else a :: chop (b :: rest)

/-- The loop "Reassign stack offsets of the locals that are still there",
entered at a list cell with the running `stksize` and diagnostics: it answers
the nodes with their `stkdelta`, the final `stksize` and the diagnostics.
The comparison with `1ULL<<31` is one of unsigned 64-bit values. -/
def assignoffsets (E : AutoEnv) :
    List Node → Int → List Diag → Except Fatal (List Node × Int × List Diag)
  | [], stksize, errors => .ok ([], stksize, errors)
  | n :: rest, stksize, errors =>
    if n.class_ ≠ .PAUTO ∨ n.op ≠ .ONAME then
      match assignoffsets E rest stksize errors with
      | .error why => .error why
      | .ok (ns, s, es) => .ok (n :: ns, s, es)
    else
      let w := n.width
      if w ≥ E.MAXWIDTH ∨ w < 0 then .error .badWidth
      else
        let s1 := stksize + w
        let s2 := E.rnd s1 n.align
        let s3 := if E.thechar = '5' then E.rnd s2 E.widthptr else s2
        let errors1 :=
          if s3 % 18446744073709551616 ≥ 2147483648 then errors ++ [Diag.frameTooLarge]
          else errors
        match assignoffsets E rest s3 errors1 with
        | .error why => .error why
        | .ok (ns, s, es) => .ok ({ n with stkdelta := -s3 - n.xoffset } :: ns, s, es)

/-- The last loop of `allocauto`: "The debug information needs accurate
offsets on the symbols". -/
def applydeltas (dcl : List Node) : List Node :=
  dcl.map (fun n =>
    if n.class_ ≠ .PAUTO ∨ n.op ≠ .ONAME then n
    else { n with xoffset := n.xoffset + n.stkdelta, stkdelta := 0 })

/-- The function `allocauto(ptxt)` of `gc/pgen.c`.  `dowidth` finds the width
already known and `fixautoused` rewrites instructions only, so neither shows
in the state. -/
def allocauto (E : AutoEnv) (st : Frame) : Except Fatal Frame :=
  if st.dcl = [] then .ok st
  else
    -- mark the autos unused
    let dcl1 := st.dcl.map (fun n => if n.class_ = .PAUTO then { n with used := 0 } else n)
    -- markautoused(ptxt)
    let dcl2 := dcl1.map (fun n => if E.markautoused n.id then { n with used := 1 } else n)
    let dcl3 := E.listsort cmpstackvar dcl2
    match dcl3 with
    | [] => .error .nilType
    | n :: rest =>
      if unusedauto n then
        -- No locals used at all
        .ok { dcl := [], stksize := 0, errors := st.errors }
      else
        match assignoffsets E (chop (n :: rest)) 0 st.errors with
        | .error why => .error why
        | .ok (ns, stksize, errors) =>
          .ok { dcl := applydeltas ns, stksize := stksize, errors := errors }

/-! ## Vocabulary of the statements about `walktype1` -/

/-- A vector holds a word for each of its bits, as the ones made by
`bvalloc` do. -/
def Bvec.Stored (bv : Bvec) : Prop := bv.n.toNat ≤ 32 * bv.b.length

instance (bv : Bvec) : Decidable bv.Stored := by
  unfold Bvec.Stored; infer_instance

/-- The kinds of the first case of `walktype1`: scalars that hold no
pointer. -/
def EType.isScalar : EType → Bool
  | .TINT8 | .TUINT8 | .TINT16 | .TUINT16 | .TINT32 | .TUINT32
  | .TINT64 | .TUINT64 | .TINT | .TUINT | .TUINTPTR | .TBOOL
  | .TFLOAT32 | .TFLOAT64 | .TCOMPLEX64 | .TCOMPLEX128 => true
  | _ => false

/-- Raw pointers: `TPTR32`, `TPTR64` and `TUNSAFEPTR`. -/
def EType.isRawPtr : EType → Bool
  | .TPTR32 | .TPTR64 | .TUNSAFEPTR => true
  | _ => false

/-- Kinds that are one pointer word followed by non-pointer words, apart from
slices: pointer, unsafe pointer, func, chan, map and string. -/
def EType.isPtrWord : EType → Bool
  | .TPTR32 | .TPTR64 | .TUNSAFEPTR | .TFUNC | .TCHAN | .TMAP | .TSTRING => true
  | _ => false

/-- The chain of field entries (`TFIELD`, linked through `down`) of a struct
whose fields are given as pairs of field offset and field type. -/
def fieldchain : List (Int × Typ) → Typ
  | [] => .T
  | f :: rest => .mk .TFIELD f.1 0 0 f.2 (fieldchain rest)

/-- The struct type of the given width and alignment with the given
fields. -/
def mkstruct (width align : Int) (fields : List (Int × Typ)) : Typ :=
  .mk .TSTRUCT width align 0 (fieldchain fields) .T

/-- Pointer-shaped values: one of the kinds of `isPtrWord`, an interface, or
an array type that `isslice` takes for a slice. -/
def PtrShaped (A : Arch) (t : Typ) : Prop :=
  t.etype.isPtrWord = true ∨ t.etype = .TINTER ∨ (t.etype = .TARRAY ∧ A.isslice t = true)

instance (A : Arch) (t : Typ) : Decidable (PtrShaped A t) := by
  unfold PtrShaped; infer_instance

mutual
/-- The type `t` placed at byte offset `x` holds no pointer and meets every
alignment check: it is a scalar, an array that is no slice and whose element
type has `haspointers` false, or a struct of such types, each at an offset
that is a multiple of its alignment. -/
def plainAt (A : Arch) : Typ → Int → Bool
  | .T, _ => false
  | .mk e w a b ty dn, x =>
    decide (0 < a → x % a = 0) &&
    (e.isScalar ||
      (decide (e = .TARRAY) && decide (-1 ≤ b) && !A.isslice (.mk e w a b ty dn)
        && !A.haspointers ty) ||
      (decide (e = .TSTRUCT) && plainFieldsAt A ty x))
/-- Every field of the chain of field entries, for a struct placed at `x`,
satisfies `plainAt` at `x` plus its field offset. -/
def plainFieldsAt (A : Arch) : Typ → Int → Bool
  | .T, _ => true
  | .mk _ fieldoffset _ _ ftype down, x =>
    plainAt A ftype (x + fieldoffset) && plainFieldsAt A down x
end

/-- The chunks of the vector `bv` laid down from byte offset `off`: chunk `k`
is the 4-byte datum at `off + 4 * k` holding word `k` of the vector. -/
def mapwords (bv : Bvec) (off : Int) : Sym :=
  (List.range (nchunks bv.n)).map
    (fun (k : Nat) =>
      { off := off + 4 * (k : Int), width := 4, val := (bv.b.getD k 0 : Int) % 4294967296 })

/-- The words of an all-zero map of `n` bits laid down from byte offset
`off`: one zero word per 32 bits. -/
def zerowords (off : Int) (n : Int) : Sym :=
  (List.range (nchunks n)).map
    (fun (k : Nat) => { off := off + 4 * (k : Int), width := 4, val := 0 })

/-! ## Sample inputs -/

/-- The 64-bit target: pointers of 8 bytes; a slice is an array type of
negative bound; every kind but the scalars counts as holding pointers. -/
def amd64 : Arch :=
  { widthptr := 8
    isslice := fun t => decide (t.etype = .TARRAY ∧ t.bound < 0)
    haspointers := fun t => !t.etype.isScalar }

/-- The type `*T` on the 64-bit target. -/
def ptr64 : Typ := .mk .TPTR64 8 8 0 .T .T

/-- The type `int32`. -/
def int32T : Typ := .mk .TINT32 4 4 0 .T .T

/-- An interface type on the 64-bit target. -/
def interT : Typ := .mk .TINTER 16 8 0 .T .T

/-- The fields of `struct { p *T; i int32; q *T }` on the 64-bit target. -/
def sampleFields : List (Int × Typ) := [(0, ptr64), (8, int32T), (16, ptr64)]

/-- The type `[4]int32`. -/
def arr4int32 : Typ := .mk .TARRAY 16 4 4 int32T .T

/-- The argument struct `(a int32, b [4]int32)`: fields at offsets 0 and 4 in
an area of 24 bytes. -/
def plainArgs : Typ := mkstruct 24 8 [(0, int32T), (4, arr4int32)]

/-- A function type whose only arguments are `plainArgs`. -/
def plainFn : FuncType :=
  { argwid := 24, thistype := .T, inargtype := plainArgs, outargtype := .T }

/-- A function type whose arguments are `struct { p *T; i int32; q *T }` in an
area of 24 bytes. -/
def sampleFn : FuncType :=
  { argwid := 24, thistype := .T, inargtype := mkstruct 24 8 sampleFields, outargtype := .T }

/-- A parameter at offset 0 whose `used` flag is clear. -/
def paramA : Node :=
  { id := 1, op := .ONAME, class_ := .PPARAM, used := 0, xoffset := 0, stkdelta := 0,
    width := 8, align := 8 }

/-- A result at offset 8 whose `used` flag is clear. -/
def resultB : Node :=
  { id := 2, op := .ONAME, class_ := .PPARAMOUT, used := 0, xoffset := 8, stkdelta := 0,
    width := 8, align := 8 }

/-- An auto of 8 bytes. -/
def autoC : Node :=
  { id := 3, op := .ONAME, class_ := .PAUTO, used := 1, xoffset := -8, stkdelta := 0,
    width := 8, align := 8 }

/-- A second auto of 4 bytes. -/
def autoD : Node :=
  { id := 4, op := .ONAME, class_ := .PAUTO, used := 1, xoffset := -12, stkdelta := 0,
    width := 4, align := 4 }

/-- A frame with the two autos declared and 16 bytes of stack so far. -/
def autosFrame : Frame := { dcl := [autoC, autoD], stksize := 16, errors := [] }

/-- A frame without declared names and 8 bytes of stack so far. -/
def emptyFrame : Frame := { dcl := [], stksize := 8, errors := [] }

/-- A sample environment of `allocauto`: the 64-bit target, rounding up to a
multiple of the alignment, an insertion sort along `cmpstackvar`, and
instructions that refer to no declared name. -/
def quietEnv : AutoEnv :=
  { thechar := '6'
    widthptr := 8
    MAXWIDTH := 1125899906842624
    rnd := fun o r => (o + r - 1) / r * r
    listsort := fun f l => l.insertionSort (fun a b => f a b < 0)
    markautoused := fun _ => false }

end Gc

namespace Cc

/-! ## Types of the C compiler (`Type` of `cc.h`) -/

/-- Kinds of type (`t->etype`) of the C compiler that `pgen.c` tells apart;
`TFUNC` and `TENUM` stand for the kinds that `pointermap_type` does not
list. -/
inductive EType where
  | TCHAR | TUCHAR | TSHORT | TUSHORT | TINT | TUINT | TLONG | TULONG
  | TVLONG | TUVLONG | TFLOAT | TDOUBLE
  | TIND | TARRAY | TSTRUCT | TUNION | TVOID | TDOT | TFUNC | TENUM
  deriving DecidableEq

/-- A `Type` of the C compiler with the fields `pgen.c` reads: the kind, the
byte offset of a member inside its aggregate (`t->offset`), the width, and
the chain that starts at `t->link` and goes on through `->down`, written as
a list (the members of a struct or union; `[]` is a nil `t->link`). -/
inductive Typ where
  | mk (etype : EType) (offset width : Int) (link : List Typ) : Typ

/-- The field `t->etype`. -/
def Typ.etype : Typ → EType
  | .mk e _ _ _ => e

/-- The field `t->offset`. -/
def Typ.offset : Typ → Int
  | .mk _ o _ _ => o

/-- The chain from `t->link`. -/
def Typ.link : Typ → List Typ
  | .mk _ _ _ l => l

/-- Diagnostics recorded by `yyerror`, which returns to its caller. -/
inductive Diag where
  /-- The text "unaligned pointer". -/
  | unalignedPointer
  /-- The text "invalid union in argument list - pointer maps differ". -/
  | unionMapsDiffer
  /-- The text "can't handle arg type". -/
  | cantHandleArgType
  /-- The text "function takes ... without textflag NOSPLIT". -/
  | dotsWithoutNosplit
  /-- The text "passbyptr arg not the right size". -/
  | passbyptrSize
  deriving DecidableEq

/-- The operations of `align` that `pgen.c` asks for. -/
inductive AlignOp where
  | Aarg0 | Aarg1 | Aarg2
  deriving DecidableEq

/-- What `pgen.c` takes from the machine-specific part of the C compiler: the
target letter, the pointer width `ewidth[TIND]` and the function
`align(i, t, op, nil)`. -/
structure Mach where
  thechar : Char
  ewidthTIND : Int
  align : Int → Typ → AlignOp → Int

/-- The function type `thisfn`: the result type `thisfn->link` and the
parameters from `thisfn->down`. -/
structure Func where
  link : Typ
  down : List Typ

/-- A value stored in an `int32`: wrapped to `-2^31 .. 2^31 - 1`. -/
def int32 (x : Int) : Int := (x + 2147483648) % 4294967296 - 2147483648

/-- The constant `ArgsSizeUnknown` of `funcdata.h`: `0x80000000`. -/
def ArgsSizeUnknown : Int := 0x80000000

/-! ## `hasdotdotdot` and `argsize` -/

/-- The function `hasdotdotdot()`, on the parameters of `thisfn`. -/
def hasdotdotdot : List Typ → Bool
  | [] => false
  | t :: rest => if t.etype = .TDOT then true else hasdotdotdot rest

/-- The expression `x & ~k` on 32-bit values, for `k` one of 7 and 3: the
bitwise and of the two's complement patterns of `x` and `~k`, read back as an
`int32`. -/
def andnot (x : Int) (k : Nat) : Int :=
  int32 (((x % 4294967296).toNat &&& (4294967295 - k) : Nat) : Int)

/-- The loop of `argsize()` over the parameters with the running `s`, and the
statements after it; `nosplit` is `(textflag & NOSPLIT) != 0`. -/
def argsizeloop (M : Mach) (nosplit : Bool) : List Typ → Int → Int × List Diag
  | [], s =>
    if M.thechar = '6' then (andnot (s + 7) 7, [])
    else (andnot (s + 3) 3, [])
  | t :: rest, s =>
    match t.etype with
    | .TVOID => argsizeloop M nosplit rest s
    | .TDOT =>
      (ArgsSizeUnknown, if nosplit then [] else [Diag.dotsWithoutNosplit])
    | _ =>
      argsizeloop M nosplit rest (int32 (M.align (int32 (M.align s t .Aarg1)) t .Aarg2))

/-- The function `argsize()`: the value returned and the diagnostics. -/
def argsize (M : Mach) (nosplit : Bool) (thisfn : Func) : Int × List Diag :=
  argsizeloop M nosplit thisfn.down (int32 (M.align 0 thisfn.link .Aarg0))

/-! ## The pointer map of the argument list -/

mutual
/-- The function `pointermap_type(t, offset, baseidx)` of `cc/pgen.c`: the
32-bit map (as a bit pattern) and the diagnostics, or `none` when a nil
pointer is dereferenced (a union without members).  Byte offsets and word
indexes of an argument list stay far below `2^31`: their sums and quotients
are not wrapped. -/
def pointermap_type (M : Mach) : Typ → Int → Int → Option (Nat × List Diag)
  | .mk etype toffset _ link, offset, baseidx =>
    match etype with
    | .TCHAR | .TUCHAR | .TSHORT | .TUSHORT | .TINT | .TUINT | .TLONG | .TULONG
    | .TVLONG | .TUVLONG | .TFLOAT | .TDOUBLE =>
      some (0, [])
    | .TIND | .TARRAY =>
      let errs :=
        if Int.tmod (offset + toffset) M.ewidthTIND ≠ 0 then [Diag.unalignedPointer] else []
      let idx := Int.tdiv (offset + toffset) M.ewidthTIND
      if idx ≥ baseidx ∧ idx < baseidx + 32 then some (1 <<< (idx - baseidx).toNat, errs)
      else some (0, errs)
    | .TSTRUCT => structmembers M link offset baseidx 0 []
    | .TUNION =>
      match link with
      | [] => none
      | t0 :: rest =>
        match pointermap_type M t0 offset baseidx with
        | none => none
        | some (m, errs) => unionmembers M rest offset baseidx m errs
    | _ => some (0, [Diag.cantHandleArgType])
/-- The loop of the `TSTRUCT` case over the members from `t1` on, with the
running map `m`. -/
def structmembers (M : Mach) :
    List Typ → Int → Int → Nat → List Diag → Option (Nat × List Diag)
  | [], _, _, m, errs => some (m, errs)
  | t1 :: rest, offset, baseidx, m, errs =>
    match pointermap_type M t1 offset baseidx with
    | none => none
    | some (m1, errs1) => structmembers M rest offset baseidx (m ||| m1) (errs ++ errs1)
/-- The loop of the `TUNION` case over the members after the first, with the
map `m` of the first member. -/
def unionmembers (M : Mach) :
    List Typ → Int → Int → Nat → List Diag → Option (Nat × List Diag)
  | [], _, _, m, errs => some (m, errs)
  | t1 :: rest, offset, baseidx, m, errs =>
    match pointermap_type M t1 offset baseidx with
    | none => none
    | some (m1, errs1) =>
      unionmembers M rest offset baseidx m
        (errs ++ errs1 ++ (if m1 ≠ m then [Diag.unionMapsDiffer] else []))
end

/-- Modelled from the spec: `gextern` of the machine-specific part is not in
the sources at hand.  `gextern(s, nodconst(v), off, w)` lays the `w`-byte
value `v` (taken modulo `2^32` for `w = 4`) at byte offset `off` of the
symbol ("a 4-byte pointer-word count, followed by that many bits packed into
4-byte (32-bit) chunks"). -/
def gextern (s : Sym) (v : Int) (off : Int) (w : Int) : Sym :=
  s ++ [{ off := off, width := w, val := v % 4294967296 }]

/-- The loop of `pointermap` over the parameters for the chunk starting at
word index `i`, with the running argument offset `s` and map `m`. -/
def parammasks (M : Mach) :
    List Typ → Int → Int → Nat → List Diag → Option (Nat × List Diag)
  | [], _, _, m, errs => some (m, errs)
  | t :: rest, s, i, m, errs =>
    if t.etype = .TVOID then parammasks M rest s i m errs
    else
      let s1 := int32 (M.align s t .Aarg1)
      match pointermap_type M t s1 i with
      | none => none
      | some (m1, errs1) =>
        parammasks M rest (int32 (M.align s1 t .Aarg2)) i (m ||| m1) (errs ++ errs1)

/-- The body of the loop of `pointermap` up to the emission: the mask for
the pointers at word indexes `i ... i+31`. -/
def chunkmask (M : Mach) (thisfn : Func) (i : Int) : Option (Nat × List Diag) :=
  let s := int32 (M.align 0 thisfn.link .Aarg0)
  if s > 0 ∧ i = 0 then
    parammasks M thisfn.down s i 1
      (if s ≠ M.ewidthTIND then [Diag.passbyptrSize] else [])
  else parammasks M thisfn.down s i 0 []

/-- The loop `for(i = 0; i < nptrs; i += 32)` of `pointermap`, entered with
the running `i`, symbol, offset and diagnostics; `fuel` bounds the number of
rounds. -/
def emitchunks (M : Mach) (thisfn : Func) (nptrs : Int) :
    Nat → Int → Sym → Int → List Diag → Option (Sym × Int × List Diag)
  | 0, _, gcsym, off, errs => some (gcsym, off, errs)
  | fuel + 1, i, gcsym, off, errs =>
    if i < nptrs then
      match chunkmask M thisfn i with
      | none => none
      | some (m, errs1) =>
        emitchunks M thisfn nptrs fuel (i + 32) ( gextern gcsym m off 4) (off + 4)
          (errs ++ errs1)
    else some (gcsym, off, errs)

/-- The function `pointermap(gcsym, off)` of `cc/pgen.c`: the symbol, the
offset of the end of the bit vector and the diagnostics. -/
def pointermap (M : Mach) (nosplit : Bool) (thisfn : Func) (gcsym : Sym) (off : Int) :
    Option (Sym × Int × List Diag) :=
  if hasdotdotdot thisfn.down then
    some ( gextern gcsym 0 off 4, off + 4, [])
  else
    let a := argsize M nosplit thisfn
    let nptrs := int32 (Int.tdiv (a.1 + M.ewidthTIND - 1) M.ewidthTIND)
    emitchunks M thisfn nptrs nptrs.toNat 0 ( gextern gcsym nptrs off 4) (off + 4) a.2

/-- The last statements of `codgen`, which fill the funcdata symbol: the
frame size `stkoff` at offset 0, then the pointer map; the answer holds the
data, the width given to the symbol and the diagnostics. -/
def codgen_gcsym (M : Mach) (nosplit : Bool) (thisfn : Func) (stkoff : Int) :
    Option (Sym × Int × List Diag) :=
  pointermap M nosplit thisfn ( gextern [] stkoff 0 4) 4

/-! ## Vocabulary of the statements about `pointermap_type` -/

/-- The kinds of the first case of `pointermap_type`: "non-pointer types". -/
def EType.isScalar : EType → Bool
  | .TCHAR | .TUCHAR | .TSHORT | .TUSHORT | .TINT | .TUINT | .TLONG | .TULONG
  | .TVLONG | .TUVLONG | .TFLOAT | .TDOUBLE => true
  | _ => false

mutual
/-- An aggregate of non-pointer scalars without array members: a scalar, a
struct of such types, or a union with at least one member of such types. -/
def scalarsOnly : Typ → Bool
  | .mk etype _ _ link =>
    etype.isScalar ||
      (decide (etype = .TSTRUCT) && allScalarsOnly link) ||
      (decide (etype = .TUNION) && !link.isEmpty && allScalarsOnly link)
/-- Every type of the chain satisfies `scalarsOnly`. -/
def allScalarsOnly : List Typ → Bool
  | [] => true
  | t :: rest => scalarsOnly t && allScalarsOnly rest
end

/-- The count that `pointermap` lays down: 0 for a variadic function, else
the size of the arguments in pointer words, rounded up. -/
def nptrs (M : Mach) (nosplit : Bool) (thisfn : Func) : Int :=
  if hasdotdotdot thisfn.down then 0
  else int32 (Int.tdiv ((argsize M nosplit thisfn).1 + M.ewidthTIND - 1) M.ewidthTIND)

/-- The mask that `chunkmask` computes for chunk `k`, whose first word index
is `32 * k` (0 when the computation stops on a nil pointer). -/
def maskof (M : Mach) (thisfn : Func) (k : Nat) : Nat :=
  match chunkmask M thisfn (32 * (k : Int)) with
  | some (m, _) => m
  | none => 0

/-- The chunks of the map of `n` words laid down from byte offset `off`:
chunk `k` is the 4-byte datum at `off + 4 * k` holding the mask of chunk
`k`. -/
def chunkwords (M : Mach) (thisfn : Func) (off : Int) (n : Int) : Sym :=
  (List.range (nchunks n)).map
    (fun (k : Nat) =>
      { off := off + 4 * (k : Int), width := 4,
        val := (maskof M thisfn k : Int) % 4294967296 })

/-! ## Sample inputs -/

/-- The 64-bit target of the C compiler with arguments laid out one after
the other, each rounded up to 8 bytes (`Aarg1` answers the offset of the
argument, `Aarg2` the offset after it, `Aarg0` no hidden first argument). -/
def amd64 : Mach :=
  { thechar := '6'
    ewidthTIND := 8
    align := fun i t op =>
      match op with
      | .Aarg0 => 0
      | .Aarg1 => i
      | .Aarg2 =>
        match t with
        | .mk _ _ w _ => i + (w + 7) / 8 * 8 }

/-- The member `char buf[8]` at member offset 0. -/
def charbuf : Typ := .mk .TARRAY 0 8 [.mk .TCHAR 0 1 []]

/-- The type `struct { char buf[8]; }`. -/
def bufstruct : Typ := .mk .TSTRUCT 0 8 [charbuf]

/-- The member `char *p` at member offset 0. -/
def charptr : Typ := .mk .TIND 0 8 [.mk .TCHAR 0 1 []]

/-- The member `long n` at member offset 0. -/
def longmember : Typ := .mk .TLONG 0 8 []

/-- The type `union { char *p; long n; }`. -/
def ptrlong : Typ := .mk .TUNION 0 8 [charptr, longmember]

/-- The parameter entry `...`. -/
def dots : Typ := .mk .TDOT 0 0 []

/-- The type `void`. -/
def voidT : Typ := .mk .TVOID 0 0 []

/-- The function type `void f(char *p, ...)`. -/
def variadicFn : Func := { link := voidT, down := [charptr, dots] }

/-- The function type `void g(char *p, long n)`. -/
def fixedFn : Func := { link := voidT, down := [charptr, longmember] }

end Cc

namespace Gc

/-! ## Vocabulary of the statements about `allocauto` -/

/-- The test `n->class == PAUTO && n->op == ONAME` that the loops of
`allocauto` apply: the node is an auto local. -/
def isauto (n : Node) : Bool :=
  decide (n.class_ = .PAUTO) && decide (n.op = .ONAME)

/-- The list after the two marking steps of `allocauto`: the autos marked
unused, then `markautoused`. -/
def marked (E : AutoEnv) (dcl : List Node) : List Node :=
  (dcl.map (fun n => if n.class_ = .PAUTO then { n with used := 0 } else n)).map
    (fun n => if E.markautoused n.id then { n with used := 1 } else n)

/-- The list after `listsort(&curfn->dcl, cmpstackvar)`. -/
def sorted (E : AutoEnv) (dcl : List Node) : List Node :=
  E.listsort cmpstackvar (marked E dcl)

/-- One step of the recurrence for the frame size: `S + width` rounded up to
the alignment of the local, and rounded to `widthptr` as well on target
`5`. -/
def framestep (E : AutoEnv) (S : Int) (n : Node) : Int :=
  if E.thechar = '5' then E.rnd (E.rnd (S + n.width) n.align) E.widthptr
  else E.rnd (S + n.width) n.align

/-- The sizes `S_1, S_2, ...` of the recurrence `S_k = framestep S_(k-1)`
along a list of autos, started from `S`. -/
def framesizes (E : AutoEnv) : List Node → Int → List Int
  | [], _ => []
  | n :: rest, S => framestep E S n :: framesizes E rest (framestep E S n)

/-- The nodes that the last two loops of `allocauto` leave for a list of
kept nodes and a running size `S`: an auto gets `xoffset = -S_k` and
`stkdelta = 0`, every other node is left as it is. -/
def place (E : AutoEnv) : List Node → Int → List Node
  | [], _ => []
  | n :: rest, S =>
    if isauto n then
      { n with xoffset := -(framestep E S n), stkdelta := 0 } :: place E rest (framestep E S n)
    else n :: place E rest S

/-- The running size after the autos of the list, started from `S`. -/
def endsize (E : AutoEnv) : List Node → Int → Int
  | [], S => S
  | n :: rest, S => if isauto n then endsize E rest (framestep E S n) else endsize E rest S

/-- The check of `compile` after `allocauto`:
`(int64)stksize+maxarg > (1ULL<<31)`, a comparison of unsigned 64-bit
values; `true` when "stack frame too large" is reported. -/
def framecheck (stksize maxarg : Int) : Bool :=
  decide ((stksize + maxarg) % 18446744073709551616 > 2147483648)

/-- A sample environment like `quietEnv` in which the instructions refer to
every declared name. -/
def liveEnv : AutoEnv :=
  { thechar := '6'
    widthptr := 8
    MAXWIDTH := 1125899906842624
    rnd := fun o r => (o + r - 1) / r * r
    listsort := fun f l => l.insertionSort (fun a b => f a b < 0)
    markautoused := fun _ => true }

/-- The frame that `allocauto` leaves for `autosFrame` when both autos are
used: `autoC` at `-8`, `autoD` at `-12`, 12 bytes in all. -/
def autosPlaced : Frame :=
  { dcl := [{ autoC with xoffset := -8 }, { autoD with xoffset := -12 }],
    stksize := 12, errors := [] }

/-- The node is an auto local that the marking left used. -/
def usedauto (n : Node) : Bool := isauto n && decide (n.used ≠ 0)

/-- The order that `allocauto` needs from the sorted list: a pair of nodes
of which at least one is of class `PAUTO` stands in the order of
`cmpstackvar`. -/
def AutoOrdered (l : List Node) : Prop :=
  l.Pairwise (fun a b => (a.class_ = .PAUTO ∨ b.class_ = .PAUTO) → cmpstackvar a b ≤ 0)

instance (l : List Node) : Decidable (AutoOrdered l) := by
  unfold AutoOrdered; infer_instance

/-- A sample environment in which the instructions refer to `autoC` (id 3)
alone. -/
def mixedEnv : AutoEnv :=
  { thechar := '6'
    widthptr := 8
    MAXWIDTH := 1125899906842624
    rnd := fun o r => (o + r - 1) / r * r
    listsort := fun f l => l.insertionSort (fun a b => f a b < 0)
    markautoused := fun i => decide (i = 3) }

/-- A frame with an auto that is not used, an auto that is, and a
parameter. -/
def mixedFrame : Frame := { dcl := [autoD, autoC, paramA], stksize := 0, errors := [] }

/-- The frame that `allocauto` leaves for `mixedFrame` under `mixedEnv`: the
parameter, then `autoC` at `-8`; `autoD` is gone. -/
def mixedPlaced : Frame :=
  { dcl := [paramA, { autoC with xoffset := -8 }], stksize := 8, errors := [] }

/-- An auto of 16 bytes with the alignment of `autoC`. -/
def autoE : Node :=
  { id := 8, op := .ONAME, class_ := .PAUTO, used := 1, xoffset := 0, stkdelta := 0,
    width := 16, align := 8 }

/-- A frame with two autos that `cmpstackvar` ranks equal. -/
def tiedFrame : Frame := { dcl := [autoC, autoE], stksize := 0, errors := [] }

/-- The frame after one run of `allocauto` on `tiedFrame` under `liveEnv`,
whose sort puts a node before another only when `cmpstackvar` is
negative. -/
def tiedOnce : Frame :=
  { dcl := [{ autoE with xoffset := -16 }, { autoC with xoffset := -24 }],
    stksize := 24, errors := [] }

/-- The frame after a second run. -/
def tiedTwice : Frame :=
  { dcl := [{ autoC with xoffset := -8 }, { autoE with xoffset := -24 }],
    stksize := 24, errors := [] }

/-- A sample environment like `liveEnv` whose sort keeps the order of nodes
that `cmpstackvar` ranks equal. -/
def stableEnv : AutoEnv :=
  { thechar := '6'
    widthptr := 8
    MAXWIDTH := 1125899906842624
    rnd := fun o r => (o + r - 1) / r * r
    listsort := fun f l => l.insertionSort (fun a b => f a b ≤ 0)
    markautoused := fun _ => true }

/-- The frame after one run of `allocauto` on `tiedFrame` under
`stableEnv`. -/
def tiedStable : Frame :=
  { dcl := [{ autoC with xoffset := -8 }, { autoE with xoffset := -24 }],
    stksize := 24, errors := [] }

/-- An auto of `2^31` bytes, as `var buf [1<<31]byte` declares. -/
def bigauto : Node :=
  { id := 7, op := .ONAME, class_ := .PAUTO, used := 0, xoffset := 0, stkdelta := 0,
    width := 2147483648, align := 1 }

/-- A frame that declares `bigauto` alone. -/
def bigFrame : Frame := { dcl := [bigauto], stksize := 0, errors := [] }

end Gc

namespace Cc

/-! ## The instruction stream and the state of `gen` -/

/-- Opcodes as far as `gen` tells them apart: the jump and the return that
`gbranch` makes, the conditional branch that `boolgen` leaves in `p`, and
any other instruction. -/
inductive As where
  | AJMP | ARET | ACOND | ACODE
  deriving DecidableEq

/-- An instruction (`Prog`): `id` tells the records apart (the address of
the record), `to_` is the branch target (`to`) once `patch` has set it. -/
structure Prog where
  id : Nat
  as : As
  to_ : Option Int
  deriving DecidableEq

/-- An entry of the case table (`Case`). -/
structure Case where
  val : Int
  def_ : Bool
  label : Int
  isv : Bool
  deriving DecidableEq

/-- The mutable fields of a label node: the position `pc` (0 while the
label has not been reached) and the pending branch `label`. -/
structure LabelRec where
  pc : Int
  label : Option Nat
  deriving DecidableEq

/-- Messages of `warn` and `diag` in `gen`. -/
inductive Msg where
  /-- The warning "unreachable code %O". -/
  | unreachable
  /-- The warning "unreachable code FOR". -/
  | unreachableFor
  /-- The warning "unreachable FOR inc". -/
  | unreachableInc
  /-- The text "label undefined: %s". -/
  | labelUndefined
  /-- The text "case/default outside a switch". -/
  | caseOutside
  /-- The text "case expression must be integer constant". -/
  | caseNotConst
  /-- The text "switch expression must be integer". -/
  | switchNotInt
  /-- The text "continue not in a loop". -/
  | continueOutside
  /-- The text "break not in a loop". -/
  | breakOutside
  deriving DecidableEq

/-- The globals that `gen` reads and writes.  `prog` is the live stream from
`firstp` to `lastp`; `nprog` counts the records made so far, so that the
next record gets `id = nprog`; `p` is the record made last. -/
structure GenState where
  pc : Int
  p : Nat
  nprog : Nat
  prog : List Prog
  canreach : Bool
  warnreach : Bool
  suppress : Int
  breakpc : Int
  continpc : Int
  nbreak : Int
  ncontin : Int
  cases : List Case
  labels : Nat → LabelRec
  msgs : List Msg

/-- What `gen` reads of an expression node after `complex`: the number of
instructions that `cgen` (or `boolgen`, before its last branch) makes for
it, whether it kept a type (`n->type != T`), whether it is a constant
(`n->op == OCONST`), and the attributes of its type and value that `gen`
consults. -/
structure Expr where
  ninstr : Nat
  typed : Bool
  oconst : Bool
  typefd : Bool
  fconst0 : Bool
  vconst : Int
  vconstval : Int
  chlvp : Bool
  word : Bool
  ind : Bool
  typev : Bool
  deriving DecidableEq

/-- A label node as `gen` reads it: which label it is, and `n->complex`
(the label is defined somewhere in the function). -/
structure Label where
  id : Nat
  complex : Bool
  deriving DecidableEq

/-- Statement trees, by the `n->op` that `gen` switches on and the children
it reads.  `OEXPR` stands for every op of the `default` case, `OUSED` for
`OSET`, `OUSED` and `OPREFETCH`; `OFOR` holds `l->right->left` (init),
`l->left` (test), `l->right->right` (inc) and `n->right` (body); `OIF`
holds the condition and the two branches `n->right->left` and
`n->right->right`. -/
inductive Node where
  | Z
  | OEXPR (e : Expr)
  | OLIST (left right : Node)
  | ORETURN (e : Expr)
  | OLABEL (left : Option Label) (right : Node)
  | OGOTO (left : Option Label)
  | OCASE (left : Option Expr) (right : Node)
  | OSWITCH (left : Expr) (right : Node)
  | OWHILE (left : Expr) (right : Node)
  | ODWHILE (left : Expr) (right : Node)
  | OFOR (init : Node) (test : Option Expr) (inc : Node) (right : Node)
  | OCONTINUE
  | OBREAK
  | OIF (left : Expr) (thn els : Node)
  | OUSED (e : Expr)
  deriving DecidableEq

/-- The test `n == Z`. -/
def Node.isZ : Node → Bool
  | .Z => true
  | _ => false

/-- What `gen` takes from other files of the compiler: `deadheads`, the
number of instructions that `doswit` makes for a case table, and the
warning level `debug['w']`. -/
structure GenEnv where
  deadheads : Node → Bool
  doswit : List Case → Expr → Nat
  debugw : Int

/-- Modelled from the spec: `nextpc` of the machine-specific part is not in
the sources at hand.  It makes a new instruction at the end of the stream
("an append-only, mutable, forward-linked sequence of pseudo-instructions
with a current end cursor"), leaves it in `p` and advances `pc`. -/
def nextpc (as : As) (s : GenState) : GenState :=
  { s with
    prog := s.prog ++ [{ id := s.nprog, as := as, to_ := none }]
    p := s.nprog
    nprog := s.nprog + 1
    pc := s.pc + 1 }

/-- The two ops that `gen` hands to `gbranch`. -/
inductive BranchOp where
  | OGOTO | ORETURN
  deriving DecidableEq

/-- Modelled from the spec: `gbranch` of the machine-specific part is not in
the sources at hand.  It emits a branch instruction whose target is
pending: a jump for `OGOTO`, a return for `ORETURN`. -/
def gbranch (o : BranchOp) (s : GenState) : GenState :=
  match o with
  | .OGOTO => nextpc .AJMP s
  | .ORETURN => nextpc .ARET s

/-- Modelled from the spec: `patch` of the machine-specific part is not in
the sources at hand.  It sets the branch target of the instruction `op`
("later rewriting an unresolved branch instruction's target once known");
a record that is no longer in the stream is out of sight. -/
def patch (op : Nat) (pc : Int) (s : GenState) : GenState :=
  { s with prog := s.prog.map (fun q => if q.id = op then { q with to_ := some pc } else q) }

/-- Modelled from the spec: the lowering of expressions (`cgen`, `boolgen`,
`doswit`, `gins`, ...) is not in the sources at hand ("external expression
lowering").  What is kept of it is that it emits instructions at the end of
the stream, `k` of them. -/
def emit : Nat → GenState → GenState
  | 0, s => s
  | k + 1, s => emit k (nextpc .ACODE s)

/-- Modelled from the spec: `warn` and `diag` are not in the sources at
hand.  The message joins the "stream of (severity, source line, message)
triples"; `gen` goes on after either. -/
def report (m : Msg) (s : GenState) : GenState :=
  { s with msgs := s.msgs ++ [m] }

/-- The assignment `canreach = 1`. -/
def reach (s : GenState) : GenState :=
  { s with canreach := true }

/-- The assignment `warnreach = !suppress`. -/
def rearm (s : GenState) : GenState :=
  { s with warnreach := decide (s.suppress = 0) }

/-- The block `if(!canreach)` at the head of `gen`; `special` tells whether
the op is one of `OLABEL`, `OCASE`, `OLIST`, `OBREAK`, `OFOR`, `OWHILE`,
`ODWHILE`. -/
def reachcheck (special : Bool) (s : GenState) : GenState :=
  if !s.canreach && !special && s.warnreach then
    { report .unreachable s with warnreach := false }
  else s

/-- The function `bcomplex(n, c)`: its result and the state after it.
`c` is `none` for `Z`.  The call `boolgen(n, 1, Z)` emits the instructions
of the condition and leaves in `p` the branch that is taken when the
condition is false. -/
def bcomplex (E : GenEnv) (n : Expr) (c : Option Node) (s : GenState) : Bool × GenState :=
  if !n.typed then (false, gbranch .OGOTO s)
  else
    match c with
    | some c =>
      if n.oconst && E.deadheads c then (true, s)
      else (false, nextpc .ACOND (emit n.ninstr s))
    | none => (false, nextpc .ACOND (emit n.ninstr s))

/-- The head of `supgen`: `suppress++; owarn = warnreach; warnreach = 0`. -/
def enter (s : GenState) : GenState :=
  { s with suppress := s.suppress + 1, warnreach := false }

/-- The end of `supgen`, with `s` the state at its entry: `lastp = sp`,
`pc = spc` and `sp->link = nil` cut off what was emitted since, then
`suppress--; warnreach = owarn`. -/
def leave (s s1 : GenState) : GenState :=
  { s1 with
    prog := s1.prog.take s.prog.length
    pc := s.pc
    suppress := s1.suppress - 1
    warnreach := s.warnreach }

/-- The function `supgen(n)`, with `f` the call `gen(n)`. -/
def supgen (f : GenState → GenState) (n : Node) (s : GenState) : GenState :=
  if n.isZ then s else leave s (f (enter s))

/-- The assignment `l->pc = pc` to the label `id`. -/
def setlabelpc (id : Nat) (pc : Int) (s : GenState) : GenState :=
  { s with labels := Function.update s.labels id { s.labels id with pc := pc } }

/-- The assignment `n->label = p` to the label `id`. -/
def setpending (id : Nat) (h : Nat) (s : GenState) : GenState :=
  { s with labels := Function.update s.labels id { s.labels id with label := some h } }

/-- The statement `if(l->label) patch(l->label, pc)` for the label `id`. -/
def patchpending (id : Nat) (pc : Int) (s : GenState) : GenState :=
  match (s.labels id).label with
  | none => s
  | some h => patch h pc s

/-- The case `OLABEL` up to `goto rloop`. -/
def labelstmt (l : Option Label) (s : GenState) : GenState :=
  let s1 := reach s
  let s2 :=
    match l with
    | none => s1
    | some l => patchpending l.id s1.pc (setlabelpc l.id s1.pc s1)
  let s3 := gbranch .OGOTO s2
  patch s3.p s3.pc s3

/-- The case `OGOTO`. -/
def gotostmt (n : Option Label) (s : GenState) : GenState :=
  let s1 := rearm { s with canreach := false }
  match n with
  | none => s1
  | some n =>
    if !n.complex then report .labelUndefined s1
    else if s1.suppress ≠ 0 then s1
    else
      let s2 := gbranch .OGOTO s1
      if (s2.labels n.id).pc ≠ 0 then patch s2.p (s2.labels n.id).pc s2
      else setpending n.id s2.p (patchpending n.id (s2.pc - 1) s2)

/-- The case `OCASE` up to `goto rloop`; `newcase()` and the assignments to
the new entry are one step. -/
def casestmt (l : Option Expr) (s : GenState) : GenState :=
  let s1 := { s with canreach := true }
  let s2 := if s1.cases.isEmpty then report .caseOutside s1 else s1
  match l with
  | none =>
    { s2 with cases := { val := 0, def_ := true, label := s2.pc, isv := false } :: s2.cases }
  | some l =>
    if !l.typed then s2
    else if l.oconst && l.word && !l.ind then
      { s2 with
        cases := { val := l.vconst, def_ := false, label := s2.pc, isv := l.typev } :: s2.cases }
    else report .caseNotConst s2

/-- The case `OSWITCH` from `gbranch(OGOTO)` (entry) to the call of `gen` on
the body; `s0` is the state at the entry, so that `sp` is the record
`s0.nprog` and `spb` the record `s0.nprog + 1`. -/
def switchhead (s0 : GenState) : GenState :=
  let s1 := gbranch .OGOTO s0
  let s2 := { s1 with cases := [{ val := 0, def_ := false, label := 0, isv := false }] }
  let s3 := { s2 with breakpc := s2.pc, nbreak := 0 }
  gbranch .OGOTO s3

/-- The end of a loop or switch: `canreach = nbreak != 0` and, when that is
0, `warnreach = !suppress`. -/
def reachexit (s : GenState) : GenState :=
  if s.nbreak ≠ 0 then { s with canreach := true }
  else rearm { s with canreach := false }

/-- The case `OSWITCH` after the body; `s0` is the state at the entry. -/
def switchtail (E : GenEnv) (l : Expr) (s0 s : GenState) : GenState :=
  let s1 :=
    if s.canreach then
      let b := gbranch .OGOTO s
      { patch b.p b.breakpc b with nbreak := b.nbreak + 1 }
    else s
  let s2 := patch s0.nprog s1.pc s1
  let s3 := emit (E.doswit s2.cases l) s2
  let s4 := patch (s0.nprog + 1) s3.pc s3
  let s5 := reachexit { s4 with cases := s0.cases, breakpc := s0.breakpc }
  { s5 with nbreak := s0.nbreak }

/-- The cases `OWHILE` and `ODWHILE` from `gbranch(OGOTO)` (entry) to the
call of `gen` on the body; `s0` is the state at the entry, so that `sp`,
`spc` and `spb` are the records `s0.nprog`, `s0.nprog + 1` and
`s0.nprog + 2`. -/
def whilehead (E : GenEnv) (isdo : Bool) (l : Expr) (s0 : GenState) : GenState :=
  let s1 := gbranch .OGOTO s0
  let s2 := gbranch .OGOTO { s1 with continpc := s1.pc }
  let s3 := gbranch .OGOTO { s2 with breakpc := s2.pc, nbreak := 0 }
  let s4 := patch (s0.nprog + 1) s3.pc s3
  let s5 := if isdo then s4 else patch s0.nprog s4.pc s4
  let s6 := (bcomplex E l none s5).2
  let s7 := patch s6.p s6.breakpc s6
  let s8 :=
    if !l.oconst || decide (l.vconstval = 0) then { s7 with nbreak := s7.nbreak + 1 } else s7
  if isdo then patch s0.nprog s8.pc s8 else s8

/-- The cases `OWHILE` and `ODWHILE` after the body. -/
def whiletail (s0 s : GenState) : GenState :=
  let s1 := gbranch .OGOTO s
  let s2 := patch s1.p s1.continpc s1
  let s3 := patch (s0.nprog + 2) s2.pc s2
  let s4 := reachexit { s3 with continpc := s0.continpc, breakpc := s0.breakpc }
  { s4 with nbreak := s0.nbreak }

/-- The case `OFOR` before `gen` of the init expression. -/
def forwarn (hasinit : Bool) (s : GenState) : GenState :=
  if !s.canreach && hasinit && s.warnreach then
    { report .unreachableFor s with warnreach := false }
  else s

/-- The case `OFOR` from `gbranch(OGOTO)` (entry) to `gen` of the increment;
`e` is the state after the init expression, so that `sp`, `spc` and `spb`
are the records `e.nprog`, `e.nprog + 1` and `e.nprog + 2`. -/
def forhead (E : GenEnv) (n : Node) (e : GenState) : GenState :=
  let s1 := gbranch .OGOTO e
  let s2 :=
    if !s1.canreach && s1.warnreach && E.deadheads n then
      { report .unreachable s1 with warnreach := false }
    else s1
  let s3 := gbranch .OGOTO { s2 with continpc := s2.pc }
  let s4 := gbranch .OGOTO { s3 with breakpc := s3.pc, nbreak := 0, ncontin := 0 }
  patch (e.nprog + 1) s4.pc s4

/-- The case `OFOR` from `patch(sp, pc)` to `gen` of the body. -/
def fortest (E : GenEnv) (test : Option Expr) (e s : GenState) : GenState :=
  let s1 := patch e.nprog s.pc s
  let s2 :=
    match test with
    | none => s1
    | some l =>
      let t1 := (bcomplex E l none s1).2
      let t2 := patch t1.p t1.breakpc t1
      if !l.oconst || decide (l.vconstval = 0) then { t2 with nbreak := t2.nbreak + 1 } else t2
  { s2 with canreach := true }

/-- The case `OFOR` after the body. -/
def fortail (hasinc : Bool) (e s : GenState) : GenState :=
  let s1 :=
    if s.canreach then
      let b := gbranch .OGOTO s
      { patch b.p b.continpc b with ncontin := b.ncontin + 1 }
    else s
  let s2 :=
    if decide (s1.ncontin = 0) && hasinc && s1.warnreach then
      { report .unreachableInc s1 with warnreach := false }
    else s1
  let s3 := patch (e.nprog + 2) s2.pc s2
  let s4 := reachexit { s3 with continpc := e.continpc, breakpc := e.breakpc }
  { s4 with nbreak := e.nbreak, ncontin := e.ncontin }

/-- The case `OCONTINUE`. -/
def continuestmt (s : GenState) : GenState :=
  if s.continpc < 0 then report .continueOutside s
  else
    let b := gbranch .OGOTO s
    rearm { patch b.p b.continpc b with ncontin := b.ncontin + 1, canreach := false }

/-- The case `OBREAK`. -/
def breakstmt (s : GenState) : GenState :=
  if s.breakpc < 0 then report .breakOutside s
  else if !s.canreach then s
  else
    let b := gbranch .OGOTO s
    rearm { patch b.p b.breakpc b with nbreak := b.nbreak + 1, canreach := false }

/-- The case `ORETURN`: the expression is lowered into the return location
(`e.ninstr` instructions) and the exit branch follows. -/
def returnstmt (e : Expr) (s : GenState) : GenState :=
  let s1 := rearm { s with canreach := false }
  if !e.typed then s1 else gbranch .ORETURN (emit e.ninstr s1)

/-- The end of the case `OIF` when the condition is a constant that is
false (`f` is 1): `t1` is the state after `supgen` of the first branch and
`t2` the state after `gen` of the second. -/
def ifconstfalse (E : GenEnv) (t1 t2 : GenState) : GenState :=
  if !t2.canreach && t1.canreach && decide (E.debugw < 2) then { t2 with warnreach := false }
  else t2

/-- The end of the case `OIF` when the condition is a constant that is
true: `t1` is the state after `gen` of the first branch and `t2` the state
after `supgen` of the second. -/
def ifconsttrue (E : GenEnv) (t1 t2 : GenState) : GenState :=
  let t3 :=
    if !t1.canreach && t2.canreach && decide (E.debugw < 2) then { t2 with warnreach := false }
    else t2
  { t3 with canreach := t1.canreach }

/-- The end of the case `OIF` when `bcomplex` answered 0: `sp` is the branch
to patch, `oldreach` the value of `canreach` after the first branch. -/
def ifend (sp : Nat) (oldreach : Bool) (s : GenState) : GenState :=
  let s1 := patch sp s.pc s
  if s1.canreach || oldreach then { s1 with canreach := true }
  else rearm { s1 with canreach := false }

/-- The function `gen(n)` of `cc/pgen.c`. -/
def gen (E : GenEnv) : Node → GenState → GenState
  | .Z, s => s
  | .OEXPR e, s => emit e.ninstr (reachcheck false s)
  | .OUSED e, s => emit e.ninstr (reachcheck false s)
  | .OLIST left right, s => gen E right (gen E left (reachcheck true s))
  | .ORETURN e, s => returnstmt e (reachcheck false s)
  | .OLABEL left right, s => gen E right (labelstmt left (reachcheck true s))
  | .OGOTO left, s => gotostmt left (reachcheck false s)
  | .OCASE left right, s => gen E right (casestmt left (reachcheck true s))
  | .OSWITCH left right, s =>
    let s0 := reachcheck false s
    if !left.typed then s0
    else if !left.chlvp || left.ind then report .switchNotInt s0
    else switchtail E left s0 (gen E right (switchhead s0))
  | .OWHILE left right, s =>
    let s0 := reachcheck true s
    whiletail s0 (gen E right (whilehead E false left s0))
  | .ODWHILE left right, s =>
    let s0 := reachcheck true s
    whiletail s0 (gen E right (whilehead E true left s0))
  | .OFOR init test inc right, s =>
    let e := gen E init (forwarn (!init.isZ) (reachcheck true s))
    let s1 := gen E inc (forhead E (.OFOR init test inc right) e)
    fortail (!inc.isZ) e (gen E right (fortest E test e s1))
  | .OCONTINUE, s => continuestmt (reachcheck false s)
  | .OBREAK, s => breakstmt (reachcheck true s)
  | .OIF left thn els, s =>
    let r := bcomplex E left (some (.OLIST thn els)) (reachcheck false s)
    if r.1 then
      if (if left.typefd then left.fconst0 else decide (left.vconst = 0)) then
        let t1 := supgen (gen E thn) thn (reach r.2)
        ifconstfalse E t1 (gen E els (reach t1))
      else
        let t1 := gen E thn (reach r.2)
        ifconsttrue E t1 (supgen (gen E els) els (reach t1))
    else
      let t1 := if thn.isZ then reach r.2 else gen E thn (reach r.2)
      if els.isZ then ifend r.2.p t1.canreach (reach t1)
      else
        let b := gbranch .OGOTO (reach t1)
        ifend b.p t1.canreach (gen E els (patch r.2.p b.pc b))

end Cc

namespace Cc

/-! ## Sample statements -/

/-- The state in which `codgen` calls `gen`, for a function whose text
instruction is the record 0 at position 0 and that is not inside a loop or
switch. -/
def start : GenState :=
  { pc := 1, p := 0, nprog := 1, prog := [{ id := 0, as := .ACODE, to_ := none }]
    canreach := true, warnreach := true, suppress := 0
    breakpc := -1, continpc := -1, nbreak := 0, ncontin := 0
    cases := [], labels := fun _ => { pc := 0, label := none }, msgs := [] }

/-- An environment for statements without labels: `deadheads` answers 1,
`doswit` makes one instruction, and `debug['w']` is 0. -/
def plainE : GenEnv :=
  { deadheads := fun _ => true, doswit := fun _ _ => 1, debugw := 0 }

/-- A condition that is not a constant, of type `int`, lowered to one
instruction before its branch. -/
def cond : Expr :=
  { ninstr := 1, typed := true, oconst := false, typefd := false, fconst0 := false
    vconst := 0, vconstval := 0, chlvp := true, word := true, ind := false, typev := false }

/-- The constant 1 of type `int`. -/
def one : Expr :=
  { ninstr := 0, typed := true, oconst := true, typefd := false, fconst0 := false
    vconst := 1, vconstval := 1, chlvp := true, word := true, ind := false, typev := false }

/-- An expression statement of one instruction. -/
def stmt : Node := .OEXPR cond

/-- The state in which the body of `while(c)` is lowered, the loop being
the first statement of the function. -/
def inloop : GenState := whilehead plainE false cond (reachcheck true start)

/-- The state after `return 1;` at the head of that body: `canreach` is 0
and `warnreach` is 1. -/
def dead : GenState := gen plainE (.ORETURN one) inloop

/-- The state in which the body of `switch(c)` is lowered, the switch being
the first statement of the function. -/
def inswitch : GenState := switchhead (reachcheck false start)

/-- The body `if(c) break; continue;` of an inner loop. -/
def innerbody : Node := .OLIST (.OIF cond .OBREAK .Z) .OCONTINUE

/-- The body `while(c) { if(c) break; continue; } break;` of an outer
loop. -/
def outerbody : Node := .OLIST (.OWHILE cond innerbody) .OBREAK

/-- A label that is defined in the function. -/
def labelL : Label := { id := 0, complex := true }

/-- The statements `goto L; goto L; L: ;`. -/
def twogotos : Node :=
  .OLIST (.OGOTO (some labelL)) (.OLIST (.OGOTO (some labelL)) (.OLABEL (some labelL) .Z))

end Cc

namespace Cc

/-! ## Vocabulary for the claims about `gen` -/

/-- The statements that `gen` meets directly in `n` when lowering starts in
`s`: every `break`, every `continue` and every loop of `n` that is not
inside a loop or a switch of `n`, each with the state in which `gen` is
called on it.  (The init expression of a `for` is lowered before the loop
sets its own positions, so it counts as outside the loop.) -/
def visits (E : GenEnv) : Node → GenState → List (Node × GenState)
  | .OBREAK, s => [(.OBREAK, s)]
  | .OCONTINUE, s => [(.OCONTINUE, s)]
  | .OWHILE left right, s => [(.OWHILE left right, s)]
  | .ODWHILE left right, s => [(.ODWHILE left right, s)]
  | .OFOR init test inc right, s =>
    (.OFOR init test inc right, s) :: visits E init (forwarn (!init.isZ) (reachcheck true s))
  | .OLIST left right, s =>
    visits E left (reachcheck true s) ++ visits E right (gen E left (reachcheck true s))
  | .OLABEL left right, s => visits E right (labelstmt left (reachcheck true s))
  | .OCASE left right, s => visits E right (casestmt left (reachcheck true s))
  | .OIF left thn els, s =>
    let r := bcomplex E left (some (.OLIST thn els)) (reachcheck false s)
    if r.1 then
      if (if left.typefd then left.fconst0 else decide (left.vconst = 0)) then
        visits E thn (enter (reach r.2)) ++
          visits E els (reach (supgen (gen E thn) thn (reach r.2)))
      else
        visits E thn (reach r.2) ++ visits E els (enter (reach (gen E thn (reach r.2))))
    else
      let b := gbranch .OGOTO (reach (gen E thn (reach r.2)))
      visits E thn (reach r.2) ++ visits E els (patch r.2.p b.pc b)
  | _, _ => []

/-- The number of reachable `break` statements of the enclosing loop or
switch in `n`: those that `gen` meets directly in `n` while `canreach` is
set. -/
def breaks (E : GenEnv) (n : Node) (s : GenState) : Nat :=
  ((visits E n s).filter (fun v => decide (v.1 = .OBREAK) && v.2.canreach)).length

/-- The three kinds of loop, with what the loop holds besides its body. -/
inductive Loop where
  | whileloop (l : Expr)
  | dowhile (l : Expr)
  | forloop (init : Node) (test : Option Expr) (inc : Node)

/-- The statement that is the loop with the body `b`. -/
def Loop.node : Loop → Node → Node
  | .whileloop l, b => .OWHILE l b
  | .dowhile l, b => .ODWHILE l b
  | .forloop init test inc, b => .OFOR init test inc b

/-- The state in which `gen` turns to the body `b` of the loop, when the
loop is lowered from `s`. -/
def Loop.bodystate (E : GenEnv) : Loop → Node → GenState → GenState
  | .whileloop l, _, s => whilehead E false l (reachcheck true s)
  | .dowhile l, _, s => whilehead E true l (reachcheck true s)
  | .forloop init test inc, b, s =>
    let e := gen E init (forwarn (!init.isZ) (reachcheck true s))
    fortest E test e (gen E inc (forhead E (.OFOR init test inc b) e))

/-- The rest of the loop after its body: `s` is the state from which the
loop is lowered and `t` the state after the body. -/
def Loop.finish (E : GenEnv) : Loop → GenState → GenState → GenState
  | .whileloop _, s, t => whiletail (reachcheck true s) t
  | .dowhile _, s, t => whiletail (reachcheck true s) t
  | .forloop init _ inc, s, t =>
    fortail (!inc.isZ) (gen E init (forwarn (!init.isZ) (reachcheck true s))) t

/-- Whether a `break` occurs in the statement outside its loops and
switches. -/
def hasbreak : Node → Bool
  | .OBREAK => true
  | .OLIST left right => hasbreak left || hasbreak right
  | .OLABEL _ right => hasbreak right
  | .OCASE _ right => hasbreak right
  | .OIF _ thn els => hasbreak thn || hasbreak els
  | .OFOR init _ _ _ => hasbreak init
  | _ => false

/-- Whether a `continue` occurs in the statement outside the increment and
the body of its `for` loops. -/
def hascontinue : Node → Bool
  | .OCONTINUE => true
  | .OLIST left right => hascontinue left || hascontinue right
  | .OLABEL _ right => hascontinue right
  | .OCASE _ right => hascontinue right
  | .OIF _ thn els => hascontinue thn || hascontinue els
  | .OSWITCH _ right => hascontinue right
  | .OWHILE _ right => hascontinue right
  | .ODWHILE _ right => hascontinue right
  | .OFOR init _ _ _ => hascontinue init
  | _ => false

/-- Whether a `case` or `default` label occurs in the statement outside its
switches. -/
def hascase : Node → Bool
  | .OCASE _ _ => true
  | .OLIST left right => hascase left || hascase right
  | .OLABEL _ right => hascase right
  | .OIF _ thn els => hascase thn || hascase els
  | .OWHILE _ right => hascase right
  | .ODWHILE _ right => hascase right
  | .OFOR init _ inc right => hascase init || hascase inc || hascase right
  | _ => false

/-- Whether a `goto` or a label statement for the label `lid` occurs in the
statement. -/
def mentions (lid : Nat) : Node → Bool
  | .OLABEL (some l) right => decide (l.id = lid) || mentions lid right
  | .OLABEL none right => mentions lid right
  | .OGOTO (some l) => decide (l.id = lid)
  | .OLIST left right => mentions lid left || mentions lid right
  | .OCASE _ right => mentions lid right
  | .OSWITCH _ right => mentions lid right
  | .OWHILE _ right => mentions lid right
  | .ODWHILE _ right => mentions lid right
  | .OFOR init _ inc right => mentions lid init || mentions lid inc || mentions lid right
  | .OIF _ thn els => mentions lid thn || mentions lid els
  | _ => false

/-- The records numbered `k` of the stream `p` are at the same place and
the same in the stream `l`. -/
def Stays (k : Nat) (p l : List Prog) : Prop :=
  ∀ (i : Nat) (q : Prog), p[i]? = some q → q.id = k → l[i]? = some q

/-- The record `k` exists in the state `s` and is not the pending branch
of a label other than `lid`. -/
def Inv (k lid : Nat) (s : GenState) : Prop :=
  k < s.nprog ∧ ∀ x, x ≠ lid → (s.labels x).label ≠ some k

/-- From the state `s` to the state `t`, the record `k` has stayed as it was
and where it was, the label `lid` has not changed, and `Inv` holds in
`t`. -/
def Keeps (k lid : Nat) (s t : GenState) : Prop :=
  Inv k lid t ∧ t.labels lid = s.labels lid ∧ Stays k s.prog t.prog

/-- The last instruction of the stream. -/
def lastprog (s : GenState) : Option Prog :=
  s.prog.getLast?

end Cc

namespace Gc

/-! ## Well-formed types -/

mutual
/-- The type is well formed as far as widths go: an array that is not a
slice has a bound that is not negative, the width `bound * element width`
and a well-formed element type, and the field types of a struct are well
formed. -/
def wellformed (A : Arch) : Typ → Bool
  | .T => true
  | .mk etype width align bound type down =>
    match etype with
    | .TARRAY =>
      A.isslice (.mk etype width align bound type down) ||
        (decide (0 ≤ bound) && decide (width = bound * type.width) && wellformed A type)
    | .TSTRUCT => wellformedFields A type
    | _ => true
/-- The field types from the field entry on are well formed. -/
def wellformedFields (A : Arch) : Typ → Bool
  | .T => true
  | .mk _ _ _ _ ftype down => wellformed A ftype && wellformedFields A down
end

/-- The array `[2]*T` on the 64-bit target. -/
def arr2ptr : Typ := .mk .TARRAY 16 8 2 ptr64 .T

/-- The struct `{ int32; [2]*T }` on the 64-bit target: the array at offset
8, 24 bytes in all. -/
def int32arr : Typ := mkstruct 24 8 [(0, int32T), (8, arr2ptr)]

end Gc

namespace Cc

/-! ## The pointers of a type, by the accumulated member offsets -/

mutual
/-- Modelled from the spec: the byte positions of the pointer leaves of a
type built from scalars, pointers and structs that starts at `offset`,
"where a leaf's byte position is offset plus the accumulated member offsets
on the path from t to the leaf". -/
def ptrleaves : Typ → Int → List Int
  | .mk etype toffset _ link, offset =>
    match etype with
    | .TIND => [offset + toffset]
    | .TSTRUCT => memberleaves link (offset + toffset)
    | _ => []
/-- Modelled from the spec: the pointer leaves of the members of a struct
that starts at `offset`. -/
def memberleaves : List Typ → Int → List Int
  | [], _ => []
  | t :: rest, offset => ptrleaves t offset ++ memberleaves rest offset
end

/-- Modelled from the spec: "the 32-slot window of the true pointer set":
bit `j` (`0 ≤ j < 32`) is set if and only if some pointer leaf lies at the
word index `baseidx + j`. -/
def truewindow (M : Mach) (t : Typ) (offset baseidx : Int) : Nat :=
  (List.range 32).foldl
    (fun (m j : Nat) =>
      if (ptrleaves t offset).any
          (fun p => decide (Int.tdiv p M.ewidthTIND = baseidx + (j : Int)))
      then m ||| ((1 : Nat) <<< j) else m) 0

/-- The member `struct { char *p; } s` at member offset 8. -/
def innerstruct : Typ := .mk .TSTRUCT 8 8 [charptr]

/-- The type `struct { long n; struct { char *p; } s; }`: `n` at member
offset 0, `s` at member offset 8, and `p` at member offset 0 of `s`. -/
def nestedstruct : Typ := .mk .TSTRUCT 0 16 [longmember, innerstruct]

end Cc

namespace Cc

/-! ## Vocabulary for the statements about unreachable code and `supgen` -/

/-- The statement is a sequence of plain statements: expression statements
(the `default` case of `gen`, and `USED`, `SET` and `PREFETCH`) joined by
`OLIST`, without a label, a case, a loop, an `if` or a control transfer. -/
def plain : Node → Bool
  | .Z => true
  | .OEXPR _ => true
  | .OUSED _ => true
  | .OLIST left right => plain left && plain right
  | _ => false

/-- The number of plain statements in a sequence. -/
def nstmts : Node → Nat
  | .OEXPR _ => 1
  | .OUSED _ => 1
  | .OLIST left right => nstmts left + nstmts right
  | _ => 0

/-- Whether a label statement occurs in the statement. -/
def haslabel : Node → Bool
  | .OLABEL _ _ => true
  | .OLIST left right => haslabel left || haslabel right
  | .OCASE _ right => haslabel right
  | .OSWITCH _ right => haslabel right
  | .OWHILE _ right => haslabel right
  | .ODWHILE _ right => haslabel right
  | .OFOR init _ inc right => haslabel init || haslabel inc || haslabel right
  | .OIF _ thn els => haslabel thn || haslabel els
  | _ => false

/-- The messages of `warn`: the three warnings about unreachable code. -/
def iswarning : Msg → Bool
  | .unreachable => true
  | .unreachableFor => true
  | .unreachableInc => true
  | _ => false

/-- From the state `s` to the state `t` no warning was recorded and
`warnreach` is 0 in `t`, at the same suppression depth. -/
def Quiet (s t : GenState) : Prop :=
  t.warnreach = false ∧ t.suppress = s.suppress ∧
    ∃ extra, t.msgs = s.msgs ++ extra ∧ ∀ m ∈ extra, iswarning m = false

/-- The state after `goto L;` at the head of the sample function: `canreach`
is 0 and `warnreach` is 1. -/
def aftergoto : GenState := gen plainE (.OGOTO (some labelL)) start

/-- The statements `e; e; e;`. -/
def threestmts : Node := .OLIST (.OLIST stmt stmt) stmt

end Cc

namespace Cc

/-! ## The pointers of an argument list -/

mutual
/-- The type is a scalar, a pointer, or a struct at member offset 0 whose
members are such types: no struct of it lies at a member offset other than
0, and it has no array and no union. -/
def direct : Typ → Bool
  | .mk etype toffset _ link =>
    etype.isScalar || decide (etype = .TIND) ||
      (decide (etype = .TSTRUCT) && decide (toffset = 0) && alldirect link)
/-- Every type of the chain satisfies `direct`. -/
def alldirect : List Typ → Bool
  | [] => true
  | t :: rest => direct t && alldirect rest
end

/-- Modelled from the spec: the byte positions of the pointers of the
parameters from `t` on, the first at argument offset `s`.  A parameter lies
where the loop of `pointermap` finds it (`align` with `Aarg1`, the next one
after `align` with `Aarg2`, a `void` entry is skipped); its pointers are its
pointer leaves. -/
def paramleaves (M : Mach) : List Typ → Int → List Int
  | [], _ => []
  | t :: rest, s =>
    if t.etype = .TVOID then paramleaves M rest s
    else
      let s1 := int32 (M.align s t .Aarg1)
      ptrleaves t s1 ++ paramleaves M rest (int32 (M.align s1 t .Aarg2))

/-- Modelled from the spec: the byte positions of the pointers of the
argument list of `thisfn`, "one chunk per 32 consecutive word-slots": the
hidden first argument at byte 0 when the result is returned through it
(`align` with `Aarg0` answers more than 0), then the pointers of the
parameters. -/
def argptrs (M : Mach) (thisfn : Func) : List Int :=
  let s := int32 (M.align 0 thisfn.link .Aarg0)
  (if s > 0 then [0] else []) ++ paramleaves M thisfn.down s

/-- Modelled from the spec: word slot `w` of the argument list of `thisfn`
holds a pointer. -/
def ptrslot (M : Mach) (thisfn : Func) (w : Int) : Bool :=
  (argptrs M thisfn).any (fun p => decide (Int.tdiv p M.ewidthTIND = w))

/-- Every parameter is a `void` entry or a `direct` type. -/
def directparams (l : List Typ) : Bool :=
  l.all (fun t => decide (t.etype = .TVOID) || direct t)

/-- The function type `void h(struct { long n; struct { char *p; } s; } a)`. -/
def nestedFn : Func := { link := voidT, down := [nestedstruct] }

/-- The function type `void h(struct { char *p; long n; } a, char *q)`. -/
def directFn : Func :=
  { link := voidT, down := [.mk .TSTRUCT 0 16 [charptr, .mk .TLONG 8 8 []], charptr] }

end Cc


namespace Gc

/-! ## Facts about bit vectors -/

theorem tmod_eq_zero_iff (a b : Int) : Int.tmod a b = 0 ↔ a % b = 0 :=
  ⟨fun h => Int.emod_eq_zero_of_dvd (Int.dvd_of_tmod_eq_zero h),
   fun h => Int.tmod_eq_zero_of_dvd (Int.dvd_of_emod_eq_zero h)⟩

theorem bvalloc_stored (n : Int) : (bvalloc n).Stored := by
  simp only [Bvec.Stored, bvalloc, List.length_replicate]
  omega

theorem bvget_bvalloc (n i : Int) : bvget (bvalloc n) i = false := by
  simp [bvget, bvalloc, List.getD_eq_getElem?_getD, List.getElem?_replicate]
  intro _ _
  split <;> simp

theorem bvset_inrange (bv : Bvec) (k : Int) (h0 : 0 ≤ k) (h1 : k < bv.n) :
    ∃ bv1, bvset bv k = some bv1 := by
  unfold bvset
  rw [if_neg (by omega)]
  exact ⟨_, rfl⟩

theorem bvget_bvset (bv bv1 : Bvec) (k : Int) (hs : bv.Stored)
    (h : bvset bv k = some bv1) :
    bv1.Stored ∧ bv1.n = bv.n ∧ ∀ i, bvget bv1 i = (bvget bv i || decide (i = k)) := by
  unfold bvset at h
  split at h
  · cases h
  · rename_i hk
    have hk0 : 0 ≤ k := by omega
    have hk1 : k < bv.n := by omega
    cases h
    unfold Bvec.Stored at hs
    refine ⟨by simpa [Bvec.Stored] using hs, rfl, ?_⟩
    intro i
    by_cases hi : 0 ≤ i ∧ i < bv.n
    · have hlen : k.toNat / 32 < bv.b.length := by omega
      by_cases hw : k.toNat / 32 = i.toNat / 32
      · have hik : (i = k) ↔ (k.toNat % 32 = i.toNat % 32) := by omega
        simp only [bvget, hi, List.getD_eq_getElem?_getD, List.getElem?_set, hw, hlen,
          if_true, and_self, decide_True, Bool.true_and, Option.getD_some, Nat.testBit_or,
          Nat.one_shiftLeft, Nat.testBit_two_pow, hik]
        rw [← hw]
        simp [hlen, Nat.testBit_two_pow]
      · have hik : ¬ (i = k) := by
          intro h; apply hw; rw [h]
        simp [bvget, hi, List.getD_eq_getElem?_getD, List.getElem?_set_ne hw, hik]
    · have hik : ¬ (i = k) := by
        intro h; apply hi; omega
      simp [bvget, hi, hik]

/-! ## Single steps of `walktype1` -/

theorem walktype1_scalar (A : Arch) (e : EType) (w a b : Int) (ty dn : Typ) (x : Int)
    (bv : Bvec) (he : e.isScalar = true) (ha : 0 < a → x % a = 0) :
    walktype1 A (.mk e w a b ty dn) x bv = .done (x + w) bv := by
  have h : ¬ (a > 0 ∧ Int.tmod x a ≠ 0) := by
    rintro ⟨h1, h2⟩
    exact h2 ((tmod_eq_zero_iff x a).2 (ha h1))
  cases e <;> simp_all [walktype1, EType.isScalar]

theorem walktype1_ptrword (A : Arch) (e : EType) (w a b : Int) (ty dn : Typ) (x : Int)
    (bv : Bvec) (he : e.isPtrWord = true) (ha : 0 < a → x % a = 0) :
    walktype1 A (.mk e w a b ty dn) x bv = walkptr A .alignment w x bv := by
  have h : ¬ (a > 0 ∧ Int.tmod x a ≠ 0) := by
    rintro ⟨h1, h2⟩
    exact h2 ((tmod_eq_zero_iff x a).2 (ha h1))
  cases e <;> simp_all [walktype1, EType.isPtrWord]

theorem walkptr_done (A : Arch) (why : Fatal) (w x : Int) (bv : Bvec)
    (hx : x % A.widthptr = 0)
    (h0 : 0 ≤ x / A.widthptr) (h1 : x / A.widthptr < bv.n) (hs : bv.Stored) :
    ∃ bv1, walkptr A why w x bv = .done (x + w) bv1 ∧ bv1.Stored ∧ bv1.n = bv.n ∧
      ∀ i, bvget bv1 i = (bvget bv i || decide (i = x / A.widthptr)) := by
  have hd : Int.tdiv x A.widthptr = x / A.widthptr :=
    Int.tdiv_eq_ediv_of_dvd (Int.dvd_of_emod_eq_zero hx)
  obtain ⟨bv1, hb⟩ := bvset_inrange bv (x / A.widthptr) h0 h1
  refine ⟨bv1, ?_, bvget_bvset bv bv1 _ hs hb⟩
  simp [walkptr, (tmod_eq_zero_iff x A.widthptr).2 hx, hd, hb]

/-! ## Structs of pointers and scalars -/

theorem scalar_not_rawptr (e : EType) (h : e.isScalar = true) : ¬ e.isRawPtr = true := by
  cases e <;> simp [EType.isScalar, EType.isRawPtr] at h ⊢

theorem rawptr_ptrword (e : EType) (h : e.isRawPtr = true) : e.isPtrWord = true := by
  cases e <;> simp [EType.isPtrWord, EType.isRawPtr] at h ⊢

theorem walkfields_flat (A : Arch) (width : Int) (hw : 0 < A.widthptr) :
    ∀ (fields : List (Int × Typ)) (o : Int) (bv : Bvec), bv.Stored →
      (∀ f ∈ fields, f.2.etype.isScalar = true ∨ f.2.etype.isRawPtr = true) →
      (∀ f ∈ fields, 0 < f.2.align → f.1 % f.2.align = 0) →
      (∀ f ∈ fields, f.2.etype.isRawPtr = true →
        f.1 % A.widthptr = 0 ∧ 0 ≤ f.1 ∧ f.1 < bv.n * A.widthptr) →
      ∃ bv1, walkfields A width (fieldchain fields) o o bv = .done width bv1 ∧
        ∀ i : Int, bvget bv1 i = true ↔
          (bvget bv i = true ∨
            ∃ f ∈ fields, f.2.etype.isRawPtr = true ∧ f.1 = i * A.widthptr) := by
  intro fields
  induction fields with
  | nil =>
    intro o bv _ _ _ _
    exact ⟨bv, by simp [fieldchain, walkfields], by simp⟩
  | cons f rest ih =>
    intro o bv hs hkind halign hptr
    obtain ⟨off, ft⟩ := f
    have hk := hkind (off, ft) (List.mem_cons_self _ _)
    have ha := halign (off, ft) (List.mem_cons_self _ _)
    have hp := hptr (off, ft) (List.mem_cons_self _ _)
    have hkind1 : ∀ f ∈ rest, f.2.etype.isScalar = true ∨ f.2.etype.isRawPtr = true :=
      fun f hf => hkind f (List.mem_cons_of_mem _ hf)
    have halign1 : ∀ f ∈ rest, 0 < f.2.align → f.1 % f.2.align = 0 :=
      fun f hf => halign f (List.mem_cons_of_mem _ hf)
    cases ft with
    | T => simp [Typ.etype, EType.isScalar, EType.isRawPtr] at hk
    | mk e w a b ty dn =>
      simp only [Typ.etype, Typ.align] at hk ha hp
      have hx : o + (off - o) = off := by ring
      rcases hk with hsc | hpt
      · -- a scalar field: no bit, on to the next field
        have hstep := walktype1_scalar A e w a b ty dn off bv hsc ha
        obtain ⟨bv1, hrun, hbits⟩ := ih (off + w) bv hs hkind1 halign1
          (fun f hf => hptr f (List.mem_cons_of_mem _ hf))
        refine ⟨bv1, ?_, ?_⟩
        · simp only [fieldchain, walkfields, hx, hstep, Typ.width]
          exact hrun
        · intro i
          rw [hbits i]
          constructor
          · rintro (h | ⟨f, hf, h⟩)
            · exact Or.inl h
            · exact Or.inr ⟨f, List.mem_cons_of_mem _ hf, h⟩
          · rintro (h | ⟨f, hf, h1, h2⟩)
            · exact Or.inl h
            · rcases List.mem_cons.1 hf with rfl | hf
              · exact absurd h1 (scalar_not_rawptr e hsc)
              · exact Or.inr ⟨f, hf, h1, h2⟩
      · -- a pointer field: bit off / widthptr
        obtain ⟨hp1, hp2, hp3⟩ := hp hpt
        have hpw : e.isPtrWord = true := rawptr_ptrword e hpt
        have hk0 : 0 ≤ off / A.widthptr := Int.ediv_nonneg hp2 (le_of_lt hw)
        have hk1 : off / A.widthptr < bv.n := Int.ediv_lt_of_lt_mul hw hp3
        obtain ⟨bv0, hstep, hs0, hn0, hb0⟩ :=
          walkptr_done A .alignment w off bv hp1 hk0 hk1 hs
        rw [← walktype1_ptrword A e w a b ty dn off bv hpw ha] at hstep
        obtain ⟨bv1, hrun, hbits⟩ := ih (off + w) bv0 hs0 hkind1 halign1
          (fun f hf h => by rw [hn0]; exact hptr f (List.mem_cons_of_mem _ hf) h)
        refine ⟨bv1, ?_, ?_⟩
        · simp only [fieldchain, walkfields, hx, hstep, Typ.width]
          exact hrun
        · intro i
          have hiff : i = off / A.widthptr ↔ off = i * A.widthptr := by
            constructor
            · intro h
              rw [h, Int.ediv_mul_cancel (Int.dvd_of_emod_eq_zero hp1)]
            · intro h
              rw [h, Int.mul_ediv_cancel _ (ne_of_gt hw)]
          rw [hbits i, hb0 i]
          simp only [Bool.or_eq_true, decide_eq_true_eq, hiff]
          constructor
          · rintro ((h | h) | ⟨f, hf, h⟩)
            · exact Or.inl h
            · exact Or.inr ⟨(off, .mk e w a b ty dn), List.mem_cons_self _ _, hpt, h⟩
            · exact Or.inr ⟨f, List.mem_cons_of_mem _ hf, h⟩
          · rintro (h | ⟨f, hf, h1, h2⟩)
            · exact Or.inl (Or.inl h)
            · rcases List.mem_cons.1 hf with rfl | hf
              · exact Or.inl (Or.inr h2)
              · exact Or.inr ⟨f, hf, h1, h2⟩

/-- C1: for a struct whose fields are raw pointers or non-pointer scalars, each
at an offset that meets its alignment (pointers at a multiple of `widthptr`,
inside the `n` words of the vector), `walktype` on a fresh vector of `n` bits
finishes at the width of the struct and leaves bit `i` set exactly when a
pointer field lies at byte offset `i * widthptr`. -/
theorem walktype_struct_bits (A : Arch) (width align n : Int) (fields : List (Int × Typ))
    (hw : 0 < A.widthptr)
    (hkind : ∀ f ∈ fields, f.2.etype.isScalar = true ∨ f.2.etype.isRawPtr = true)
    (halign : ∀ f ∈ fields, 0 < f.2.align → f.1 % f.2.align = 0)
    (hptr : ∀ f ∈ fields, f.2.etype.isRawPtr = true →
      f.1 % A.widthptr = 0 ∧ 0 ≤ f.1 ∧ f.1 < n * A.widthptr) :
    ∃ bv, walktype A (mkstruct width align fields) (bvalloc n) = .done width bv ∧
      ∀ i : Int, bvget bv i = true ↔
        ∃ f ∈ fields, f.2.etype.isRawPtr = true ∧ f.1 = i * A.widthptr := by
  obtain ⟨bv, hrun, hbits⟩ :=
    walkfields_flat A width hw fields 0 (bvalloc n) (bvalloc_stored n) hkind halign hptr
  refine ⟨bv, ?_, ?_⟩
  · simp only [walktype, mkstruct, walktype1]
    simpa using hrun
  · intro i
    rw [hbits i, bvget_bvalloc]
    simp

/-- The sample struct `{ptr; int32; ptr}` at word size 8 (field offsets 0, 8, 16,
width 24): the walk finishes at 24 with bits 0 and 2 set and bit 1 clear. -/
theorem walktype_struct_bits_witness :
    ∃ bv, walktype amd64 (mkstruct 24 8 sampleFields) (bvalloc 3) = .done 24 bv ∧
      bvget bv 0 = true ∧ bvget bv 1 = false ∧ bvget bv 2 = true := by
  obtain ⟨bv, hrun, hbits⟩ :=
    walktype_struct_bits amd64 24 8 3 sampleFields (by decide) (by decide) (by decide)
      (by decide)
  refine ⟨bv, hrun, (hbits 0).2 ?_, ?_, (hbits 2).2 ?_⟩
  · exact ⟨(0, ptr64), by decide, by decide, by decide⟩
  · cases h : bvget bv 1 with
    | false => rfl
    | true =>
      obtain ⟨f, hf, h1, h2⟩ := (hbits 1).1 h
      revert h1 h2
      revert f
      decide
  · exact ⟨(16, ptr64), by decide, by decide, by decide⟩

/-! ## Pointer-shaped values -/

/-- C7: a pointer-shaped value (pointer, unsafe pointer, func, chan, map,
string, interface, slice) met at an offset that is not a multiple of
`widthptr` stops the walk with a fatal error, the vector being as it was. -/
theorem walktype1_unaligned_fatal (A : Arch) (t : Typ) (x : Int) (bv : Bvec)
    (hshape : PtrShaped A t) (hx : x % A.widthptr ≠ 0) :
    ∃ why, walktype1 A t x bv = .fatal why bv := by
  have hm : Int.tmod x A.widthptr ≠ 0 := fun h => hx ((tmod_eq_zero_iff _ _).1 h)
  cases t with
  | T => simp [PtrShaped, Typ.etype, EType.isPtrWord] at hshape
  | mk e w a b ty dn =>
    by_cases hali : a > 0 ∧ Int.tmod x a ≠ 0
    · exact ⟨.initialAlignment, by simp [walktype1, hali]⟩
    · rcases hshape with h | h | ⟨h1, h2⟩
      · refine ⟨.alignment, ?_⟩
        simp only [Typ.etype] at h
        cases e <;> simp_all [walktype1, walkptr, EType.isPtrWord]
      · refine ⟨.alignment, ?_⟩
        simp only [Typ.etype] at h
        subst h
        simp [walktype1, hali, hm]
      · simp only [Typ.etype] at h1
        subst h1
        by_cases hb : b < -1
        · exact ⟨.bound, by simp [walktype1, hali, hb]⟩
        · exact ⟨.tarrayAlignment, by simp [walktype1, walkptr, hali, hb, h2, hm]⟩

/-- An unaligned pointer on the 64-bit target: at offset 4 the walk of `*T`
is fatal and the vector keeps its content. -/
theorem walktype1_unaligned_fatal_witness :
    ∃ why, walktype1 amd64 ptr64 4 (bvalloc 2) = .fatal why (bvalloc 2) :=
  walktype1_unaligned_fatal amd64 ptr64 4 (bvalloc 2) (by decide) (by decide)

/-- C8: at an offset `x` that is a multiple of `widthptr` (and of the
alignment of the type), with word index `k = x / widthptr` inside the vector,
`walktype1` sets bit `k` and no other for a pointer, unsafe pointer, func,
chan, map, string or slice, sets bits `k` and `k + 1` and no other for an
interface, and in each case ends at `x + t->width`. -/
theorem walktype1_pointer_bits (A : Arch) (t : Typ) (x : Int) (bv : Bvec)
    (hw : 0 < A.widthptr) (hx : x % A.widthptr = 0)
    (ha : 0 < t.align → x % t.align = 0) (hs : bv.Stored)
    (h0 : 0 ≤ x / A.widthptr) :
    ((t.etype.isPtrWord = true ∨
        (t.etype = .TARRAY ∧ A.isslice t = true ∧ -1 ≤ t.bound)) →
      x / A.widthptr < bv.n →
      ∃ bv1, walktype1 A t x bv = .done (x + t.width) bv1 ∧
        ∀ i, bvget bv1 i = (bvget bv i || decide (i = x / A.widthptr))) ∧
    (t.etype = .TINTER → x / A.widthptr + 1 < bv.n →
      ∃ bv1, walktype1 A t x bv = .done (x + t.width) bv1 ∧
        ∀ i, bvget bv1 i =
          (bvget bv i || decide (i = x / A.widthptr ∨ i = x / A.widthptr + 1))) := by
  have hm : Int.tmod x A.widthptr = 0 := (tmod_eq_zero_iff _ _).2 hx
  cases t with
  | T => simp [Typ.etype, EType.isPtrWord]
  | mk e w a b ty dn =>
    simp only [Typ.etype, Typ.align, Typ.width, Typ.bound] at ha ⊢
    have hali : ¬ (a > 0 ∧ Int.tmod x a ≠ 0) := by
      rintro ⟨h1, h2⟩
      exact h2 ((tmod_eq_zero_iff x a).2 (ha h1))
    constructor
    · intro hkind h1
      obtain ⟨bv1, hrun, _, _, hbits⟩ := walkptr_done A .alignment w x bv hx h0 h1 hs
      obtain ⟨bv2, hrun2, _, _, hbits2⟩ :=
        walkptr_done A .tarrayAlignment w x bv hx h0 h1 hs
      rcases hkind with hk | ⟨hk, hsl, hb⟩
      · exact ⟨bv1, by rw [walktype1_ptrword A e w a b ty dn x bv hk ha]; exact hrun, hbits⟩
      · subst hk
        refine ⟨bv2, ?_, hbits2⟩
        have hb1 : ¬ b < -1 := by omega
        simp only [walktype1, hali, hb1, hsl, if_true, if_false]
        exact hrun2
    · intro hk h1
      subst hk
      have hd : Int.tdiv x A.widthptr = x / A.widthptr :=
        Int.tdiv_eq_ediv_of_dvd (Int.dvd_of_emod_eq_zero hx)
      have hxk : x = x / A.widthptr * A.widthptr :=
        (Int.ediv_mul_cancel (Int.dvd_of_emod_eq_zero hx)).symm
      have hd1 : Int.tdiv (x + A.widthptr) A.widthptr = x / A.widthptr + 1 := by
        have : x + A.widthptr = (x / A.widthptr + 1) * A.widthptr := by
          rw [add_mul, one_mul, ← hxk]
        rw [this, Int.mul_tdiv_cancel _ (ne_of_gt hw)]
      obtain ⟨bv1, hb1⟩ := bvset_inrange bv (x / A.widthptr) h0 (by omega)
      obtain ⟨hs1, hn1, hbits1⟩ := bvget_bvset bv bv1 _ hs hb1
      obtain ⟨bv2, hb2⟩ := bvset_inrange bv1 (x / A.widthptr + 1) (by omega) (by omega)
      obtain ⟨_, _, hbits2⟩ := bvget_bvset bv1 bv2 _ hs1 hb2
      refine ⟨bv2, ?_, ?_⟩
      · simp [walktype1, hali, hm, hd, hd1, hb1, hb2]
      · intro i
        rw [hbits2 i, hbits1 i, Bool.or_assoc]
        congr 1
        by_cases h1 : i = x / A.widthptr <;> by_cases h2 : i = x / A.widthptr + 1 <;>
          simp [h1, h2]

/-- A pointer at offset 8 sets bit 1 alone; an interface at offset 8 sets bits
1 and 2 alone (64-bit target, vector of 4 bits). -/
theorem walktype1_pointer_bits_witness :
    (∃ bv1, walktype1 amd64 ptr64 8 (bvalloc 4) = .done (8 + 8) bv1 ∧
      ∀ i, bvget bv1 i = (bvget (bvalloc 4) i || decide (i = 1))) ∧
    (∃ bv1, walktype1 amd64 interT 8 (bvalloc 4) = .done (8 + 16) bv1 ∧
      ∀ i, bvget bv1 i = (bvget (bvalloc 4) i || decide (i = 1 ∨ i = 1 + 1))) :=
  ⟨(walktype1_pointer_bits amd64 ptr64 8 (bvalloc 4) (by decide) (by decide) (by decide)
      (by decide) (by decide)).1 (by decide) (by decide),
   (walktype1_pointer_bits amd64 interT 8 (bvalloc 4) (by decide) (by decide) (by decide)
      (by decide) (by decide)).2 (by decide) (by decide)⟩

/-! ## Types without pointers -/

theorem walk_plain (A : Arch) (t : Typ) :
    (∀ x bv, plainAt A t x = true → walktype1 A t x bv = .done (x + t.width) bv) ∧
    (∀ width base o bv, plainFieldsAt A t base = true →
      walkfields A width t o (base + o) bv = .done (base + width) bv) := by
  induction t with
  | T =>
    refine ⟨fun x bv h => by simp [plainAt] at h, fun width base o bv _ => ?_⟩
    simp only [walkfields]
    congr 1
    ring
  | mk e w a b ty dn ihty ihdn =>
    constructor
    · intro x bv h
      simp only [plainAt, Bool.and_eq_true, Bool.or_eq_true, decide_eq_true_eq,
        Bool.not_eq_true'] at h
      obtain ⟨ha, hk⟩ := h
      have hali : ¬ (a > 0 ∧ Int.tmod x a ≠ 0) := by
        rintro ⟨h1, h2⟩
        exact h2 ((tmod_eq_zero_iff x a).2 (ha h1))
      rcases hk with (hsc | ⟨⟨⟨he, hb⟩, hsl⟩, hp⟩) | ⟨he, hf⟩
      · exact walktype1_scalar A e w a b ty dn x bv hsc ha
      · subst he
        have hb1 : ¬ b < -1 := by omega
        simp [walktype1, hali, hb1, hsl, hp, Typ.width]
      · subst he
        have := ihty.2 w x 0 bv hf
        simp only [add_zero] at this
        simp [walktype1, hali, this, Typ.width]
    · intro width base o bv h
      simp only [plainFieldsAt, Bool.and_eq_true] at h
      have h1 := ihty.1 (base + w) bv h.1
      have h2 := ihdn.2 width base (w + ty.width) bv h.2
      have e1 : base + o + (w - o) = base + w := by ring
      have e2 : base + w + ty.width = base + (w + ty.width) := by ring
      simp only [walkfields, e1, h1, e2, h2]

theorem emitwords_from (bv : Bvec) :
    ∀ (m fuel k : Nat) (gcsym : Sym) (off : Int),
      m = nchunks bv.n - k → m ≤ fuel →
      emitwords bv fuel (32 * (k : Int)) gcsym off =
        (gcsym ++ (List.range m).map (fun (j : Nat) =>
            ({ off := off + 4 * (j : Int), width := 4,
               val := (bv.b.getD (k + j) 0 : Int) % 4294967296 } : Datum)),
          off + 4 * m) := by
  intro m
  induction m with
  | zero =>
    intro fuel k gcsym off hm _
    have hn : ¬ (32 * (k : Int) < bv.n) := by
      unfold nchunks at hm
      omega
    cases fuel <;> simp [emitwords, hn]
  | succ m ih =>
    intro fuel k gcsym off hm hfuel
    have hn : 32 * (k : Int) < bv.n := by
      unfold nchunks at hm
      omega
    obtain ⟨fuel1, rfl⟩ : ∃ f, fuel = f + 1 := ⟨fuel - 1, by omega⟩
    have hk : (Int.tdiv (32 * (k : Int)) 32).toNat = k := by
      rw [Int.mul_tdiv_cancel_left _ (by decide)]
      simp
    have hnext : 32 * (k : Int) + 32 = 32 * ((k + 1 : Nat) : Int) := by
      push_cast; ring
    simp only [emitwords, hn, if_true, duint32, hk, hnext]
    rw [ih fuel1 (k + 1) _ _ (by omega) (by omega)]
    rw [List.range_succ_eq_map, List.map_cons, List.map_map]
    simp only [List.append_assoc, List.singleton_append, Nat.cast_zero, mul_zero, add_zero,
      Nat.cast_add, Nat.cast_one]
    refine Prod.ext ?_ ?_
    · simp only
      congr 2
      apply List.map_congr_left
      intro j _
      simp only [Function.comp, Nat.succ_eq_add_one, Nat.cast_add, Nat.cast_one]
      congr 1
      · ring
      · congr 3
        omega
    · simp only
      ring

theorem emitwords_all (bv : Bvec) (gcsym : Sym) (off : Int) :
    emitwords bv bv.n.toNat 0 gcsym off =
      (gcsym ++ mapwords bv off, off + 4 * (nchunks bv.n : Int)) := by
  have h := emitwords_from bv (nchunks bv.n) bv.n.toNat 0 gcsym off (by simp) (by
    unfold nchunks; omega)
  simpa [mapwords] using h

theorem mapwords_bvalloc (n : Int) (off : Int) :
    mapwords (bvalloc n) off = zerowords off n := by
  unfold mapwords zerowords
  apply List.map_congr_left
  intro k _
  simp [bvalloc, List.getD_eq_getElem?_getD, List.getElem?_replicate]
  split <;> simp

theorem walkargs_plain (A : Arch) (fn : FuncType) (bv : Bvec)
    (hthis : fn.thistype = .T ∨ plainAt A fn.thistype 0 = true)
    (hin : fn.inargtype = .T ∨ plainAt A fn.inargtype 0 = true)
    (hout : fn.outargtype = .T ∨ plainAt A fn.outargtype 0 = true) :
    walkargs A fn bv = .ok bv := by
  have step : ∀ t : Typ, (t = .T ∨ plainAt A t 0 = true) →
      (if t = .T then (.ok bv : Except Fatal Bvec)
        else match walktype A t bv with
          | .done _ bv1 => .ok bv1
          | .fatal why _ => .error why) = .ok bv := by
    intro t ht
    by_cases h : t = .T
    · simp [h]
    · rcases ht with ht | ht
      · exact absurd ht h
      · simp [h, walktype, (walk_plain A t).1 0 bv ht]
  simp only [walkargs, step _ hthis, step _ hin, step _ hout]

/-- C2: a type built from non-pointer scalars, structs of such types and
arrays that are no slices and have `haspointers` false on the element type,
placed where every alignment check passes, is walked by `walktype1` to the
end (`x + t->width`) with the vector unchanged; and when the receiver,
incoming and outgoing argument types are such types (or nil), `pointermap`
emits the word count `argwid / widthptr` followed by zero words only. -/
theorem pointermap_plain_zero (A : Arch) :
    (∀ t x bv, plainAt A t x = true → walktype1 A t x bv = .done (x + t.width) bv) ∧
    (∀ (fn : FuncType) (gcsym : Sym) (off : Int),
      (fn.thistype = .T ∨ plainAt A fn.thistype 0 = true) →
      (fn.inargtype = .T ∨ plainAt A fn.inargtype 0 = true) →
      (fn.outargtype = .T ∨ plainAt A fn.outargtype 0 = true) →
      0 ≤ Int.tdiv fn.argwid A.widthptr → Int.tdiv fn.argwid A.widthptr < 4294967296 →
      pointermap A gcsym off fn =
        .ok (gcsym ++ { off := off, width := 4, val := Int.tdiv fn.argwid A.widthptr }
                :: zerowords (off + 4) (Int.tdiv fn.argwid A.widthptr),
             off + 4 + 4 * (nchunks (Int.tdiv fn.argwid A.widthptr) : Int))) := by
  refine ⟨fun t => (walk_plain A t).1, ?_⟩
  intro fn gcsym off hthis hin hout h0 h1
  simp only [pointermap, walkargs_plain A fn _ hthis hin hout, duint32, emitwords_all,
    mapwords_bvalloc]
  have hn : (bvalloc (Int.tdiv fn.argwid A.widthptr)).n = Int.tdiv fn.argwid A.widthptr := rfl
  rw [hn, Int.emod_eq_of_lt h0 h1]
  simp

/-- The argument struct `(a int32, b [4]int32)` on the 64-bit target: the walk
sets no bit, and the emitted map is the count 3 followed by one zero word. -/
theorem pointermap_plain_zero_witness :
    walktype1 amd64 plainArgs 0 (bvalloc 3) = .done (0 + plainArgs.width) (bvalloc 3) ∧
    pointermap amd64 [] 4 plainFn =
      .ok ([] ++ { off := 4, width := 4, val := Int.tdiv plainFn.argwid amd64.widthptr }
              :: zerowords (4 + 4) (Int.tdiv plainFn.argwid amd64.widthptr),
           4 + 4 + 4 * (nchunks (Int.tdiv plainFn.argwid amd64.widthptr) : Int)) :=
  ⟨(pointermap_plain_zero amd64).1 plainArgs 0 (bvalloc 3) (by decide),
   (pointermap_plain_zero amd64).2 plainFn [] 4 (by decide) (by decide) (by decide)
     (by decide) (by decide)⟩

/-! ## The walks keep the length of the vector -/

theorem bvset_n (bv bv1 : Bvec) (k : Int) (h : bvset bv k = some bv1) : bv1.n = bv.n := by
  unfold bvset at h
  split at h
  · cases h
  · cases h; rfl

theorem walkptr_n (A : Arch) (why : Fatal) (w x : Int) (bv : Bvec) :
    (walkptr A why w x bv).bv.n = bv.n := by
  unfold walkptr
  split
  · rfl
  · split
    · rfl
    · rename_i bv1 h
      exact bvset_n bv bv1 _ h

theorem walkarray_n (f : Int → Bvec → Walk) (hf : ∀ x bv, (f x bv).bv.n = bv.n) :
    ∀ (n : Nat) (x : Int) (bv : Bvec), (walkarray f n x bv).bv.n = bv.n := by
  intro n
  induction n with
  | zero => intro x bv; rfl
  | succ n ih =>
    intro x bv
    have h := hf x bv
    simp only [walkarray]
    split
    · rename_i why bv1 hr
      rw [hr] at h
      exact h
    · rename_i x1 bv1 hr
      rw [hr] at h
      rw [ih x1 bv1]
      exact h

theorem walk_n (A : Arch) (t : Typ) :
    (∀ x bv, (walktype1 A t x bv).bv.n = bv.n) ∧
    (∀ width o x bv, (walkfields A width t o x bv).bv.n = bv.n) := by
  induction t with
  | T => exact ⟨fun x bv => rfl, fun width o x bv => rfl⟩
  | mk e w a b ty dn ihty ihdn =>
    constructor
    · intro x bv
      by_cases hali : a > 0 ∧ Int.tmod x a ≠ 0
      · simp [walktype1, hali, Walk.bv]
      · cases e <;> simp only [walktype1, hali, if_false] <;>
          first
          | rfl
          | exact walkptr_n A _ w x bv
          | skip
        · -- interface
          split
          · rfl
          · split
            · rfl
            · rename_i bv1 h1
              split
              · exact bvset_n bv bv1 _ h1
              · rename_i bv2 h2
                simp only [Walk.bv]
                rw [bvset_n bv1 bv2 _ h2, bvset_n bv bv1 _ h1]
        · -- array
          split
          · rfl
          · split
            · exact walkptr_n A _ w x bv
            · split
              · rfl
              · exact walkarray_n _ ihty.1 _ x bv
        · -- struct
          exact ihty.2 w 0 x bv
    · intro width o x bv
      have h := ihty.1 (x + (w - o)) bv
      simp only [walkfields]
      split
      · rename_i why bv1 hr
        rw [hr] at h
        exact h
      · rename_i x1 bv1 hr
        rw [hr] at h
        rw [ihdn.2 width _ x1 bv1]
        exact h

theorem walkargs_n (A : Arch) (fn : FuncType) (bv bv1 : Bvec)
    (h : walkargs A fn bv = .ok bv1) : bv1.n = bv.n := by
  have step : ∀ (t : Typ) (b b1 : Bvec),
      (if t = .T then (.ok b : Except Fatal Bvec)
        else match walktype A t b with
          | .done _ bv1 => .ok bv1
          | .fatal why _ => .error why) = .ok b1 → b1.n = b.n := by
    intro t b b1 hs
    split at hs
    · cases hs; rfl
    · have hn := (walk_n A t).1 0 b
      unfold walktype at hs
      split at hs
      · rename_i x1 bv2 hr
        rw [hr] at hn
        cases hs
        exact hn
      · cases hs
  simp only [walkargs] at h
  split at h
  · cases h
  · rename_i b1 h1
    split at h
    · cases h
    · rename_i b2 h2
      rw [step _ _ _ h, step _ _ _ h2, step _ _ _ h1]

/-! ## The order of stack variables -/

/-- C9 (the code departs from its documented order): for a parameter `a` at
offset 0 and a result `b` at offset 8, both non-auto, `cmpstackvar(a, b)` is
`-1` and `cmpstackvar(b, a)` is `-1` as well, where "non-autos sort on
offset" asks for a positive value. -/
theorem cmpstackvar_param_result :
    cmpstackvar paramA resultB = -1 ∧ cmpstackvar resultB paramA = -1 := by
  decide

/-- The part of the documented order that `cmpstackvar` does implement: a
non-auto sorts before an auto, two names of one non-auto class sort on
offset, a used auto sorts before an unused one, and autos of equal used-ness
sort on descending alignment; each time the swapped call is positive. -/
theorem cmpstackvar_documented (a b : Node) :
    (a.class_ ≠ .PAUTO → b.class_ = .PAUTO →
      cmpstackvar a b < 0 ∧ 0 < cmpstackvar b a) ∧
    (a.class_ ≠ .PAUTO → a.class_ = b.class_ → a.xoffset < b.xoffset →
      cmpstackvar a b < 0 ∧ 0 < cmpstackvar b a) ∧
    (a.class_ = .PAUTO → b.class_ = .PAUTO → a.used ≠ 0 → b.used = 0 →
      cmpstackvar a b < 0 ∧ 0 < cmpstackvar b a) ∧
    (a.class_ = .PAUTO → b.class_ = .PAUTO → (a.used = 0 ↔ b.used = 0) →
      b.align < a.align → cmpstackvar a b < 0 ∧ 0 < cmpstackvar b a) := by
  refine ⟨?_, ?_, ?_, ?_⟩
  · intro ha hb
    have hne : a.class_ ≠ b.class_ := by rw [hb]; exact ha
    simp [cmpstackvar, hne, hne.symm, ha, ha.symm, hb]
  · intro ha hab hlt
    have hb : b.class_ ≠ .PAUTO := by rw [← hab]; exact ha
    have h1 : ¬ b.xoffset < a.xoffset := by omega
    simp [cmpstackvar, hab, hb, hlt, h1]
  · intro ha hb hu hv
    simp [cmpstackvar, ha, hb, hu, hv]
    omega
  · intro ha hb hu hlt
    by_cases h0 : a.used = 0
    · have h1 : b.used = 0 := hu.1 h0
      simp [cmpstackvar, ha, hb, h0, h1, hlt]
    · have h1 : ¬ b.used = 0 := fun h => h0 (hu.2 h)
      simp [cmpstackvar, ha, hb, h0, h1, hlt]

/-! ## Frames without used locals -/

/-- C10 (as stated, refuted): a declaration list holding one parameter whose
`used` flag is clear, with no name referred to by the instructions, keeps the
parameter after `allocauto`; and on the empty list `allocauto` returns at
once, leaving `stksize` (here 8) as it was. -/
theorem allocauto_unused_counterexample :
    allocauto quietEnv { dcl := [paramA], stksize := 8, errors := [] } =
      .ok { dcl := [paramA], stksize := 0, errors := [] } ∧
    allocauto quietEnv emptyFrame = .ok emptyFrame ∧ emptyFrame.stksize = 8 :=
  ⟨rfl, rfl, rfl⟩

theorem chop_subset : ∀ (l : List Node) (m : Node), m ∈ chop l → m ∈ l := by
  intro l
  induction l with
  | nil => intro m h; simp [chop] at h
  | cons a t ih =>
    intro m h
    cases t with
    | nil => simpa [chop] using h
    | cons b rest =>
      simp only [chop] at h
      split at h
      · simp only [List.mem_singleton] at h
        simp [h]
      · rcases List.mem_cons.1 h with h | h
        · simp [h]
        · exact List.mem_cons_of_mem _ (ih m h)

theorem chop_keeps_no_unused : ∀ (l : List Node) (a : Node), unusedauto a = false →
    ∀ m ∈ chop (a :: l), unusedauto m = false := by
  intro l
  induction l with
  | nil => intro a ha m h; simp only [chop, List.mem_singleton] at h; rw [h]; exact ha
  | cons b rest ih =>
    intro a ha m h
    simp only [chop] at h
    split at h
    · simp only [List.mem_singleton] at h
      rw [h]; exact ha
    · rename_i hb
      rcases List.mem_cons.1 h with h | h
      · rw [h]; exact ha
      · exact ih b (by simpa using hb) m h

theorem assignoffsets_no_auto (E : AutoEnv) :
    ∀ (l : List Node) (s : Int) (es : List Diag),
      (∀ m ∈ l, ¬ (m.class_ = .PAUTO ∧ m.op = .ONAME)) →
      assignoffsets E l s es = .ok (l, s, es) := by
  intro l
  induction l with
  | nil => intro s es _; rfl
  | cons a t ih =>
    intro s es h
    have ha : a.class_ ≠ .PAUTO ∨ a.op ≠ .ONAME := by
      have := h a (List.mem_cons_self _ _)
      by_cases hc : a.class_ = .PAUTO
      · exact Or.inr (fun ho => this ⟨hc, ho⟩)
      · exact Or.inl hc
    simp only [assignoffsets, ha, if_true,
      ih s es (fun m hm => h m (List.mem_cons_of_mem _ hm))]

theorem applydeltas_no_auto (l : List Node)
    (h : ∀ m ∈ l, ¬ (m.class_ = .PAUTO ∧ m.op = .ONAME)) : applydeltas l = l := by
  unfold applydeltas
  conv_rhs => rw [← List.map_id l]
  apply List.map_congr_left
  intro a ha
  have := h a ha
  have hc : a.class_ ≠ .PAUTO ∨ a.op ≠ .ONAME := by
    by_cases hc : a.class_ = .PAUTO
    · exact Or.inr (fun ho => this ⟨hc, ho⟩)
    · exact Or.inl hc
  simp [hc]

/-- C10 (amended): when the instructions refer to none of the declared names
and `listsort` rearranges the list, `allocauto` on a non-empty list ends with
`stksize = 0` and a retained list without any auto (class `PAUTO`, op
`ONAME`), which is nil when the list held autos only; on the empty list it
returns at once and leaves the state, `stksize` included, as it was. -/
theorem allocauto_all_unused (E : AutoEnv) (st : Frame)
    (hsort : ∀ l, (E.listsort cmpstackvar l).Perm l)
    (hlive : ∀ n ∈ st.dcl, E.markautoused n.id = false) :
    (st.dcl = [] → allocauto E st = .ok st) ∧
    (st.dcl ≠ [] →
      ∃ st1, allocauto E st = .ok st1 ∧ st1.stksize = 0 ∧
        (∀ n ∈ st1.dcl, ¬ (n.class_ = .PAUTO ∧ n.op = .ONAME)) ∧
        ((∀ n ∈ st.dcl, n.class_ = .PAUTO ∧ n.op = .ONAME) → st1.dcl = [])) := by
  constructor
  · intro h
    simp [allocauto, h]
  · intro hne
    -- the list after the two marking loops
    obtain ⟨dcl2, hdcl2⟩ : ∃ d, d = (st.dcl.map (fun n =>
        if n.class_ = .PAUTO then { n with used := 0 } else n)).map (fun n =>
        if E.markautoused n.id then { n with used := 1 } else n) := ⟨_, rfl⟩
    have hmark : ∀ m ∈ dcl2, (m.class_ = .PAUTO → m.used = 0) ∧
        ∃ n ∈ st.dcl, m.class_ = n.class_ ∧ m.op = n.op := by
      intro m hm
      rw [hdcl2, List.map_map] at hm
      obtain ⟨n, hn, rfl⟩ := List.mem_map.1 hm
      have hl := hlive n hn
      refine ⟨?_, n, hn, ?_⟩
      · by_cases hc : n.class_ = .PAUTO <;> simp [Function.comp, hc, hl]
      · by_cases hc : n.class_ = .PAUTO <;> simp [Function.comp, hc, hl]
    have hperm := hsort dcl2
    have hrun : allocauto E st =
        match E.listsort cmpstackvar dcl2 with
        | [] => .error .nilType
        | n :: rest =>
          if unusedauto n then .ok { dcl := [], stksize := 0, errors := st.errors }
          else
            match assignoffsets E (chop (n :: rest)) 0 st.errors with
            | .error why => .error why
            | .ok (ns, stksize, errors) =>
              .ok { dcl := applydeltas ns, stksize := stksize, errors := errors } := by
      simp only [allocauto, hne, if_false, hdcl2]
    rw [hrun]
    cases hsorted : E.listsort cmpstackvar dcl2 with
    | nil =>
      exfalso
      rw [hsorted] at hperm
      have h2 : dcl2 = [] := List.Perm.eq_nil hperm.symm
      rw [hdcl2] at h2
      simp only [List.map_eq_nil_iff] at h2
      exact hne h2
    | cons n rest =>
      rw [hsorted] at hperm
      have hmem : ∀ m ∈ n :: rest, (m.class_ = .PAUTO → m.used = 0) ∧
          ∃ n ∈ st.dcl, m.class_ = n.class_ ∧ m.op = n.op :=
        fun m hm => hmark m (hperm.subset hm)
      by_cases hu : unusedauto n = true
      · refine ⟨{ dcl := [], stksize := 0, errors := st.errors }, ?_, rfl, ?_, fun _ => rfl⟩
        · simp [hu]
        · intro m hm
          simp at hm
      · have hu1 : unusedauto n = false := by simpa using hu
        have hkeep : ∀ m ∈ chop (n :: rest), ¬ (m.class_ = .PAUTO ∧ m.op = .ONAME) := by
          rintro m hm ⟨hc, ho⟩
          have h1 := chop_keeps_no_unused rest n hu1 m hm
          have h2 := (hmem m (chop_subset _ m hm)).1 hc
          simp [unusedauto, hc, ho, h2] at h1
        refine ⟨{ dcl := chop (n :: rest), stksize := 0, errors := st.errors }, ?_, rfl,
          hkeep, ?_⟩
        · simp only [hu1, assignoffsets_no_auto E _ 0 st.errors hkeep,
            applydeltas_no_auto _ hkeep]
          simp
        · intro hall
          exfalso
          obtain ⟨hused, n0, hn0, hc, ho⟩ := hmem n (List.mem_cons_self _ _)
          have h0 := hall n0 hn0
          rw [← hc, ← ho] at h0
          simp [unusedauto, h0.1, h0.2, hused h0.1] at hu1

/-- Two autos that no instruction refers to, under the sample environment:
`allocauto` ends with `stksize = 0` and an empty declaration list; the empty
list is left as it was, `stksize` included. -/
theorem allocauto_all_unused_witness :
    (∃ st1, allocauto quietEnv autosFrame = .ok st1 ∧ st1.stksize = 0 ∧ st1.dcl = []) ∧
    allocauto quietEnv emptyFrame = .ok emptyFrame := by
  have h := allocauto_all_unused quietEnv autosFrame
    (fun l => List.perm_insertionSort _ l) (by decide)
  have h0 := allocauto_all_unused quietEnv emptyFrame
    (fun l => List.perm_insertionSort _ l) (by decide)
  obtain ⟨st1, h1, h2, _, h4⟩ := h.2 (by decide)
  exact ⟨⟨st1, h1, h2, h4 (by decide)⟩, h0.1 rfl⟩

/-! ## The limit on the frame size -/

/-- C12 (the code reports a frame of exactly `2^31` bytes): with one used auto
of `2^31` bytes, `allocauto` ends with `stksize = 2^31` and records "stack
frame too large (>2GB)", while the check of `compile` on the same size does
not fire; the test in `allocauto` is `>=` where the message and `compile`
say `>`. -/
theorem allocauto_reports_at_limit :
    allocauto liveEnv bigFrame =
      .ok { dcl := [{ bigauto with used := 1, xoffset := -2147483648 }],
            stksize := 2147483648, errors := [Diag.frameTooLarge] } ∧
    framecheck 2147483648 0 = false := by
  constructor
  · rfl
  · decide

/-- Away from the boundary the loop of `allocauto` does what the limit asks
for: after an auto that brings the running size to `s3` (below `2^63`), the
diagnostic is recorded when `s3 > 2^31` and not recorded when `s3 < 2^31`. -/
theorem assignoffsets_limit (E : AutoEnv) (n : Node) (es : List Diag)
    (hauto : n.class_ = .PAUTO ∧ n.op = .ONAME)
    (hw : ¬ (n.width ≥ E.MAXWIDTH ∨ n.width < 0))
    (h0 : 0 ≤ framestep E 0 n) (h1 : framestep E 0 n < 9223372036854775808) :
    (2147483648 < framestep E 0 n →
      assignoffsets E [n] 0 es =
        .ok ([{ n with stkdelta := -(framestep E 0 n) - n.xoffset }], framestep E 0 n,
             es ++ [Diag.frameTooLarge])) ∧
    (framestep E 0 n < 2147483648 →
      assignoffsets E [n] 0 es =
        .ok ([{ n with stkdelta := -(framestep E 0 n) - n.xoffset }], framestep E 0 n, es)) := by
  have hc : ¬ (n.class_ ≠ .PAUTO ∨ n.op ≠ .ONAME) := by simp [hauto.1, hauto.2]
  constructor
  · intro h
    have hbig : framestep E 0 n % 18446744073709551616 ≥ 2147483648 := by omega
    unfold framestep at hbig ⊢
    by_cases h5 : E.thechar = '5'
    · simp only [h5, if_true, zero_add] at hbig ⊢
      simp [assignoffsets, hc, hw, h5, hbig]
    · simp only [h5, if_false, zero_add] at hbig ⊢
      simp [assignoffsets, hc, hw, h5, hbig]
  · intro h
    have hsmall : ¬ framestep E 0 n % 18446744073709551616 ≥ 2147483648 := by omega
    unfold framestep at hsmall ⊢
    by_cases h5 : E.thechar = '5'
    · simp only [h5, if_true, zero_add] at hsmall ⊢
      simp [assignoffsets, hc, hw, h5, hsmall]
    · simp only [h5, if_false, zero_add] at hsmall ⊢
      simp [assignoffsets, hc, hw, h5, hsmall]

/-! ## The layout computed by `allocauto` -/

theorem isauto_iff (n : Node) : isauto n = true ↔ n.class_ = .PAUTO ∧ n.op = .ONAME := by
  simp [isauto]

theorem not_isauto_iff (n : Node) :
    isauto n = false ↔ (n.class_ ≠ .PAUTO ∨ n.op ≠ .ONAME) := by
  by_cases h1 : n.class_ = .PAUTO <;> by_cases h2 : n.op = .ONAME <;> simp [isauto, h1, h2]

theorem assign_place (E : AutoEnv) :
    ∀ (l : List Node) (S : Int) (es : List Diag) (ns : List Node) (S1 : Int)
      (es1 : List Diag), assignoffsets E l S es = .ok (ns, S1, es1) →
      applydeltas ns = place E l S ∧ S1 = endsize E l S ∧
      ∀ n ∈ l, isauto n = true → 0 ≤ n.width ∧ n.width < E.MAXWIDTH := by
  intro l
  induction l with
  | nil =>
    intro S es ns S1 es1 h
    simp only [assignoffsets, Except.ok.injEq, Prod.mk.injEq] at h
    obtain ⟨rfl, rfl, _⟩ := h
    simp [applydeltas, place, endsize]
  | cons n rest ih =>
    intro S es ns S1 es1 h
    by_cases ha : isauto n = true
    · have hc : ¬ (n.class_ ≠ .PAUTO ∨ n.op ≠ .ONAME) := by
        have := (isauto_iff n).1 ha
        simp [this.1, this.2]
      simp only [assignoffsets, hc, if_false] at h
      split at h
      · cases h
      · rename_i hw
        split at h
        · cases h
        · rename_i ns0 s0 es0 hrec
          simp only [Except.ok.injEq, Prod.mk.injEq] at h
          obtain ⟨rfl, rfl, rfl⟩ := h
          have hstep : (if E.thechar = '5' then E.rnd (E.rnd (S + n.width) n.align) E.widthptr
              else E.rnd (S + n.width) n.align) = framestep E S n := by
            simp [framestep]
          rw [hstep] at hrec
          obtain ⟨h1, h2, h3⟩ := ih _ _ _ _ _ hrec
          have hc2 := (isauto_iff n).1 ha
          refine ⟨?_, ?_, ?_⟩
          · have hx : n.xoffset + (-(framestep E S n) - n.xoffset) = -(framestep E S n) := by
              ring
            simp only [applydeltas, List.map_cons] at h1 ⊢
            simp only [place, ha, if_true, hstep, hc2.1, hc2.2, ne_eq, not_true_eq_false,
              or_self, if_false, hx, h1]
          · simp [endsize, ha, h2]
          · intro m hm hma
            rcases List.mem_cons.1 hm with rfl | hm
            · constructor <;> omega
            · exact h3 m hm hma
    · have hf : isauto n = false := by simpa using ha
      have hc : n.class_ ≠ .PAUTO ∨ n.op ≠ .ONAME := (not_isauto_iff n).1 hf
      simp only [assignoffsets, hc, if_true] at h
      split at h
      · cases h
      · rename_i ns0 s0 es0 hrec
        simp only [Except.ok.injEq, Prod.mk.injEq] at h
        obtain ⟨rfl, rfl, rfl⟩ := h
        obtain ⟨h1, h2, h3⟩ := ih _ _ _ _ _ hrec
        refine ⟨?_, ?_, ?_⟩
        · simp only [applydeltas, List.map_cons] at h1 ⊢
          simp only [place, hf, hc, if_true, h1]
          simp
        · simp [endsize, hf, h2]
        · intro m hm hma
          rcases List.mem_cons.1 hm with rfl | hm
          · rw [hf] at hma; cases hma
          · exact h3 m hm hma

theorem assign_total (E : AutoEnv) :
    ∀ (l : List Node) (S : Int) (es : List Diag),
      (∀ n ∈ l, isauto n = true → 0 ≤ n.width ∧ n.width < E.MAXWIDTH) →
      ∃ ns es1, assignoffsets E l S es = .ok (ns, endsize E l S, es1) := by
  intro l
  induction l with
  | nil => intro S es _; exact ⟨[], es, rfl⟩
  | cons n rest ih =>
    intro S es h
    have hrest : ∀ m ∈ rest, isauto m = true → 0 ≤ m.width ∧ m.width < E.MAXWIDTH :=
      fun m hm => h m (List.mem_cons_of_mem _ hm)
    by_cases ha : isauto n = true
    · have hc : ¬ (n.class_ ≠ .PAUTO ∨ n.op ≠ .ONAME) := by
        have := (isauto_iff n).1 ha
        simp [this.1, this.2]
      have hw := h n (List.mem_cons_self _ _) ha
      have hw1 : ¬ (n.width ≥ E.MAXWIDTH ∨ n.width < 0) := by omega
      have hstep : (if E.thechar = '5' then E.rnd (E.rnd (S + n.width) n.align) E.widthptr
          else E.rnd (S + n.width) n.align) = framestep E S n := by
        simp [framestep]
      obtain ⟨ns, es1, hrec⟩ := ih (framestep E S n)
        (if framestep E S n % 18446744073709551616 ≥ 2147483648
          then es ++ [Diag.frameTooLarge] else es) hrest
      refine ⟨{ n with stkdelta := -(framestep E S n) - n.xoffset } :: ns, es1, ?_⟩
      simp only [assignoffsets, hc, if_false, hw1, hstep, hrec, endsize, ha, if_true]
    · have hf : isauto n = false := by simpa using ha
      have hc : n.class_ ≠ .PAUTO ∨ n.op ≠ .ONAME := (not_isauto_iff n).1 hf
      obtain ⟨ns, es1, hrec⟩ := ih S es hrest
      refine ⟨n :: ns, es1, ?_⟩
      simp only [assignoffsets, hc, if_true, hrec, endsize, hf]
      simp

theorem place_layout (E : AutoEnv) :
    ∀ (l : List Node) (S : Int),
      ((place E l S).filter isauto).map (fun n => n.xoffset) =
          (framesizes E ((place E l S).filter isauto) S).map (fun x => -x) ∧
        endsize E l S = (framesizes E ((place E l S).filter isauto) S).getLastD S ∧
        framesizes E ((place E l S).filter isauto) S = framesizes E (l.filter isauto) S := by
  intro l
  induction l with
  | nil => intro S; simp [place, endsize, framesizes]
  | cons n rest ih =>
    intro S
    by_cases ha : isauto n = true
    · obtain ⟨h1, h2, h3⟩ := ih (framestep E S n)
      have ha1 : isauto { n with xoffset := -(framestep E S n), stkdelta := 0 } = true := by
        simpa [isauto] using ha
      have hs : framestep E S { n with xoffset := -(framestep E S n), stkdelta := 0 } =
          framestep E S n := by
        simp [framestep]
      simp only [place, ha, if_true, List.filter_cons, ha1, List.map_cons, framesizes, hs,
        endsize, List.getLastD_cons]
      exact ⟨by rw [h1], h2, by rw [h3]⟩
    · have hf : isauto n = false := by simpa using ha
      obtain ⟨h1, h2, h3⟩ := ih S
      simp only [place, hf, Bool.false_eq_true, if_false, List.filter_cons, endsize]
      exact ⟨h1, h2, h3⟩

theorem place_cons_auto (E : AutoEnv) (n : Node) (rest : List Node) (S : Int)
    (ha : isauto n = true) :
    place E (n :: rest) S =
      { n with xoffset := -(framestep E S n), stkdelta := 0 } ::
        place E rest (framestep E S n) := by
  simp only [place, ha, if_true]

theorem place_cons_other (E : AutoEnv) (n : Node) (rest : List Node) (S : Int)
    (ha : isauto n = false) : place E (n :: rest) S = n :: place E rest S := by
  simp only [place, ha, Bool.false_eq_true, if_false]

theorem place_mem (E : AutoEnv) :
    ∀ (l : List Node) (S : Int) (n : Node), n ∈ l →
      ∃ m ∈ place E l S, m.id = n.id ∧ m.class_ = n.class_ ∧ m.op = n.op ∧
        m.used = n.used ∧ m.width = n.width ∧ m.align = n.align := by
  intro l
  induction l with
  | nil => intro S n h; simp at h
  | cons a rest ih =>
    intro S n h
    rcases List.mem_cons.1 h with rfl | h
    · by_cases ha : isauto n = true
      · rw [place_cons_auto E n rest S ha]
        exact ⟨_, List.mem_cons_self _ _, rfl, rfl, rfl, rfl, rfl, rfl⟩
      · have hf : isauto n = false := by simpa using ha
        rw [place_cons_other E n rest S hf]
        exact ⟨n, List.mem_cons_self _ _, rfl, rfl, rfl, rfl, rfl, rfl⟩
    · by_cases ha : isauto a = true
      · obtain ⟨m, hm, hp⟩ := ih (framestep E S a) n h
        rw [place_cons_auto E a rest S ha]
        exact ⟨m, List.mem_cons_of_mem _ hm, hp⟩
      · have hf : isauto a = false := by simpa using ha
        obtain ⟨m, hm, hp⟩ := ih S n h
        rw [place_cons_other E a rest S hf]
        exact ⟨m, List.mem_cons_of_mem _ hm, hp⟩

theorem place_mem_rev (E : AutoEnv) :
    ∀ (l : List Node) (S : Int) (m : Node), m ∈ place E l S →
      ∃ n ∈ l, m.id = n.id ∧ m.class_ = n.class_ ∧ m.op = n.op ∧
        m.used = n.used ∧ m.width = n.width ∧ m.align = n.align := by
  intro l
  induction l with
  | nil => intro S m h; simp [place] at h
  | cons a rest ih =>
    intro S m h
    by_cases ha : isauto a = true
    · simp only [place, ha, if_true] at h
      rcases List.mem_cons.1 h with rfl | h
      · exact ⟨a, List.mem_cons_self _ _, rfl, rfl, rfl, rfl, rfl, rfl⟩
      · obtain ⟨n, hn, hp⟩ := ih _ m h
        exact ⟨n, List.mem_cons_of_mem _ hn, hp⟩
    · have hf : isauto a = false := by simpa using ha
      simp only [place, hf, Bool.false_eq_true, if_false] at h
      rcases List.mem_cons.1 h with rfl | h
      · exact ⟨m, List.mem_cons_self _ _, rfl, rfl, rfl, rfl, rfl, rfl⟩
      · obtain ⟨n, hn, hp⟩ := ih _ m h
        exact ⟨n, List.mem_cons_of_mem _ hn, hp⟩

theorem allocauto_cases (E : AutoEnv) (st st1 : Frame) (hne : st.dcl ≠ [])
    (hrun : allocauto E st = .ok st1) :
    (∃ u rest, sorted E st.dcl = u :: rest ∧ unusedauto u = true ∧
        st1.dcl = [] ∧ st1.stksize = 0) ∨
    (∃ n rest, sorted E st.dcl = n :: rest ∧ unusedauto n = false ∧
        st1.dcl = place E (chop (n :: rest)) 0 ∧
        st1.stksize = endsize E (chop (n :: rest)) 0 ∧
        ∀ m ∈ chop (n :: rest), isauto m = true → 0 ≤ m.width ∧ m.width < E.MAXWIDTH) := by
  have hunf : allocauto E st =
      match sorted E st.dcl with
      | [] => .error .nilType
      | n :: rest =>
        if unusedauto n then .ok { dcl := [], stksize := 0, errors := st.errors }
        else
          match assignoffsets E (chop (n :: rest)) 0 st.errors with
          | .error why => .error why
          | .ok (ns, stksize, errors) =>
            .ok { dcl := applydeltas ns, stksize := stksize, errors := errors } := by
    simp only [allocauto, hne, if_false, sorted, marked]
  rw [hunf] at hrun
  cases hs : sorted E st.dcl with
  | nil => rw [hs] at hrun; cases hrun
  | cons n rest =>
    rw [hs] at hrun
    by_cases hu : unusedauto n = true
    · left
      simp only [hu, if_true, Except.ok.injEq] at hrun
      exact ⟨n, rest, rfl, hu, by rw [← hrun], by rw [← hrun]⟩
    · right
      have hu1 : unusedauto n = false := by simpa using hu
      simp only [hu1, Bool.false_eq_true, if_false] at hrun
      split at hrun
      · cases hrun
      · rename_i ns S es hr
        simp only [Except.ok.injEq] at hrun
        obtain ⟨h1, h2, h3⟩ := assign_place E _ _ _ _ _ _ hr
        exact ⟨n, rest, rfl, hu1, by rw [← hrun]; exact h1, by rw [← hrun]; exact h2, h3⟩

theorem framestep_ge (E : AutoEnv) (S : Int) (n : Node)
    (hge : ∀ o, o ≤ E.rnd o n.align) (hge5 : E.thechar = '5' → ∀ o, o ≤ E.rnd o E.widthptr) :
    S + n.width ≤ framestep E S n := by
  unfold framestep
  split
  · rename_i h5
    exact le_trans (hge _) (hge5 h5 _)
  · exact hge _

theorem framestep_dvd (E : AutoEnv) (S : Int) (n : Node)
    (hdvd : ∀ o, n.align ∣ E.rnd o n.align)
    (hdvd5 : E.thechar = '5' → ∀ o, n.align ∣ o → n.align ∣ E.rnd o E.widthptr) :
    n.align ∣ framestep E S n := by
  unfold framestep
  split
  · rename_i h5
    exact hdvd5 h5 _ (hdvd _)
  · exact hdvd _

theorem place_mono (E : AutoEnv) (hge5 : E.thechar = '5' → ∀ o, o ≤ E.rnd o E.widthptr) :
    ∀ (l : List Node) (S : Int),
      (∀ n ∈ place E l S, isauto n = true → 0 ≤ n.width) →
      (∀ n ∈ place E l S, ∀ o, o ≤ E.rnd o n.align) →
      (∀ x ∈ ((place E l S).filter isauto).map (fun n => n.xoffset), x ≤ -S) ∧
      (((place E l S).filter isauto).map (fun n => n.xoffset)).Pairwise (fun a b => a ≥ b) := by
  intro l
  induction l with
  | nil => intro S _ _; simp [place]
  | cons n rest ih =>
    intro S hw hge
    by_cases ha : isauto n = true
    · rw [place_cons_auto E n rest S ha] at hw hge ⊢
      have ha1 : isauto { n with xoffset := -(framestep E S n), stkdelta := 0 } = true := by
        simpa [isauto] using ha
      have hw0 := hw _ (List.mem_cons_self _ _) ha1
      have hge0 := hge _ (List.mem_cons_self _ _)
      have hstep : S + n.width ≤ framestep E S n := framestep_ge E S n hge0 hge5
      have hw0n : 0 ≤ n.width := hw0
      obtain ⟨h1, h2⟩ := ih (framestep E S n)
        (fun m hm => hw m (List.mem_cons_of_mem _ hm))
        (fun m hm => hge m (List.mem_cons_of_mem _ hm))
      simp only [List.filter_cons, ha1, if_true, List.map_cons, List.mem_cons,
        List.pairwise_cons]
      refine ⟨?_, ?_, h2⟩
      · rintro x (rfl | hx)
        · omega
        · have := h1 x hx
          omega
      · intro x hx
        have := h1 x hx
        omega
    · have hf : isauto n = false := by simpa using ha
      rw [place_cons_other E n rest S hf] at hw hge ⊢
      obtain ⟨h1, h2⟩ := ih S
        (fun m hm => hw m (List.mem_cons_of_mem _ hm))
        (fun m hm => hge m (List.mem_cons_of_mem _ hm))
      simp only [List.filter_cons, hf, Bool.false_eq_true, if_false]
      exact ⟨h1, h2⟩

theorem place_dvd (E : AutoEnv) :
    ∀ (l : List Node) (S : Int),
      (∀ n ∈ place E l S, ∀ o, n.align ∣ E.rnd o n.align) →
      (E.thechar = '5' → ∀ n ∈ place E l S, ∀ o, n.align ∣ o → n.align ∣ E.rnd o E.widthptr) →
      ∀ n ∈ (place E l S).filter isauto, n.align ∣ n.xoffset := by
  intro l
  induction l with
  | nil => intro S _ _ n hn; simp [place] at hn
  | cons a rest ih =>
    intro S hdvd hdvd5
    by_cases ha : isauto a = true
    · rw [place_cons_auto E a rest S ha] at hdvd hdvd5 ⊢
      have ha1 : isauto { a with xoffset := -(framestep E S a), stkdelta := 0 } = true := by
        simpa [isauto] using ha
      have h0 : a.align ∣ framestep E S a :=
        framestep_dvd E S a
          (hdvd { a with xoffset := -(framestep E S a), stkdelta := 0 }
            (List.mem_cons_self _ _))
          (fun h5 => hdvd5 h5 { a with xoffset := -(framestep E S a), stkdelta := 0 }
            (List.mem_cons_self _ _))
      have hrest := ih (framestep E S a)
        (fun m hm => hdvd m (List.mem_cons_of_mem _ hm))
        (fun h5 m hm => hdvd5 h5 m (List.mem_cons_of_mem _ hm))
      intro n hn
      simp only [List.filter_cons, ha1, if_true, List.mem_cons] at hn
      rcases hn with rfl | hn
      · exact (dvd_neg).2 h0
      · exact hrest n hn
    · have hf : isauto a = false := by simpa using ha
      rw [place_cons_other E a rest S hf] at hdvd hdvd5 ⊢
      have hrest := ih S
        (fun m hm => hdvd m (List.mem_cons_of_mem _ hm))
        (fun h5 m hm => hdvd5 h5 m (List.mem_cons_of_mem _ hm))
      intro n hn
      simp only [List.filter_cons, hf, Bool.false_eq_true, if_false] at hn
      exact hrest n hn

/-- C13: after `allocauto` on a non-empty list, the retained autos, in the
order of the list, have `xoffset = -S_k` with `S_0 = 0` and
`S_k = framestep S_(k-1)` (the size so far plus the width, rounded up to the
alignment, and to `widthptr` as well on target `5`), and `stksize` is the
last `S_k` (0 without a retained auto).  When `rnd` does not round down, the
offsets go down along the list; when `rnd o r` is a multiple of `r` (and
rounding to `widthptr` keeps multiples of the alignment on target `5`),
every offset is a multiple of the alignment of its local. -/
theorem allocauto_offsets (E : AutoEnv) (st st1 : Frame) (hne : st.dcl ≠ [])
    (hrun : allocauto E st = .ok st1) :
    (st1.dcl.filter isauto).map (fun n => n.xoffset) =
        (framesizes E (st1.dcl.filter isauto) 0).map (fun x => -x) ∧
    st1.stksize = (framesizes E (st1.dcl.filter isauto) 0).getLastD 0 ∧
    ((∀ n ∈ st1.dcl, ∀ o, o ≤ E.rnd o n.align) →
      (E.thechar = '5' → ∀ o, o ≤ E.rnd o E.widthptr) →
      ((st1.dcl.filter isauto).map (fun n => n.xoffset)).Pairwise (fun a b => a ≥ b)) ∧
    ((∀ n ∈ st1.dcl, ∀ o, n.align ∣ E.rnd o n.align) →
      (E.thechar = '5' → ∀ n ∈ st1.dcl, ∀ o, n.align ∣ o → n.align ∣ E.rnd o E.widthptr) →
      ∀ n ∈ st1.dcl.filter isauto, n.align ∣ n.xoffset) := by
  rcases allocauto_cases E st st1 hne hrun with
    ⟨u, rest, _, _, hd, hs⟩ | ⟨n, rest, _, _, hd, hs, hw⟩
  · rw [hd, hs]
    simp [framesizes]
  · obtain ⟨h1, h2, _⟩ := place_layout E (chop (n :: rest)) 0
    rw [hd, hs]
    refine ⟨h1, h2, ?_, ?_⟩
    · intro hge hge5
      refine (place_mono E hge5 (chop (n :: rest)) 0 ?_ hge).2
      intro m hm hma
      obtain ⟨k, hk, _, hc, ho, _, hwd, _⟩ := place_mem_rev E _ _ m hm
      have hka : isauto k = true := by
        simp only [isauto, ← hc, ← ho]
        simpa [isauto] using hma
      rw [hwd]
      exact (hw k hk hka).1
    · intro hdvd hdvd5
      exact place_dvd E (chop (n :: rest)) 0 hdvd hdvd5

/-- Two used autos of 8 and 4 bytes on the 64-bit target: offsets `-8` and
`-12`, frame size 12, offsets going down, each a multiple of its alignment. -/
theorem allocauto_offsets_witness :
    allocauto liveEnv autosFrame = .ok autosPlaced ∧
    (autosPlaced.dcl.filter isauto).map (fun n => n.xoffset) = [-8, -12] ∧
    autosPlaced.stksize = 12 ∧
    ((autosPlaced.dcl.filter isauto).map (fun n => n.xoffset)).Pairwise (fun a b => a ≥ b) ∧
    (∀ n ∈ autosPlaced.dcl.filter isauto, n.align ∣ n.xoffset) := by
  have hrun : allocauto liveEnv autosFrame = .ok autosPlaced := rfl
  obtain ⟨h1, h2, h3, h4⟩ := allocauto_offsets liveEnv autosFrame autosPlaced (by decide) hrun
  have hge : ∀ n ∈ autosPlaced.dcl, ∀ o, o ≤ liveEnv.rnd o n.align := by
    intro n hn o
    simp only [autosPlaced, List.mem_cons, List.mem_singleton, List.not_mem_nil, or_false] at hn
    rcases hn with rfl | rfl
    · show o ≤ (o + 8 - 1) / 8 * 8
      omega
    · show o ≤ (o + 4 - 1) / 4 * 4
      omega
  have hdvd : ∀ n ∈ autosPlaced.dcl, ∀ o, n.align ∣ liveEnv.rnd o n.align := by
    intro n _ o
    exact Dvd.intro_left _ rfl
  refine ⟨hrun, ?_, rfl, h3 hge (fun h => absurd h (by decide)),
    h4 hdvd (fun h => absurd h (by decide))⟩
  rw [h1]
  decide

/-! ## Unused autos are dropped -/

theorem chop_split : ∀ (l : List Node),
    ∃ d, l = chop l ++ d ∧ ∀ u ∈ d.head?, unusedauto u = true := by
  intro l
  induction l with
  | nil => exact ⟨[], by simp [chop], by simp⟩
  | cons a t ih =>
    cases t with
    | nil => exact ⟨[], by simp [chop], by simp⟩
    | cons b rest =>
      by_cases hb : unusedauto b = true
      · exact ⟨b :: rest, by simp [chop, hb], by simpa using hb⟩
      · obtain ⟨d, hd, hu⟩ := ih
        refine ⟨d, ?_, hu⟩
        simp only [chop, hb, Bool.false_eq_true, if_false, List.cons_append]
        rw [← hd]

theorem cmp_unused_le (u x : Node) (hu : unusedauto u = true)
    (hle : cmpstackvar u x ≤ 0) : x.class_ = .PAUTO ∧ x.used = 0 := by
  simp only [unusedauto, Bool.and_eq_true, decide_eq_true_eq] at hu
  obtain ⟨⟨hc, _⟩, hused⟩ := hu
  by_cases hx : x.class_ = .PAUTO
  · refine ⟨hx, ?_⟩
    by_contra hne
    simp [cmpstackvar, hc, hx, hused, hne] at hle
  · exfalso
    have h1 : ¬ Class.PAUTO = x.class_ := fun h => hx h.symm
    simp [cmpstackvar, hc, h1] at hle

theorem dropped_unused (k d : List Node) (hord : AutoOrdered (k ++ d))
    (hu : ∀ u ∈ d.head?, unusedauto u = true) :
    ∀ x ∈ d, x.class_ = .PAUTO ∧ x.used = 0 := by
  cases d with
  | nil => intro x hx; simp at hx
  | cons u t =>
    have huu : unusedauto u = true := hu u (by simp)
    have hpair := (List.pairwise_append.1 hord).2.1
    rw [List.pairwise_cons] at hpair
    have huc : u.class_ = .PAUTO := by
      simp only [unusedauto, Bool.and_eq_true, decide_eq_true_eq] at huu
      exact huu.1.1
    intro x hx
    rcases List.mem_cons.1 hx with rfl | hx
    · simp only [unusedauto, Bool.and_eq_true, decide_eq_true_eq] at huu
      exact ⟨huu.1.1, huu.2⟩
    · exact cmp_unused_le u x huu (hpair.1 x hx (Or.inl huc))

theorem marked_mem (E : AutoEnv) (dcl : List Node) (n : Node) (hn : n ∈ dcl) :
    ∃ m ∈ marked E dcl, m.id = n.id ∧ m.class_ = n.class_ ∧ m.op = n.op ∧
      m.width = n.width ∧ m.align = n.align ∧
      (E.markautoused n.id = true → m.used = 1) := by
  refine ⟨_, List.mem_map.2 ⟨_, List.mem_map.2 ⟨n, hn, rfl⟩, rfl⟩, ?_⟩
  by_cases hc : n.class_ = .PAUTO <;> by_cases hl : E.markautoused n.id = true <;>
    simp [hc, hl]

theorem filter_usedauto_kept (k : List Node) (hk : ∀ m ∈ k, unusedauto m = false) :
    k.filter usedauto = k.filter isauto := by
  apply List.filter_congr
  intro m hm
  have := hk m hm
  by_cases ha : isauto m = true
  · have ha2 := (isauto_iff m).1 ha
    simp only [unusedauto, ha2.1, ha2.2, decide_True, Bool.true_and, decide_eq_false_iff_not]
      at this
    simp [usedauto, ha, this]
  · have hf : isauto m = false := by simpa using ha
    simp [usedauto, hf]

theorem filter_usedauto_dropped (d : List Node)
    (hd : ∀ x ∈ d, x.class_ = .PAUTO ∧ x.used = 0) : d.filter usedauto = [] := by
  rw [List.filter_eq_nil_iff]
  intro x hx
  simp [usedauto, (hd x hx).2]

/-- C14: when `listsort` rearranges the marked list into an order in which
every pair with an auto follows `cmpstackvar`, `allocauto` on a non-empty list
retains no auto that is marked unused, retains every non-auto local and
every auto that the instructions refer to (with its class, op, width and
alignment), and ends with the frame size of the used autos alone. -/
theorem allocauto_drops_unused (E : AutoEnv) (st st1 : Frame) (hne : st.dcl ≠ [])
    (hrun : allocauto E st = .ok st1)
    (hperm : (sorted E st.dcl).Perm (marked E st.dcl))
    (hord : AutoOrdered (sorted E st.dcl)) :
    (∀ m ∈ st1.dcl, unusedauto m = false) ∧
    (∀ n ∈ st.dcl, (n.class_ ≠ .PAUTO ∨ E.markautoused n.id = true) →
      ∃ m ∈ st1.dcl, m.id = n.id ∧ m.class_ = n.class_ ∧ m.op = n.op ∧
        m.width = n.width ∧ m.align = n.align) ∧
    st1.stksize = (framesizes E ((sorted E st.dcl).filter usedauto) 0).getLastD 0 := by
  -- a node of the input that is not an unused auto cannot be among dropped nodes
  have hkeep : ∀ (d : List Node), (∀ x ∈ d, x.class_ = .PAUTO ∧ x.used = 0) →
      ∀ n ∈ st.dcl, (n.class_ ≠ .PAUTO ∨ E.markautoused n.id = true) →
      ∀ m, m.class_ = n.class_ → (E.markautoused n.id = true → m.used = 1) → m ∉ d := by
    intro d hd n _ hcond m hc hused hm
    obtain ⟨h1, h2⟩ := hd m hm
    rcases hcond with h | h
    · exact h (by rw [← hc]; exact h1)
    · have := hused h
      omega
  rcases allocauto_cases E st st1 hne hrun with
    ⟨u, rest, hs, hu, hd, hsz⟩ | ⟨n, rest, hs, hu, hd, hsz, _⟩
  · have hall := dropped_unused [] (u :: rest) (by simpa [hs] using hord)
      (by simpa using hu)
    refine ⟨by rw [hd]; simp, ?_, ?_⟩
    · intro n hn hcond
      obtain ⟨m, hm, _, hc, _, _, _, hused⟩ := marked_mem E st.dcl n hn
      have hm2 : m ∈ u :: rest := by rw [← hs]; exact hperm.symm.subset hm
      exact absurd hm2 (hkeep _ hall n hn hcond m hc hused)
    · rw [hsz, hs, filter_usedauto_dropped _ hall]
      simp [framesizes]
  · obtain ⟨d, hsplit, hhead⟩ := chop_split (n :: rest)
    have hall := dropped_unused (chop (n :: rest)) d
      (by rw [← hsplit, ← hs]; exact hord) hhead
    have hk : ∀ m ∈ chop (n :: rest), unusedauto m = false :=
      chop_keeps_no_unused rest n hu
    refine ⟨?_, ?_, ?_⟩
    · intro m hm
      rw [hd] at hm
      obtain ⟨k, hkm, _, hc, ho, hus, _, _⟩ := place_mem_rev E _ _ m hm
      have := hk k hkm
      simpa [unusedauto, hc, ho, hus] using this
    · intro n0 hn0 hcond
      obtain ⟨m, hm, hid, hc, ho, hw, ha, hused⟩ := marked_mem E st.dcl n0 hn0
      have hm2 : m ∈ chop (n :: rest) ++ d := by
        rw [← hsplit, ← hs]; exact hperm.symm.subset hm
      rcases List.mem_append.1 hm2 with hm3 | hm3
      · obtain ⟨p, hp, h1, h2, h3, _, h5, h6⟩ := place_mem E _ 0 m hm3
        exact ⟨p, by rw [hd]; exact hp, by rw [h1, hid], by rw [h2, hc], by rw [h3, ho],
          by rw [h5, hw], by rw [h6, ha]⟩
      · exact absurd hm3 (hkeep _ hall n0 hn0 hcond m hc hused)
    · obtain ⟨_, h2, h3⟩ := place_layout E (chop (n :: rest)) 0
      rw [hsz, h2, h3, hs]
      conv_rhs => rw [hsplit]
      rw [List.filter_append, filter_usedauto_dropped _ hall, List.append_nil,
        filter_usedauto_kept _ hk]

/-- An unused auto, a used auto and a parameter: the parameter and the used
auto are retained, the unused auto is gone, and the frame holds the 8 bytes of
the used auto. -/
theorem allocauto_drops_unused_witness :
    allocauto mixedEnv mixedFrame = .ok mixedPlaced ∧
    (∀ m ∈ mixedPlaced.dcl, unusedauto m = false) ∧
    (∃ m ∈ mixedPlaced.dcl, m.id = paramA.id) ∧
    (∃ m ∈ mixedPlaced.dcl, m.id = autoC.id) ∧
    mixedPlaced.stksize = 8 := by
  have hrun : allocauto mixedEnv mixedFrame = .ok mixedPlaced := rfl
  obtain ⟨h1, h2, _⟩ := allocauto_drops_unused mixedEnv mixedFrame mixedPlaced (by decide) hrun
    (List.perm_insertionSort _ _) (by decide)
  obtain ⟨m1, hm1, hid1, _⟩ := h2 paramA (by decide) (by decide)
  obtain ⟨m2, hm2, hid2, _⟩ := h2 autoC (by decide) (by decide)
  exact ⟨hrun, h1, ⟨m1, hm1, hid1⟩, ⟨m2, hm2, hid2⟩, rfl⟩

/-! ## Running `allocauto` twice -/

/-- C11 (as stated, refuted): with a list sort that puts a node before
another only when `cmpstackvar` is negative, two used autos of equal
alignment change places at each run: the first run leaves `autoE` at `-16`
and `autoC` at `-24`, the second run leaves `autoC` at `-8` and `autoE` at
`-24`. -/
theorem allocauto_twice_counterexample :
    allocauto liveEnv tiedFrame = .ok tiedOnce ∧
    allocauto liveEnv tiedOnce = .ok tiedTwice ∧
    tiedTwice.dcl ≠ tiedOnce.dcl ∧
    tiedOnce.dcl.map (fun n => (n.id, n.xoffset)) = [(8, -16), (3, -24)] ∧
    tiedTwice.dcl.map (fun n => (n.id, n.xoffset)) = [(3, -8), (8, -24)] :=
  ⟨rfl, rfl, by decide, rfl, rfl⟩

theorem chop_id : ∀ (l : List Node), (∀ m ∈ l, unusedauto m = false) → chop l = l := by
  intro l
  induction l with
  | nil => intro _; rfl
  | cons a t ih =>
    intro h
    cases t with
    | nil => rfl
    | cons b rest =>
      have hb := h b (by simp)
      simp only [chop, hb, Bool.false_eq_true, if_false]
      rw [ih (fun m hm => h m (List.mem_cons_of_mem _ hm))]

theorem place_idem (E : AutoEnv) :
    ∀ (l : List Node) (S : Int),
      place E (place E l S) S = place E l S ∧ endsize E (place E l S) S = endsize E l S := by
  intro l
  induction l with
  | nil => intro S; simp [place, endsize]
  | cons n rest ih =>
    intro S
    by_cases ha : isauto n = true
    · have ha1 : isauto { n with xoffset := -(framestep E S n), stkdelta := 0 } = true := by
        simpa [isauto] using ha
      have hs : framestep E S { n with xoffset := -(framestep E S n), stkdelta := 0 } =
          framestep E S n := by
        simp [framestep]
      rw [place_cons_auto E n rest S ha, place_cons_auto E _ _ S ha1]
      simp only [hs, endsize, ha1, if_true, ha]
      exact ⟨by rw [(ih _).1], (ih _).2⟩
    · have hf : isauto n = false := by simpa using ha
      rw [place_cons_other E n rest S hf, place_cons_other E n _ S hf]
      simp only [endsize, hf, Bool.false_eq_true, if_false]
      exact ⟨by rw [(ih _).1], (ih _).2⟩

theorem marked_fixed (E : AutoEnv) (l : List Node)
    (h : ∀ m ∈ l, (E.markautoused m.id = true → m.used = 1) ∧
      (E.markautoused m.id = false → m.class_ = .PAUTO → m.used = 0)) :
    marked E l = l := by
  unfold marked
  rw [List.map_map]
  conv_rhs => rw [← List.map_id l]
  apply List.map_congr_left
  intro m hm
  obtain ⟨h1, h2⟩ := h m hm
  by_cases hl : E.markautoused m.id = true
  · have hu := h1 hl
    by_cases hc : m.class_ = .PAUTO
    · simp only [Function.comp, hc, if_true, hl, id]
      cases m
      simp_all
    · simp only [Function.comp, hc, if_false, hl, if_true, id]
      cases m
      simp_all
  · have hl0 : E.markautoused m.id = false := by simpa using hl
    by_cases hc : m.class_ = .PAUTO
    · have hu := h2 hl0 hc
      simp only [Function.comp, hc, if_true, hl0, Bool.false_eq_true, if_false, id]
      cases m
      simp_all
    · simp only [Function.comp, hc, if_false, hl0, Bool.false_eq_true, id]

theorem marked_is_marked (E : AutoEnv) (dcl : List Node) :
    ∀ m ∈ marked E dcl, (E.markautoused m.id = true → m.used = 1) ∧
      (E.markautoused m.id = false → m.class_ = .PAUTO → m.used = 0) := by
  intro m hm
  unfold marked at hm
  rw [List.map_map] at hm
  obtain ⟨n, _, rfl⟩ := List.mem_map.1 hm
  by_cases hc : n.class_ = .PAUTO <;> by_cases hl : E.markautoused n.id = true <;>
    simp [Function.comp, hc, hl]

theorem allocauto_unfold (E : AutoEnv) (st : Frame) (hne : st.dcl ≠ []) :
    allocauto E st =
      match sorted E st.dcl with
      | [] => .error .nilType
      | n :: rest =>
        if unusedauto n then .ok { dcl := [], stksize := 0, errors := st.errors }
        else
          match assignoffsets E (chop (n :: rest)) 0 st.errors with
          | .error why => .error why
          | .ok (ns, stksize, errors) =>
            .ok { dcl := applydeltas ns, stksize := stksize, errors := errors } := by
  simp only [allocauto, hne, if_false, sorted, marked]

theorem chop_cons (n : Node) (rest : List Node) : ∃ t, chop (n :: rest) = n :: t := by
  cases rest with
  | nil => exact ⟨[], rfl⟩
  | cons b r =>
    simp only [chop]
    split
    · exact ⟨[], rfl⟩
    · exact ⟨_, rfl⟩

/-- C11 (amended): when the first run of `allocauto` ends and `listsort`
returns the list that this run left in the same order, a second run ends as
well, with the same retained list (the same nodes with the same `xoffset`)
and the same `stksize`. -/
theorem allocauto_idempotent (E : AutoEnv) (st st1 : Frame)
    (hrun : allocauto E st = .ok st1)
    (hsub : ∀ m ∈ sorted E st.dcl, m ∈ marked E st.dcl)
    (hfix : E.listsort cmpstackvar st1.dcl = st1.dcl) :
    ∃ st2, allocauto E st1 = .ok st2 ∧ st2.dcl = st1.dcl ∧ st2.stksize = st1.stksize := by
  by_cases hempty : st1.dcl = []
  · exact ⟨st1, by simp [allocauto, hempty], rfl, rfl⟩
  · have hne : st.dcl ≠ [] := by
      intro h
      have : allocauto E st = .ok st := by simp [allocauto, h]
      rw [this] at hrun
      cases hrun
      exact hempty h
    rcases allocauto_cases E st st1 hne hrun with
      ⟨u, rest, _, _, hd, _⟩ | ⟨n, rest, hs, hu, hd, hsz, hw⟩
    · exact absurd hd hempty
    · -- the nodes left by the first run
      have hback : ∀ m ∈ st1.dcl, ∃ k ∈ chop (n :: rest), m.id = k.id ∧
          m.class_ = k.class_ ∧ m.op = k.op ∧ m.used = k.used ∧ m.width = k.width ∧
          m.align = k.align := by
        intro m hm
        rw [hd] at hm
        exact place_mem_rev E _ _ m hm
      have hQ : ∀ m ∈ st1.dcl, (E.markautoused m.id = true → m.used = 1) ∧
          (E.markautoused m.id = false → m.class_ = .PAUTO → m.used = 0) := by
        intro m hm
        obtain ⟨k, hk, hid, hc, _, hus, _, _⟩ := hback m hm
        have hk2 : k ∈ marked E st.dcl := hsub k (by rw [hs]; exact chop_subset _ k hk)
        have := marked_is_marked E st.dcl k hk2
        rw [hid, hc, hus]
        exact this
      have hnou : ∀ m ∈ st1.dcl, unusedauto m = false := by
        intro m hm
        obtain ⟨k, hk, _, hc, ho, hus, _, _⟩ := hback m hm
        have := chop_keeps_no_unused rest n hu k hk
        simpa [unusedauto, hc, ho, hus] using this
      have hwid : ∀ m ∈ st1.dcl, isauto m = true → 0 ≤ m.width ∧ m.width < E.MAXWIDTH := by
        intro m hm hma
        obtain ⟨k, hk, _, hc, ho, _, hwd, _⟩ := hback m hm
        have hka : isauto k = true := by
          simp only [isauto, ← hc, ← ho]
          simpa [isauto] using hma
        rw [hwd]
        exact hw k hk hka
      have hsorted : sorted E st1.dcl = st1.dcl := by
        unfold sorted
        rw [marked_fixed E st1.dcl hQ, hfix]
      obtain ⟨p0, ps, hp⟩ : ∃ p0 ps, st1.dcl = p0 :: ps := by
        cases h : st1.dcl with
        | nil => exact absurd h hempty
        | cons a t => exact ⟨a, t, rfl⟩
      have hu0 : unusedauto p0 = false := hnou p0 (by rw [hp]; exact List.mem_cons_self _ _)
      have hchop : chop (p0 :: ps) = st1.dcl := by
        rw [← hp]
        exact chop_id _ hnou
      obtain ⟨ns, es1, hassign⟩ := assign_total E st1.dcl 0 st1.errors hwid
      obtain ⟨hpl, _, _⟩ := assign_place E _ _ _ _ _ _ hassign
      refine ⟨{ dcl := applydeltas ns, stksize := endsize E st1.dcl 0, errors := es1 },
        ?_, ?_, ?_⟩
      · rw [allocauto_unfold E st1 hempty, hsorted, hp]
        simp only [hu0, Bool.false_eq_true, if_false, hchop, hassign]
        rw [← hp]
      · show applydeltas ns = st1.dcl
        rw [hpl, hd, (place_idem E _ 0).1]
      · show endsize E st1.dcl 0 = st1.stksize
        rw [hd, (place_idem E _ 0).2, hsz]

/-- Under a sort that keeps the order of ties, the run on `tiedFrame` ends
with `autoC` at `-8` and `autoE` at `-24`, and a second run ends with the
same list and the same frame size. -/
theorem allocauto_idempotent_witness :
    allocauto stableEnv tiedFrame = .ok tiedStable ∧
    ∃ st2, allocauto stableEnv tiedStable = .ok st2 ∧ st2.dcl = tiedStable.dcl ∧
      st2.stksize = tiedStable.stksize :=
  ⟨rfl, allocauto_idempotent stableEnv tiedFrame tiedStable rfl
    (fun _ hm => (List.perm_insertionSort (fun a b => cmpstackvar a b ≤ 0)
      (marked stableEnv tiedFrame.dcl)).subset hm) (by decide)⟩

end Gc

namespace Cc

/-! ## Arrays inside structs -/

/-- C3 (the code marks a word that holds no pointer): for `struct { char buf[8]; }` at
offset 0 and base index 0, `pointermap_type` answers the map `1`, marking the
first word of the character array as a pointer, where a type without
pointers asks for `0`. -/
theorem pointermap_type_array_member :
    pointermap_type amd64 bufstruct 0 0 = some (1, []) := by
  decide

mutual
/-- Aggregates of non-pointer scalars without array members do get the map
`0`, without a diagnostic, at every offset and base index. -/
theorem pointermap_type_scalars (M : Mach) (offset baseidx : Int) :
    ∀ t : Typ, scalarsOnly t = true → pointermap_type M t offset baseidx = some (0, [])
  | .mk e o w link, h => by
    simp only [scalarsOnly, Bool.or_eq_true, Bool.and_eq_true, decide_eq_true_eq,
      Bool.not_eq_true'] at h
    rcases h with (h | ⟨he, hl⟩) | ⟨⟨he, hne⟩, hl⟩
    · cases e <;> simp [EType.isScalar] at h <;> simp [pointermap_type]
    · subst he
      have := (pointermap_chain_scalars M offset baseidx link hl).1
      simpa [pointermap_type] using this
    · subst he
      cases link with
      | nil => simp at hne
      | cons t0 rest =>
        simp only [allScalarsOnly, Bool.and_eq_true] at hl
        have h0 := pointermap_type_scalars M offset baseidx t0 hl.1
        have h1 := (pointermap_chain_scalars M offset baseidx rest hl.2).2
        simp [pointermap_type, h0, h1]
/-- The member loops on a chain of such types leave the map `0` and add no
diagnostic. -/
theorem pointermap_chain_scalars (M : Mach) (offset baseidx : Int) :
    ∀ l : List Typ, allScalarsOnly l = true →
      structmembers M l offset baseidx 0 [] = some (0, []) ∧
      unionmembers M l offset baseidx 0 [] = some (0, [])
  | [], _ => by simp [structmembers, unionmembers]
  | t :: rest, h => by
    simp only [allScalarsOnly, Bool.and_eq_true] at h
    have h0 := pointermap_type_scalars M offset baseidx t h.1
    have h1 := pointermap_chain_scalars M offset baseidx rest h.2
    simp [structmembers, unionmembers, h0, h1]
end

/-! ## Unions whose maps differ -/

/-- C4 (as stated, refuted): for `union { char *p; long n; }` at offset 0 and
base index 0, `pointermap_type` records the diagnostic and returns a map all
the same, the map `1` of the first member. -/
theorem pointermap_type_union_counterexample :
    pointermap_type amd64 ptrlong 0 0 = some (1, [Diag.unionMapsDiffer]) := by
  decide

/-- C4 (amended): for a union of two members whose maps for the chunk differ,
`pointermap_type` records the diagnostic "pointer maps differ" after the
diagnostics of the two members and returns the map of the first member. -/
theorem pointermap_type_union_differ (M : Mach) (toffset width : Int) (v1 v2 : Typ)
    (offset baseidx : Int) (m1 m2 : Nat) (e1 e2 : List Diag)
    (h1 : pointermap_type M v1 offset baseidx = some (m1, e1))
    (h2 : pointermap_type M v2 offset baseidx = some (m2, e2))
    (hne : m1 ≠ m2) :
    pointermap_type M (.mk .TUNION toffset width [v1, v2]) offset baseidx =
      some (m1, e1 ++ e2 ++ [Diag.unionMapsDiffer]) := by
  simp [pointermap_type, unionmembers, h1, h2, hne.symm]

/-- The union `{ char *p; long n; }`: the maps `1` and `0` of its members
differ, the diagnostic is recorded and the map `1` is returned. -/
theorem pointermap_type_union_differ_witness :
    pointermap_type amd64 (.mk .TUNION 0 8 [charptr, longmember]) 0 0 =
      some (1, [] ++ [] ++ [Diag.unionMapsDiffer]) :=
  pointermap_type_union_differ amd64 0 8 charptr longmember 0 0 1 0 [] []
    (by decide) (by decide) (by decide)

/-! ## Variadic functions -/

theorem int32_lt (x : Int) : int32 x < 2147483648 := by
  unfold int32
  omega

theorem int32_ge (x : Int) : -2147483648 ≤ int32 x := by
  unfold int32
  omega

theorem hasdotdotdot_iff (l : List Typ) :
    hasdotdotdot l = true ↔ ∃ t ∈ l, t.etype = .TDOT := by
  induction l with
  | nil => simp [hasdotdotdot]
  | cons t rest ih =>
    by_cases h : t.etype = .TDOT
    · simp [hasdotdotdot, h]
    · simp [hasdotdotdot, h, ih]

theorem argsizeloop_dots (M : Mach) (nosplit : Bool) :
    ∀ (l : List Typ) (s : Int), (∃ t ∈ l, t.etype = .TDOT) →
      (argsizeloop M nosplit l s).1 = ArgsSizeUnknown := by
  intro l
  induction l with
  | nil => intro s h; simp at h
  | cons t rest ih =>
    intro s h
    by_cases ht : t.etype = .TDOT
    · simp [argsizeloop, ht]
    · have hrest : ∃ u ∈ rest, u.etype = .TDOT := by
        obtain ⟨u, hu, hd⟩ := h
        rcases List.mem_cons.1 hu with rfl | hu
        · exact absurd hd ht
        · exact ⟨u, hu, hd⟩
      cases he : t.etype <;> simp_all [argsizeloop]

theorem argsizeloop_fixed (M : Mach) (nosplit : Bool) :
    ∀ (l : List Typ) (s : Int), (¬ ∃ t ∈ l, t.etype = .TDOT) →
      (argsizeloop M nosplit l s).1 < 2147483648 := by
  intro l
  induction l with
  | nil =>
    intro s _
    simp only [argsizeloop, andnot]
    split <;> exact int32_lt _
  | cons t rest ih =>
    intro s h
    have ht : ¬ t.etype = .TDOT := fun hd => h ⟨t, List.mem_cons_self _ _, hd⟩
    have hrest : ¬ ∃ u ∈ rest, u.etype = .TDOT := by
      rintro ⟨u, hu, hd⟩
      exact h ⟨u, List.mem_cons_of_mem _ hu, hd⟩
    cases he : t.etype <;> simp_all [argsizeloop]

/-- C5: when the parameter list holds a `TDOT` entry at any position,
`pointermap` lays down one 4-byte word of value 0 (no chunk follows) and
returns `off + 4`, and `argsize` returns `ArgsSizeUnknown`, which is
`0x80000000`; without such an entry `argsize` returns another value. -/
theorem variadic_unknown_size (M : Mach) (nosplit : Bool) (thisfn : Func) (gcsym : Sym)
    (off : Int) :
    ((∃ t ∈ thisfn.down, t.etype = .TDOT) →
      pointermap M nosplit thisfn gcsym off =
          some (gcsym ++ [{ off := off, width := 4, val := 0 }], off + 4, []) ∧
        (argsize M nosplit thisfn).1 = ArgsSizeUnknown ∧
        ArgsSizeUnknown = 2147483648) ∧
    ((¬ ∃ t ∈ thisfn.down, t.etype = .TDOT) →
      (argsize M nosplit thisfn).1 ≠ ArgsSizeUnknown) := by
  constructor
  · intro h
    refine ⟨?_, argsizeloop_dots M nosplit _ _ h, rfl⟩
    simp [pointermap, (hasdotdotdot_iff thisfn.down).2 h, gextern]
  · intro h
    have := argsizeloop_fixed M nosplit thisfn.down
      (int32 (M.align 0 thisfn.link .Aarg0)) h
    unfold argsize ArgsSizeUnknown
    omega

/-- The function `void f(char *p, ...)` gets the single zero word and the
marker; the function `void g(char *p, long n)` gets an argument size other
than the marker. -/
theorem variadic_unknown_size_witness :
    (pointermap amd64 true variadicFn [] 4 =
        some ([] ++ [{ off := 4, width := 4, val := 0 }], 4 + 4, []) ∧
      (argsize amd64 true variadicFn).1 = ArgsSizeUnknown ∧
      ArgsSizeUnknown = 2147483648) ∧
    (argsize amd64 true fixedFn).1 ≠ ArgsSizeUnknown :=
  ⟨(variadic_unknown_size amd64 true variadicFn [] 4).1 (by decide),
   (variadic_unknown_size amd64 true fixedFn [] 4).2 (by decide)⟩

/-! ## The layout of the emitted blob -/

theorem emitchunks_from (M : Mach) (thisfn : Func) (nptrs : Int)
    (hok : ∀ j : Nat, j < nchunks nptrs → (chunkmask M thisfn (32 * (j : Int))).isSome) :
    ∀ (m fuel k : Nat) (gcsym : Sym) (off : Int) (errs : List Diag),
      m = nchunks nptrs - k → m ≤ fuel →
      ∃ errs1, emitchunks M thisfn nptrs fuel (32 * (k : Int)) gcsym off errs =
        some (gcsym ++ (List.range m).map (fun (j : Nat) =>
            ({ off := off + 4 * (j : Int), width := 4,
               val := (maskof M thisfn (k + j) : Int) % 4294967296 } : Datum)),
          off + 4 * m, errs1) := by
  intro m
  induction m with
  | zero =>
    intro fuel k gcsym off errs hm _
    have hn : ¬ (32 * (k : Int) < nptrs) := by
      unfold nchunks at hm
      omega
    refine ⟨errs, ?_⟩
    cases fuel <;> simp [emitchunks, hn]
  | succ m ih =>
    intro fuel k gcsym off errs hm hfuel
    have hn : 32 * (k : Int) < nptrs := by
      unfold nchunks at hm
      omega
    obtain ⟨fuel1, rfl⟩ : ∃ f, fuel = f + 1 := ⟨fuel - 1, by omega⟩
    have hsome := hok k (by omega)
    obtain ⟨⟨mk, e1⟩, hmk⟩ := Option.isSome_iff_exists.1 hsome
    have hmask : maskof M thisfn k = mk := by simp [maskof, hmk]
    have hnext : 32 * (k : Int) + 32 = 32 * ((k + 1 : Nat) : Int) := by
      push_cast; ring
    obtain ⟨errs1, hrec⟩ := ih fuel1 (k + 1) ( gextern gcsym mk off 4) (off + 4) (errs ++ e1)
      (by omega) (by omega)
    refine ⟨errs1, ?_⟩
    simp only [ gextern] at hrec
    simp only [emitchunks, hn, if_true, hmk, hnext, gextern]
    rw [hrec, List.range_succ_eq_map, List.map_cons, List.map_map]
    simp only [List.append_assoc, List.singleton_append, Nat.cast_zero, mul_zero, add_zero,
      Nat.cast_add, Nat.cast_one, hmask]
    refine congrArg some (Prod.ext ?_ (Prod.ext ?_ rfl))
    · simp only
      congr 2
      apply List.map_congr_left
      intro j _
      simp only [Function.comp, Nat.succ_eq_add_one, Nat.cast_add, Nat.cast_one]
      congr 1
      · ring
      · congr 3
        omega
    · simp only
      ring

theorem pointer_leaf_bit (M : Mach) (toffset w : Int) (link : List Typ) (s : Int)
    (k j : Nat) (hj : j < 32) :
    ∃ m errs, pointermap_type M (.mk .TIND toffset w link) s (32 * (k : Int)) = some (m, errs) ∧
      (m.testBit j = true ↔ Int.tdiv (s + toffset) M.ewidthTIND = 32 * (k : Int) + j) := by
  by_cases hwin : Int.tdiv (s + toffset) M.ewidthTIND ≥ 32 * (k : Int) ∧
      Int.tdiv (s + toffset) M.ewidthTIND < 32 * (k : Int) + 32
  · refine ⟨1 <<< (Int.tdiv (s + toffset) M.ewidthTIND - 32 * (k : Int)).toNat,
      if Int.tmod (s + toffset) M.ewidthTIND ≠ 0 then [Diag.unalignedPointer] else [],
      by simp only [pointermap_type, hwin, and_self, if_true], ?_⟩
    rw [Nat.one_shiftLeft, Nat.testBit_two_pow]
    simp only [decide_eq_true_eq]
    omega
  · refine ⟨0, if Int.tmod (s + toffset) M.ewidthTIND ≠ 0 then [Diag.unalignedPointer] else [],
      by simp only [pointermap_type, hwin, if_false], ?_⟩
    simp only [Nat.zero_testBit, Bool.false_eq_true, false_iff]
    omega

end Cc

theorem mapwords_get (bv : Gc.Bvec) (off : Int) (k j : Nat) (hk : k < nchunks bv.n)
    (hj : j < 32) :
    ∃ d, (Gc.mapwords bv off)[k]? = some d ∧ d.off = off + 4 * (k : Int) ∧ d.width = 4 ∧
      (32 * (k : Int) + j < bv.n →
        d.val.toNat.testBit j = Gc.bvget bv (32 * (k : Int) + j)) := by
  refine ⟨{ off := off + 4 * (k : Int), width := 4,
            val := (bv.b.getD k 0 : Int) % 4294967296 },
    by simp [Gc.mapwords, List.getElem?_map, List.getElem?_range hk], rfl, rfl, ?_⟩
  intro hlt
  have h1 : ((bv.b.getD k 0 : Int) % 4294967296).toNat = bv.b.getD k 0 % 2 ^ 32 := by
    have : ((bv.b.getD k 0 : Int) % 4294967296) = ((bv.b.getD k 0 % 2 ^ 32 : Nat) : Int) := by
      norm_num
    rw [this, Int.toNat_ofNat]
  have h2 : (32 * (k : Int) + j).toNat = 32 * k + j := by omega
  have h3 : (32 * k + j) / 32 = k := by omega
  have h4 : (32 * k + j) % 32 = j := by omega
  have h5 : 0 ≤ 32 * (k : Int) + j := by omega
  simp only [h1, Nat.testBit_mod_two_pow, hj, decide_True, Bool.true_and, Gc.bvget, h2, h3, h4,
    h5, hlt, and_self]

theorem chunkwords_get (M : Cc.Mach) (thisfn : Cc.Func) (off n : Int) (k j : Nat)
    (hk : k < nchunks n) (hj : j < 32) (m : Nat) (e : List Cc.Diag)
    (hm : Cc.chunkmask M thisfn (32 * (k : Int)) = some (m, e)) :
    ∃ d, (Cc.chunkwords M thisfn off n)[k]? = some d ∧ d.off = off + 4 * (k : Int) ∧
      d.width = 4 ∧ d.val.toNat.testBit j = m.testBit j := by
  refine ⟨{ off := off + 4 * (k : Int), width := 4,
            val := (Cc.maskof M thisfn k : Int) % 4294967296 },
    by simp [Cc.chunkwords, List.getElem?_map, List.getElem?_range hk], rfl, rfl, ?_⟩
  have hmask : Cc.maskof M thisfn k = m := by simp [Cc.maskof, hm]
  have h1 : ((m : Int) % 4294967296).toNat = m % 2 ^ 32 := by
    have : ((m : Int) % 4294967296) = ((m % 2 ^ 32 : Nat) : Int) := by
      norm_num
    rw [this, Int.toNat_ofNat]
  simp only [hmask, h1, Nat.testBit_mod_two_pow, hj, decide_True, Bool.true_and]

namespace Cc

theorem codgen_gcsym_eq (M : Cc.Mach) (nosplit : Bool) (thisfn : Cc.Func) (stkoff : Int)
    (h0 : 0 ≤ stkoff) (h1 : stkoff < 4294967296) (hn : 0 ≤ Cc.nptrs M nosplit thisfn)
    (hok : ∀ k : Nat, k < nchunks (Cc.nptrs M nosplit thisfn) →
      (Cc.chunkmask M thisfn (32 * (k : Int))).isSome) :
    ∃ diags, Cc.codgen_gcsym M nosplit thisfn stkoff =
      some ({ off := 0, width := 4, val := stkoff }
            :: { off := 4, width := 4, val := Cc.nptrs M nosplit thisfn }
            :: Cc.chunkwords M thisfn 8 (Cc.nptrs M nosplit thisfn),
           4 + 4 + 4 * (nchunks (Cc.nptrs M nosplit thisfn) : Int), diags) := by
  by_cases hdots : Cc.hasdotdotdot thisfn.down = true
  · refine ⟨[], ?_⟩
    have hz : Cc.nptrs M nosplit thisfn = 0 := by simp [Cc.nptrs, hdots]
    simp [Cc.codgen_gcsym, Cc.pointermap, hdots, gextern, hz, Cc.chunkwords, nchunks,
      Int.emod_eq_of_lt h0 h1]
  · have hnp : Cc.nptrs M nosplit thisfn =
        Cc.int32 (Int.tdiv ((Cc.argsize M nosplit thisfn).1 + M.ewidthTIND - 1)
          M.ewidthTIND) := by
      simp [Cc.nptrs, hdots]
    obtain ⟨n, hndef⟩ : ∃ n, n = Cc.nptrs M nosplit thisfn := ⟨_, rfl⟩
    rw [← hndef] at hn hok ⊢
    have hlt : n < 2147483648 := by
      rw [hndef, hnp]
      exact Cc.int32_lt _
    obtain ⟨diags, hrun⟩ := Cc.emitchunks_from M thisfn n hok (nchunks n) n.toNat 0
      ( gextern ( gextern [] stkoff 0 4) n 4 4) (4 + 4) (Cc.argsize M nosplit thisfn).2
      (by simp) (by unfold nchunks; omega)
    refine ⟨diags, ?_⟩
    have hz : 32 * ((0 : Nat) : Int) = 0 := by simp
    rw [hz] at hrun
    simp only [Cc.codgen_gcsym, Cc.pointermap, hdots, Bool.false_eq_true, if_false, ← hnp,
      ← hndef, hrun]
    simp [ gextern, Cc.chunkwords, Int.emod_eq_of_lt h0 h1,
      Int.emod_eq_of_lt hn (by omega : n < 4294967296)]

end Cc

/-- Layout of the blob of both emitters: the frame size at byte offset 0,
the count `n` at byte offset 4 and, for each `k` below `n / 32` rounded up,
a 4-byte chunk at byte offset `8 + 4 * k`, so that the length is
`4 + 4 + 4 * ceil(n / 32)`.  For the Go compiler (`gcsymbol`) bit `j` of
chunk `k` is bit `32 * k + j` of the vector the walks filled.  For the C
compiler (the end of `codgen`) chunk `k` holds the mask that `chunkmask`
computes for base index `32 * k`; for a type that is a lone pointer
`pointermap_type` sets bit `j` exactly when the word index of the pointer is
`32 * k + j`. -/
theorem gc_blob_layout :
    (∀ (A : Gc.Arch) (stksize : Int) (fn : Gc.FuncType) (bv : Gc.Bvec),
      Gc.walkargs A fn (Gc.bvalloc (Int.tdiv fn.argwid A.widthptr)) = .ok bv →
      0 ≤ stksize → stksize < 4294967296 →
      0 ≤ Int.tdiv fn.argwid A.widthptr → Int.tdiv fn.argwid A.widthptr < 4294967296 →
      Gc.gcsymbol A stksize [] fn =
          .ok ({ off := 0, width := 4, val := stksize }
                :: { off := 4, width := 4, val := Int.tdiv fn.argwid A.widthptr }
                :: Gc.mapwords bv 8,
               4 + 4 + 4 * (nchunks (Int.tdiv fn.argwid A.widthptr) : Int)) ∧
        (Gc.mapwords bv 8).length = nchunks (Int.tdiv fn.argwid A.widthptr) ∧
        ∀ k j : Nat, k < nchunks (Int.tdiv fn.argwid A.widthptr) → j < 32 →
          ∃ d, (Gc.mapwords bv 8)[k]? = some d ∧ d.off = 8 + 4 * (k : Int) ∧ d.width = 4 ∧
            (32 * (k : Int) + j < Int.tdiv fn.argwid A.widthptr →
              d.val.toNat.testBit j = Gc.bvget bv (32 * (k : Int) + j))) ∧
    (∀ (M : Cc.Mach) (nosplit : Bool) (thisfn : Cc.Func) (stkoff : Int),
      0 ≤ stkoff → stkoff < 4294967296 → 0 ≤ Cc.nptrs M nosplit thisfn →
      (∀ k : Nat, k < nchunks (Cc.nptrs M nosplit thisfn) →
        (Cc.chunkmask M thisfn (32 * (k : Int))).isSome) →
      (∃ diags, Cc.codgen_gcsym M nosplit thisfn stkoff =
          some ({ off := 0, width := 4, val := stkoff }
                :: { off := 4, width := 4, val := Cc.nptrs M nosplit thisfn }
                :: Cc.chunkwords M thisfn 8 (Cc.nptrs M nosplit thisfn),
               4 + 4 + 4 * (nchunks (Cc.nptrs M nosplit thisfn) : Int), diags)) ∧
        (Cc.chunkwords M thisfn 8 (Cc.nptrs M nosplit thisfn)).length =
          nchunks (Cc.nptrs M nosplit thisfn) ∧
        ∀ k j : Nat, k < nchunks (Cc.nptrs M nosplit thisfn) → j < 32 →
          ∃ d m e, (Cc.chunkwords M thisfn 8 (Cc.nptrs M nosplit thisfn))[k]? = some d ∧
            d.off = 8 + 4 * (k : Int) ∧ d.width = 4 ∧
            Cc.chunkmask M thisfn (32 * (k : Int)) = some (m, e) ∧
            d.val.toNat.testBit j = m.testBit j) ∧
    (∀ (M : Cc.Mach) (toffset w : Int) (link : List Cc.Typ) (s : Int) (k j : Nat), j < 32 →
      ∃ m errs,
        Cc.pointermap_type M (.mk .TIND toffset w link) s (32 * (k : Int)) = some (m, errs) ∧
        (m.testBit j = true ↔
          Int.tdiv (s + toffset) M.ewidthTIND = 32 * (k : Int) + j)) := by
  refine ⟨?_, ?_, ?_⟩
  · intro A stksize fn bv hwalk h0 h1 hn0 hn1
    have hn : bv.n = Int.tdiv fn.argwid A.widthptr := Gc.walkargs_n A fn _ bv hwalk
    refine ⟨?_, by simp [Gc.mapwords, hn], ?_⟩
    · simp only [Gc.gcsymbol, Gc.pointermap, Gc.duint32, hwalk, Gc.emitwords_all]
      simp only [hn, Int.emod_eq_of_lt h0 h1, Int.emod_eq_of_lt hn0 hn1]
      simp
    · intro k j hk hj
      have := mapwords_get bv 8 k j (by rw [hn]; exact hk) hj
      rw [hn] at this
      exact this
  · intro M nosplit thisfn stkoff h0 h1 hn hok
    refine ⟨Cc.codgen_gcsym_eq M nosplit thisfn stkoff h0 h1 hn hok,
      by simp [Cc.chunkwords], ?_⟩
    intro k j hk hj
    obtain ⟨⟨m, e⟩, hm⟩ := Option.isSome_iff_exists.1 (hok k hk)
    obtain ⟨d, hd1, hd2, hd3, hd4⟩ :=
      chunkwords_get M thisfn 8 (Cc.nptrs M nosplit thisfn) k j hk hj m e hm
    exact ⟨d, m, e, hd1, hd2, hd3, hm, hd4⟩
  · intro M toffset w link s k j hj
    exact Cc.pointer_leaf_bit M toffset w link s k j hj

/-- The sample functions: the Go function with arguments `{ptr; int32; ptr}`
and frame size 24 gets the data 24, 3 and one chunk of value 5 (bits 0 and
2), 12 bytes in all; the C function `void g(char *p, long n)` with frame size
24 gets the data 24, 2 and one chunk of value 1, 12 bytes in all; a pointer
at byte 16 sets bit 2 of chunk 0. -/
theorem gc_blob_layout_witness :
    (Gc.gcsymbol Gc.amd64 24 [] Gc.sampleFn =
        .ok ([{ off := 0, width := 4, val := 24 }, { off := 4, width := 4, val := 3 },
              { off := 8, width := 4, val := 5 }], 12)) ∧
    (∃ diags, Cc.codgen_gcsym Cc.amd64 true Cc.fixedFn 24 =
        some ([{ off := 0, width := 4, val := 24 }, { off := 4, width := 4, val := 2 },
               { off := 8, width := 4, val := 1 }], 12, diags)) ∧
    (∃ m errs, Cc.pointermap_type Cc.amd64 (.mk .TIND 0 8 []) 16 (32 * ((0 : Nat) : Int)) =
        some (m, errs) ∧ m.testBit 2 = true) := by
  have hgc := (gc_blob_layout.1 Gc.amd64 24 Gc.sampleFn { n := 3, b := [5] } (by rfl)
    (by decide) (by decide) (by decide) (by decide)).1
  have hcc := (gc_blob_layout.2.1 Cc.amd64 true Cc.fixedFn 24 (by decide) (by decide)
    (by decide) (by decide)).1
  obtain ⟨m, errs, hm, hbit⟩ := gc_blob_layout.2.2 Cc.amd64 0 8 [] 16 0 2 (by decide)
  refine ⟨?_, ?_, m, errs, hm, hbit.2 (by decide)⟩
  · rw [hgc]; rfl
  · obtain ⟨diags, h⟩ := hcc
    exact ⟨diags, by rw [h]; rfl⟩

namespace Cc

/-! ## The steps of `gen` field by field -/

@[simp] theorem emit_canreach (k : Nat) (s : GenState) :
    (emit k s).canreach = s.canreach := by
  induction k generalizing s with
  | zero => rfl
  | succ k ih => rw [emit, ih]; rfl

@[simp] theorem emit_warnreach (k : Nat) (s : GenState) :
    (emit k s).warnreach = s.warnreach := by
  induction k generalizing s with
  | zero => rfl
  | succ k ih => rw [emit, ih]; rfl

@[simp] theorem emit_suppress (k : Nat) (s : GenState) :
    (emit k s).suppress = s.suppress := by
  induction k generalizing s with
  | zero => rfl
  | succ k ih => rw [emit, ih]; rfl

@[simp] theorem emit_breakpc (k : Nat) (s : GenState) :
    (emit k s).breakpc = s.breakpc := by
  induction k generalizing s with
  | zero => rfl
  | succ k ih => rw [emit, ih]; rfl

@[simp] theorem emit_continpc (k : Nat) (s : GenState) :
    (emit k s).continpc = s.continpc := by
  induction k generalizing s with
  | zero => rfl
  | succ k ih => rw [emit, ih]; rfl

@[simp] theorem emit_nbreak (k : Nat) (s : GenState) :
    (emit k s).nbreak = s.nbreak := by
  induction k generalizing s with
  | zero => rfl
  | succ k ih => rw [emit, ih]; rfl

@[simp] theorem emit_ncontin (k : Nat) (s : GenState) :
    (emit k s).ncontin = s.ncontin := by
  induction k generalizing s with
  | zero => rfl
  | succ k ih => rw [emit, ih]; rfl

@[simp] theorem emit_cases (k : Nat) (s : GenState) :
    (emit k s).cases = s.cases := by
  induction k generalizing s with
  | zero => rfl
  | succ k ih => rw [emit, ih]; rfl

@[simp] theorem emit_labels (k : Nat) (s : GenState) :
    (emit k s).labels = s.labels := by
  induction k generalizing s with
  | zero => rfl
  | succ k ih => rw [emit, ih]; rfl

@[simp] theorem emit_msgs (k : Nat) (s : GenState) :
    (emit k s).msgs = s.msgs := by
  induction k generalizing s with
  | zero => rfl
  | succ k ih => rw [emit, ih]; rfl

@[simp] theorem reachcheck_pc (b : Bool) (s : GenState) :
    (reachcheck b s).pc = s.pc := by
  unfold reachcheck; split <;> rfl

@[simp] theorem reachcheck_p (b : Bool) (s : GenState) :
    (reachcheck b s).p = s.p := by
  unfold reachcheck; split <;> rfl

@[simp] theorem reachcheck_nprog (b : Bool) (s : GenState) :
    (reachcheck b s).nprog = s.nprog := by
  unfold reachcheck; split <;> rfl

@[simp] theorem reachcheck_prog (b : Bool) (s : GenState) :
    (reachcheck b s).prog = s.prog := by
  unfold reachcheck; split <;> rfl

@[simp] theorem reachcheck_canreach (b : Bool) (s : GenState) :
    (reachcheck b s).canreach = s.canreach := by
  unfold reachcheck; split <;> rfl

@[simp] theorem reachcheck_suppress (b : Bool) (s : GenState) :
    (reachcheck b s).suppress = s.suppress := by
  unfold reachcheck; split <;> rfl

@[simp] theorem reachcheck_breakpc (b : Bool) (s : GenState) :
    (reachcheck b s).breakpc = s.breakpc := by
  unfold reachcheck; split <;> rfl

@[simp] theorem reachcheck_continpc (b : Bool) (s : GenState) :
    (reachcheck b s).continpc = s.continpc := by
  unfold reachcheck; split <;> rfl

@[simp] theorem reachcheck_nbreak (b : Bool) (s : GenState) :
    (reachcheck b s).nbreak = s.nbreak := by
  unfold reachcheck; split <;> rfl

@[simp] theorem reachcheck_ncontin (b : Bool) (s : GenState) :
    (reachcheck b s).ncontin = s.ncontin := by
  unfold reachcheck; split <;> rfl

@[simp] theorem reachcheck_cases (b : Bool) (s : GenState) :
    (reachcheck b s).cases = s.cases := by
  unfold reachcheck; split <;> rfl

@[simp] theorem reachcheck_labels (b : Bool) (s : GenState) :
    (reachcheck b s).labels = s.labels := by
  unfold reachcheck; split <;> rfl

@[simp] theorem forwarn_pc (b : Bool) (s : GenState) :
    (forwarn b s).pc = s.pc := by
  unfold forwarn; split <;> rfl

@[simp] theorem forwarn_p (b : Bool) (s : GenState) :
    (forwarn b s).p = s.p := by
  unfold forwarn; split <;> rfl

@[simp] theorem forwarn_nprog (b : Bool) (s : GenState) :
    (forwarn b s).nprog = s.nprog := by
  unfold forwarn; split <;> rfl

@[simp] theorem forwarn_prog (b : Bool) (s : GenState) :
    (forwarn b s).prog = s.prog := by
  unfold forwarn; split <;> rfl

@[simp] theorem forwarn_canreach (b : Bool) (s : GenState) :
    (forwarn b s).canreach = s.canreach := by
  unfold forwarn; split <;> rfl

@[simp] theorem forwarn_suppress (b : Bool) (s : GenState) :
    (forwarn b s).suppress = s.suppress := by
  unfold forwarn; split <;> rfl

@[simp] theorem forwarn_breakpc (b : Bool) (s : GenState) :
    (forwarn b s).breakpc = s.breakpc := by
  unfold forwarn; split <;> rfl

@[simp] theorem forwarn_continpc (b : Bool) (s : GenState) :
    (forwarn b s).continpc = s.continpc := by
  unfold forwarn; split <;> rfl

@[simp] theorem forwarn_nbreak (b : Bool) (s : GenState) :
    (forwarn b s).nbreak = s.nbreak := by
  unfold forwarn; split <;> rfl

@[simp] theorem forwarn_ncontin (b : Bool) (s : GenState) :
    (forwarn b s).ncontin = s.ncontin := by
  unfold forwarn; split <;> rfl

@[simp] theorem forwarn_cases (b : Bool) (s : GenState) :
    (forwarn b s).cases = s.cases := by
  unfold forwarn; split <;> rfl

@[simp] theorem forwarn_labels (b : Bool) (s : GenState) :
    (forwarn b s).labels = s.labels := by
  unfold forwarn; split <;> rfl

@[simp] theorem gbranch_canreach (o : BranchOp) (s : GenState) :
    (gbranch o s).canreach = s.canreach := by
  cases o <;> rfl

@[simp] theorem gbranch_warnreach (o : BranchOp) (s : GenState) :
    (gbranch o s).warnreach = s.warnreach := by
  cases o <;> rfl

@[simp] theorem gbranch_suppress (o : BranchOp) (s : GenState) :
    (gbranch o s).suppress = s.suppress := by
  cases o <;> rfl

@[simp] theorem gbranch_breakpc (o : BranchOp) (s : GenState) :
    (gbranch o s).breakpc = s.breakpc := by
  cases o <;> rfl

@[simp] theorem gbranch_continpc (o : BranchOp) (s : GenState) :
    (gbranch o s).continpc = s.continpc := by
  cases o <;> rfl

@[simp] theorem gbranch_nbreak (o : BranchOp) (s : GenState) :
    (gbranch o s).nbreak = s.nbreak := by
  cases o <;> rfl

@[simp] theorem gbranch_ncontin (o : BranchOp) (s : GenState) :
    (gbranch o s).ncontin = s.ncontin := by
  cases o <;> rfl

@[simp] theorem gbranch_cases (o : BranchOp) (s : GenState) :
    (gbranch o s).cases = s.cases := by
  cases o <;> rfl

@[simp] theorem gbranch_labels (o : BranchOp) (s : GenState) :
    (gbranch o s).labels = s.labels := by
  cases o <;> rfl

@[simp] theorem gbranch_msgs (o : BranchOp) (s : GenState) :
    (gbranch o s).msgs = s.msgs := by
  cases o <;> rfl

@[simp] theorem gbranch_pc (o : BranchOp) (s : GenState) : (gbranch o s).pc = s.pc + 1 := by
  cases o <;> rfl

@[simp] theorem gbranch_p (o : BranchOp) (s : GenState) : (gbranch o s).p = s.nprog := by
  cases o <;> rfl

@[simp] theorem gbranch_nprog (o : BranchOp) (s : GenState) :
    (gbranch o s).nprog = s.nprog + 1 := by
  cases o <;> rfl

@[simp] theorem emit_pc (k : Nat) (s : GenState) : (emit k s).pc = s.pc + k := by
  induction k generalizing s with
  | zero => simp [emit]
  | succ k ih => rw [emit, ih]; simp [nextpc]; omega

@[simp] theorem emit_nprog (k : Nat) (s : GenState) : (emit k s).nprog = s.nprog + k := by
  induction k generalizing s with
  | zero => simp [emit]
  | succ k ih => rw [emit, ih]; simp [nextpc]; omega

@[simp] theorem reach_pc (s : GenState) : (reach s).pc = s.pc := rfl

@[simp] theorem reach_p (s : GenState) : (reach s).p = s.p := rfl

@[simp] theorem reach_nprog (s : GenState) : (reach s).nprog = s.nprog := rfl

@[simp] theorem reach_prog (s : GenState) : (reach s).prog = s.prog := rfl

@[simp] theorem reach_warnreach (s : GenState) : (reach s).warnreach = s.warnreach := rfl

@[simp] theorem reach_suppress (s : GenState) : (reach s).suppress = s.suppress := rfl

@[simp] theorem reach_breakpc (s : GenState) : (reach s).breakpc = s.breakpc := rfl

@[simp] theorem reach_continpc (s : GenState) : (reach s).continpc = s.continpc := rfl

@[simp] theorem reach_nbreak (s : GenState) : (reach s).nbreak = s.nbreak := rfl

@[simp] theorem reach_ncontin (s : GenState) : (reach s).ncontin = s.ncontin := rfl

@[simp] theorem reach_cases (s : GenState) : (reach s).cases = s.cases := rfl

@[simp] theorem reach_labels (s : GenState) : (reach s).labels = s.labels := rfl

@[simp] theorem reach_msgs (s : GenState) : (reach s).msgs = s.msgs := rfl

@[simp] theorem reach_canreach (s : GenState) : (reach s).canreach = true := rfl

@[simp] theorem patch_pc (op : Nat) (t : Int) (s : GenState) :
    (patch op t s).pc = s.pc := rfl

@[simp] theorem patch_p (op : Nat) (t : Int) (s : GenState) :
    (patch op t s).p = s.p := rfl

@[simp] theorem patch_nprog (op : Nat) (t : Int) (s : GenState) :
    (patch op t s).nprog = s.nprog := rfl

@[simp] theorem patch_canreach (op : Nat) (t : Int) (s : GenState) :
    (patch op t s).canreach = s.canreach := rfl

@[simp] theorem patch_warnreach (op : Nat) (t : Int) (s : GenState) :
    (patch op t s).warnreach = s.warnreach := rfl

@[simp] theorem patch_suppress (op : Nat) (t : Int) (s : GenState) :
    (patch op t s).suppress = s.suppress := rfl

@[simp] theorem patch_breakpc (op : Nat) (t : Int) (s : GenState) :
    (patch op t s).breakpc = s.breakpc := rfl

@[simp] theorem patch_continpc (op : Nat) (t : Int) (s : GenState) :
    (patch op t s).continpc = s.continpc := rfl

@[simp] theorem patch_nbreak (op : Nat) (t : Int) (s : GenState) :
    (patch op t s).nbreak = s.nbreak := rfl

@[simp] theorem patch_ncontin (op : Nat) (t : Int) (s : GenState) :
    (patch op t s).ncontin = s.ncontin := rfl

@[simp] theorem patch_cases (op : Nat) (t : Int) (s : GenState) :
    (patch op t s).cases = s.cases := rfl

@[simp] theorem patch_labels (op : Nat) (t : Int) (s : GenState) :
    (patch op t s).labels = s.labels := rfl

@[simp] theorem patch_msgs (op : Nat) (t : Int) (s : GenState) :
    (patch op t s).msgs = s.msgs := rfl

@[simp] theorem report_pc (m : Msg) (s : GenState) :
    (report m s).pc = s.pc := rfl

@[simp] theorem report_p (m : Msg) (s : GenState) :
    (report m s).p = s.p := rfl

@[simp] theorem report_nprog (m : Msg) (s : GenState) :
    (report m s).nprog = s.nprog := rfl

@[simp] theorem report_prog (m : Msg) (s : GenState) :
    (report m s).prog = s.prog := rfl

@[simp] theorem report_canreach (m : Msg) (s : GenState) :
    (report m s).canreach = s.canreach := rfl

@[simp] theorem report_warnreach (m : Msg) (s : GenState) :
    (report m s).warnreach = s.warnreach := rfl

@[simp] theorem report_suppress (m : Msg) (s : GenState) :
    (report m s).suppress = s.suppress := rfl

@[simp] theorem report_breakpc (m : Msg) (s : GenState) :
    (report m s).breakpc = s.breakpc := rfl

@[simp] theorem report_continpc (m : Msg) (s : GenState) :
    (report m s).continpc = s.continpc := rfl

@[simp] theorem report_nbreak (m : Msg) (s : GenState) :
    (report m s).nbreak = s.nbreak := rfl

@[simp] theorem report_ncontin (m : Msg) (s : GenState) :
    (report m s).ncontin = s.ncontin := rfl

@[simp] theorem report_cases (m : Msg) (s : GenState) :
    (report m s).cases = s.cases := rfl

@[simp] theorem report_labels (m : Msg) (s : GenState) :
    (report m s).labels = s.labels := rfl

@[simp] theorem rearm_pc (s : GenState) :
    (rearm s).pc = s.pc := rfl

@[simp] theorem rearm_p (s : GenState) :
    (rearm s).p = s.p := rfl

@[simp] theorem rearm_nprog (s : GenState) :
    (rearm s).nprog = s.nprog := rfl

@[simp] theorem rearm_prog (s : GenState) :
    (rearm s).prog = s.prog := rfl

@[simp] theorem rearm_canreach (s : GenState) :
    (rearm s).canreach = s.canreach := rfl

@[simp] theorem rearm_suppress (s : GenState) :
    (rearm s).suppress = s.suppress := rfl

@[simp] theorem rearm_breakpc (s : GenState) :
    (rearm s).breakpc = s.breakpc := rfl

@[simp] theorem rearm_continpc (s : GenState) :
    (rearm s).continpc = s.continpc := rfl

@[simp] theorem rearm_nbreak (s : GenState) :
    (rearm s).nbreak = s.nbreak := rfl

@[simp] theorem rearm_ncontin (s : GenState) :
    (rearm s).ncontin = s.ncontin := rfl

@[simp] theorem rearm_cases (s : GenState) :
    (rearm s).cases = s.cases := rfl

@[simp] theorem rearm_labels (s : GenState) :
    (rearm s).labels = s.labels := rfl

@[simp] theorem rearm_msgs (s : GenState) :
    (rearm s).msgs = s.msgs := rfl

@[simp] theorem nextpc_canreach (a : As) (s : GenState) :
    (nextpc a s).canreach = s.canreach := rfl

@[simp] theorem nextpc_warnreach (a : As) (s : GenState) :
    (nextpc a s).warnreach = s.warnreach := rfl

@[simp] theorem nextpc_suppress (a : As) (s : GenState) :
    (nextpc a s).suppress = s.suppress := rfl

@[simp] theorem nextpc_breakpc (a : As) (s : GenState) :
    (nextpc a s).breakpc = s.breakpc := rfl

@[simp] theorem nextpc_continpc (a : As) (s : GenState) :
    (nextpc a s).continpc = s.continpc := rfl

@[simp] theorem nextpc_nbreak (a : As) (s : GenState) :
    (nextpc a s).nbreak = s.nbreak := rfl

@[simp] theorem nextpc_ncontin (a : As) (s : GenState) :
    (nextpc a s).ncontin = s.ncontin := rfl

@[simp] theorem nextpc_cases (a : As) (s : GenState) :
    (nextpc a s).cases = s.cases := rfl

@[simp] theorem nextpc_labels (a : As) (s : GenState) :
    (nextpc a s).labels = s.labels := rfl

@[simp] theorem nextpc_msgs (a : As) (s : GenState) :
    (nextpc a s).msgs = s.msgs := rfl

@[simp] theorem nextpc_pc (a : As) (s : GenState) : (nextpc a s).pc = s.pc + 1 := rfl

@[simp] theorem nextpc_p (a : As) (s : GenState) : (nextpc a s).p = s.nprog := rfl

@[simp] theorem nextpc_nprog (a : As) (s : GenState) : (nextpc a s).nprog = s.nprog + 1 := rfl

@[simp] theorem rearm_warnreach (s : GenState) :
    (rearm s).warnreach = decide (s.suppress = 0) := rfl

@[simp] theorem report_msgs (m : Msg) (s : GenState) : (report m s).msgs = s.msgs ++ [m] := rfl

@[simp] theorem setlabelpc_pc (id : Nat) (x : Int) (s : GenState) :
    (setlabelpc id x s).pc = s.pc := rfl

@[simp] theorem setlabelpc_p (id : Nat) (x : Int) (s : GenState) :
    (setlabelpc id x s).p = s.p := rfl

@[simp] theorem setlabelpc_nprog (id : Nat) (x : Int) (s : GenState) :
    (setlabelpc id x s).nprog = s.nprog := rfl

@[simp] theorem setlabelpc_prog (id : Nat) (x : Int) (s : GenState) :
    (setlabelpc id x s).prog = s.prog := rfl

@[simp] theorem setlabelpc_canreach (id : Nat) (x : Int) (s : GenState) :
    (setlabelpc id x s).canreach = s.canreach := rfl

@[simp] theorem setlabelpc_warnreach (id : Nat) (x : Int) (s : GenState) :
    (setlabelpc id x s).warnreach = s.warnreach := rfl

@[simp] theorem setlabelpc_suppress (id : Nat) (x : Int) (s : GenState) :
    (setlabelpc id x s).suppress = s.suppress := rfl

@[simp] theorem setlabelpc_breakpc (id : Nat) (x : Int) (s : GenState) :
    (setlabelpc id x s).breakpc = s.breakpc := rfl

@[simp] theorem setlabelpc_continpc (id : Nat) (x : Int) (s : GenState) :
    (setlabelpc id x s).continpc = s.continpc := rfl

@[simp] theorem setlabelpc_nbreak (id : Nat) (x : Int) (s : GenState) :
    (setlabelpc id x s).nbreak = s.nbreak := rfl

@[simp] theorem setlabelpc_ncontin (id : Nat) (x : Int) (s : GenState) :
    (setlabelpc id x s).ncontin = s.ncontin := rfl

@[simp] theorem setlabelpc_cases (id : Nat) (x : Int) (s : GenState) :
    (setlabelpc id x s).cases = s.cases := rfl

@[simp] theorem setlabelpc_msgs (id : Nat) (x : Int) (s : GenState) :
    (setlabelpc id x s).msgs = s.msgs := rfl

@[simp] theorem setpending_pc (id h : Nat) (s : GenState) :
    (setpending id h s).pc = s.pc := rfl

@[simp] theorem setpending_p (id h : Nat) (s : GenState) :
    (setpending id h s).p = s.p := rfl

@[simp] theorem setpending_nprog (id h : Nat) (s : GenState) :
    (setpending id h s).nprog = s.nprog := rfl

@[simp] theorem setpending_prog (id h : Nat) (s : GenState) :
    (setpending id h s).prog = s.prog := rfl

@[simp] theorem setpending_canreach (id h : Nat) (s : GenState) :
    (setpending id h s).canreach = s.canreach := rfl

@[simp] theorem setpending_warnreach (id h : Nat) (s : GenState) :
    (setpending id h s).warnreach = s.warnreach := rfl

@[simp] theorem setpending_suppress (id h : Nat) (s : GenState) :
    (setpending id h s).suppress = s.suppress := rfl

@[simp] theorem setpending_breakpc (id h : Nat) (s : GenState) :
    (setpending id h s).breakpc = s.breakpc := rfl

@[simp] theorem setpending_continpc (id h : Nat) (s : GenState) :
    (setpending id h s).continpc = s.continpc := rfl

@[simp] theorem setpending_nbreak (id h : Nat) (s : GenState) :
    (setpending id h s).nbreak = s.nbreak := rfl

@[simp] theorem setpending_ncontin (id h : Nat) (s : GenState) :
    (setpending id h s).ncontin = s.ncontin := rfl

@[simp] theorem setpending_cases (id h : Nat) (s : GenState) :
    (setpending id h s).cases = s.cases := rfl

@[simp] theorem setpending_msgs (id h : Nat) (s : GenState) :
    (setpending id h s).msgs = s.msgs := rfl

@[simp] theorem patchpending_pc (id : Nat) (x : Int) (s : GenState) :
    (patchpending id x s).pc = s.pc := by
  unfold patchpending; split <;> rfl

@[simp] theorem patchpending_p (id : Nat) (x : Int) (s : GenState) :
    (patchpending id x s).p = s.p := by
  unfold patchpending; split <;> rfl

@[simp] theorem patchpending_nprog (id : Nat) (x : Int) (s : GenState) :
    (patchpending id x s).nprog = s.nprog := by
  unfold patchpending; split <;> rfl

@[simp] theorem patchpending_canreach (id : Nat) (x : Int) (s : GenState) :
    (patchpending id x s).canreach = s.canreach := by
  unfold patchpending; split <;> rfl

@[simp] theorem patchpending_warnreach (id : Nat) (x : Int) (s : GenState) :
    (patchpending id x s).warnreach = s.warnreach := by
  unfold patchpending; split <;> rfl

@[simp] theorem patchpending_suppress (id : Nat) (x : Int) (s : GenState) :
    (patchpending id x s).suppress = s.suppress := by
  unfold patchpending; split <;> rfl

@[simp] theorem patchpending_breakpc (id : Nat) (x : Int) (s : GenState) :
    (patchpending id x s).breakpc = s.breakpc := by
  unfold patchpending; split <;> rfl

@[simp] theorem patchpending_continpc (id : Nat) (x : Int) (s : GenState) :
    (patchpending id x s).continpc = s.continpc := by
  unfold patchpending; split <;> rfl

@[simp] theorem patchpending_nbreak (id : Nat) (x : Int) (s : GenState) :
    (patchpending id x s).nbreak = s.nbreak := by
  unfold patchpending; split <;> rfl

@[simp] theorem patchpending_ncontin (id : Nat) (x : Int) (s : GenState) :
    (patchpending id x s).ncontin = s.ncontin := by
  unfold patchpending; split <;> rfl

@[simp] theorem patchpending_cases (id : Nat) (x : Int) (s : GenState) :
    (patchpending id x s).cases = s.cases := by
  unfold patchpending; split <;> rfl

@[simp] theorem patchpending_labels (id : Nat) (x : Int) (s : GenState) :
    (patchpending id x s).labels = s.labels := by
  unfold patchpending; split <;> rfl

@[simp] theorem patchpending_msgs (id : Nat) (x : Int) (s : GenState) :
    (patchpending id x s).msgs = s.msgs := by
  unfold patchpending; split <;> rfl

/-! ## The break and continue positions are kept -/

theorem bcomplex_scope (E : GenEnv) (n : Expr) (c : Option Node) (s : GenState) :
    (bcomplex E n c s).2.breakpc = s.breakpc ∧ (bcomplex E n c s).2.continpc = s.continpc ∧
      (bcomplex E n c s).2.suppress = s.suppress := by
  unfold bcomplex
  split
  · simp
  · split
    · split <;> simp [nextpc]
    · simp [nextpc]

theorem labelstmt_scope (l : Option Label) (s : GenState) :
    (labelstmt l s).breakpc = s.breakpc ∧ (labelstmt l s).continpc = s.continpc ∧
      (labelstmt l s).suppress = s.suppress := by
  unfold labelstmt
  cases l <;> simp

theorem gotostmt_scope (n : Option Label) (s : GenState) :
    (gotostmt n s).breakpc = s.breakpc ∧ (gotostmt n s).continpc = s.continpc ∧
      (gotostmt n s).suppress = s.suppress := by
  unfold gotostmt
  cases n with
  | none => simp [rearm]
  | some n =>
    simp only
    split
    · simp [report, rearm]
    · split
      · simp [rearm]
      · split <;> simp

theorem casestmt_scope (l : Option Expr) (s : GenState) :
    (casestmt l s).breakpc = s.breakpc ∧ (casestmt l s).continpc = s.continpc ∧
      (casestmt l s).suppress = s.suppress := by
  unfold casestmt
  cases l with
  | none => simp only; split <;> simp [report]
  | some l =>
    simp only
    split
    · split <;> simp [report]
    · split <;> split <;> simp [report]

theorem returnstmt_scope (e : Expr) (s : GenState) :
    (returnstmt e s).breakpc = s.breakpc ∧ (returnstmt e s).continpc = s.continpc ∧
      (returnstmt e s).suppress = s.suppress := by
  unfold returnstmt
  simp only
  split <;> simp [rearm]

theorem continuestmt_scope (s : GenState) :
    (continuestmt s).breakpc = s.breakpc ∧ (continuestmt s).continpc = s.continpc ∧
      (continuestmt s).suppress = s.suppress := by
  unfold continuestmt
  split <;> simp [report, rearm, patch]

theorem breakstmt_scope (s : GenState) :
    (breakstmt s).breakpc = s.breakpc ∧ (breakstmt s).continpc = s.continpc ∧
      (breakstmt s).suppress = s.suppress := by
  unfold breakstmt
  split
  · simp [report]
  · split <;> simp [rearm, patch]

theorem reachexit_scope (s : GenState) :
    (reachexit s).breakpc = s.breakpc ∧ (reachexit s).continpc = s.continpc ∧
      (reachexit s).suppress = s.suppress := by
  unfold reachexit; split <;> simp [rearm]

theorem switchhead_scope (s : GenState) :
    (switchhead s).breakpc = s.pc + 1 ∧ (switchhead s).continpc = s.continpc ∧
      (switchhead s).suppress = s.suppress := by
  simp [switchhead]

theorem switchtail_scope (E : GenEnv) (l : Expr) (s0 s : GenState) :
    (switchtail E l s0 s).breakpc = s0.breakpc ∧ (switchtail E l s0 s).continpc = s.continpc ∧
      (switchtail E l s0 s).suppress = s.suppress := by
  unfold switchtail
  simp only
  have h := fun t => reachexit_scope t
  split <;> simp [h, patch]

theorem whilehead_scope (E : GenEnv) (isdo : Bool) (l : Expr) (s : GenState) :
    (whilehead E isdo l s).breakpc = s.pc + 2 ∧ (whilehead E isdo l s).continpc = s.pc + 1 ∧
      (whilehead E isdo l s).suppress = s.suppress := by
  unfold whilehead
  simp only
  have h := fun c t => bcomplex_scope E l c t
  cases isdo <;> simp only [Bool.false_eq_true, if_false, if_true] <;> split_ifs <;>
    simp [h, patch] <;> omega

theorem whiletail_scope (s0 s : GenState) :
    (whiletail s0 s).breakpc = s0.breakpc ∧ (whiletail s0 s).continpc = s0.continpc ∧
      (whiletail s0 s).suppress = s.suppress := by
  unfold whiletail
  have h := fun t => reachexit_scope t
  simp [h, patch]

theorem forhead_scope (E : GenEnv) (n : Node) (e : GenState) :
    (forhead E n e).breakpc = e.pc + 2 ∧ (forhead E n e).continpc = e.pc + 1 ∧
      (forhead E n e).suppress = e.suppress := by
  unfold forhead
  simp only
  split <;> simp [patch, report] <;> omega

theorem fortest_scope (E : GenEnv) (test : Option Expr) (e s : GenState) :
    (fortest E test e s).breakpc = s.breakpc ∧ (fortest E test e s).continpc = s.continpc ∧
      (fortest E test e s).suppress = s.suppress := by
  unfold fortest
  have h := fun l c t => bcomplex_scope E l c t
  cases test with
  | none => simp [patch]
  | some l => simp only; split <;> simp [h, patch]

theorem fortail_scope (hasinc : Bool) (e s : GenState) :
    (fortail hasinc e s).breakpc = e.breakpc ∧ (fortail hasinc e s).continpc = e.continpc ∧
      (fortail hasinc e s).suppress = s.suppress := by
  unfold fortail
  have h := fun t => reachexit_scope t
  simp only
  split <;> split <;> simp [h, patch, report]

theorem ifend_scope (sp : Nat) (o : Bool) (s : GenState) :
    (ifend sp o s).breakpc = s.breakpc ∧ (ifend sp o s).continpc = s.continpc ∧
      (ifend sp o s).suppress = s.suppress := by
  unfold ifend
  simp only
  split <;> simp [patch, rearm]

theorem ifconstfalse_scope (E : GenEnv) (t1 t2 : GenState) :
    (ifconstfalse E t1 t2).breakpc = t2.breakpc ∧ (ifconstfalse E t1 t2).continpc = t2.continpc ∧
      (ifconstfalse E t1 t2).suppress = t2.suppress := by
  unfold ifconstfalse
  split <;> simp

theorem ifconsttrue_scope (E : GenEnv) (t1 t2 : GenState) :
    (ifconsttrue E t1 t2).breakpc = t2.breakpc ∧ (ifconsttrue E t1 t2).continpc = t2.continpc ∧
      (ifconsttrue E t1 t2).suppress = t2.suppress := by
  unfold ifconsttrue
  simp only
  split <;> simp

theorem supgen_scope (f : GenState → GenState) (n : Node) (s : GenState)
    (hf : ∀ t, (f t).breakpc = t.breakpc ∧ (f t).continpc = t.continpc ∧
      (f t).suppress = t.suppress) :
    (supgen f n s).breakpc = s.breakpc ∧ (supgen f n s).continpc = s.continpc ∧
      (supgen f n s).suppress = s.suppress := by
  unfold supgen
  split
  · simp
  · simp [leave, enter, hf]

/-- Every statement leaves the break position, the continue position and
the suppression depth as it found them. -/
theorem gen_scope (E : GenEnv) (n : Node) :
    ∀ s, (gen E n s).breakpc = s.breakpc ∧ (gen E n s).continpc = s.continpc ∧
      (gen E n s).suppress = s.suppress := by
  induction n with
  | Z => intro s; simp [gen]
  | OEXPR e => intro s; simp [gen]
  | OUSED e => intro s; simp [gen]
  | OLIST left right ihl ihr => intro s; simp [gen, ihl, ihr]
  | ORETURN e => intro s; simp [gen, returnstmt_scope]
  | OLABEL left right ih => intro s; simp [gen, ih, labelstmt_scope]
  | OGOTO left => intro s; simp [gen, gotostmt_scope]
  | OCASE left right ih => intro s; simp [gen, ih, casestmt_scope]
  | OSWITCH left right ih =>
    intro s
    simp only [gen]
    split
    · simp
    · split
      · simp [report]
      · simp [switchtail_scope, ih, switchhead_scope]
  | OWHILE left right ih => intro s; simp [gen, whiletail_scope, ih, whilehead_scope]
  | ODWHILE left right ih => intro s; simp [gen, whiletail_scope, ih, whilehead_scope]
  | OFOR init test inc right ihi iht ihb =>
    intro s
    simp [gen, fortail_scope, ihi, iht, ihb, fortest_scope, forhead_scope]
  | OCONTINUE => intro s; simp [gen, continuestmt_scope]
  | OBREAK => intro s; simp [gen, breakstmt_scope]
  | OIF left thn els iht ihe =>
    intro s
    have hb := bcomplex_scope E left (some (.OLIST thn els)) (reachcheck false s)
    simp only [gen]
    split_ifs <;>
      simp [ifconstfalse_scope, ifconsttrue_scope, ifend_scope, supgen_scope _ _ _ iht,
        supgen_scope _ _ _ ihe, iht, ihe, hb, patch]

/-! ## Positions and record numbers only grow -/

theorem bcomplex_grow (E : GenEnv) (n : Expr) (c : Option Node) (s : GenState) :
    s.pc ≤ (bcomplex E n c s).2.pc ∧ s.nprog ≤ (bcomplex E n c s).2.nprog := by
  unfold bcomplex
  split
  · simp
  · split
    · split <;> simp [nextpc] <;> omega
    · simp [nextpc]; omega

theorem labelstmt_grow (l : Option Label) (s : GenState) :
    s.pc ≤ (labelstmt l s).pc ∧ s.nprog ≤ (labelstmt l s).nprog := by
  unfold labelstmt
  cases l <;> simp

theorem gotostmt_grow (n : Option Label) (s : GenState) :
    s.pc ≤ (gotostmt n s).pc ∧ s.nprog ≤ (gotostmt n s).nprog := by
  unfold gotostmt
  cases n with
  | none => simp [rearm]
  | some n =>
    simp only
    split
    · simp [report, rearm]
    · split
      · simp [rearm]
      · split <;> simp

theorem casestmt_grow (l : Option Expr) (s : GenState) :
    s.pc ≤ (casestmt l s).pc ∧ s.nprog ≤ (casestmt l s).nprog := by
  unfold casestmt
  cases l with
  | none => simp only; split <;> simp [report]
  | some l =>
    simp only
    split
    · split <;> simp [report]
    · split <;> split <;> simp [report]

theorem returnstmt_grow (e : Expr) (s : GenState) :
    s.pc ≤ (returnstmt e s).pc ∧ s.nprog ≤ (returnstmt e s).nprog := by
  unfold returnstmt
  simp only
  split <;> simp [rearm] <;> omega

theorem continuestmt_grow (s : GenState) :
    s.pc ≤ (continuestmt s).pc ∧ s.nprog ≤ (continuestmt s).nprog := by
  unfold continuestmt
  split <;> simp [report, rearm, patch]

theorem breakstmt_grow (s : GenState) :
    s.pc ≤ (breakstmt s).pc ∧ s.nprog ≤ (breakstmt s).nprog := by
  unfold breakstmt
  split
  · simp [report]
  · split <;> simp [rearm, patch]

theorem reachexit_pc (s : GenState) : (reachexit s).pc = s.pc := by
  unfold reachexit; split <;> simp [rearm]

theorem reachexit_nprog (s : GenState) : (reachexit s).nprog = s.nprog := by
  unfold reachexit; split <;> simp [rearm]

theorem switchhead_pc (s : GenState) : (switchhead s).pc = s.pc + 2 := by
  simp [switchhead]; omega

theorem switchhead_nprog (s : GenState) : (switchhead s).nprog = s.nprog + 2 := by
  simp [switchhead]

theorem switchtail_grow (E : GenEnv) (l : Expr) (s0 s : GenState) :
    s.pc ≤ (switchtail E l s0 s).pc ∧ s.nprog ≤ (switchtail E l s0 s).nprog := by
  unfold switchtail
  simp only
  split <;> simp [reachexit_pc, reachexit_nprog, patch] <;> omega

theorem whilehead_grow (E : GenEnv) (isdo : Bool) (l : Expr) (s : GenState) :
    s.pc + 3 ≤ (whilehead E isdo l s).pc ∧ s.nprog + 3 ≤ (whilehead E isdo l s).nprog := by
  unfold whilehead
  simp only
  have h := fun c t => bcomplex_grow E l c t
  cases isdo <;> simp only [Bool.false_eq_true, if_false, if_true] <;> split_ifs <;>
    simp only [patch] <;> refine ⟨le_trans ?_ (h _ _).1, le_trans ?_ (h _ _).2⟩ <;> simp <;> omega

theorem whiletail_grow (s0 s : GenState) :
    s.pc ≤ (whiletail s0 s).pc ∧ s.nprog ≤ (whiletail s0 s).nprog := by
  unfold whiletail
  simp [reachexit_pc, reachexit_nprog, patch]

theorem forhead_grow (E : GenEnv) (n : Node) (e : GenState) :
    e.pc + 3 ≤ (forhead E n e).pc ∧ e.nprog + 3 ≤ (forhead E n e).nprog := by
  unfold forhead
  simp only
  split <;> simp [patch, report] <;> omega

theorem fortest_grow (E : GenEnv) (test : Option Expr) (e s : GenState) :
    s.pc ≤ (fortest E test e s).pc ∧ s.nprog ≤ (fortest E test e s).nprog := by
  unfold fortest
  have h := fun l c t => bcomplex_grow E l c t
  cases test with
  | none => simp [patch]
  | some l =>
    simp only
    split <;> simp only [patch, reach] <;>
      refine ⟨le_trans ?_ (h _ _ _).1, le_trans ?_ (h _ _ _).2⟩ <;> simp

theorem fortail_grow (hasinc : Bool) (e s : GenState) :
    s.pc ≤ (fortail hasinc e s).pc ∧ s.nprog ≤ (fortail hasinc e s).nprog := by
  unfold fortail
  simp only
  split <;> split <;> simp [reachexit_pc, reachexit_nprog, patch, report]

theorem ifend_pc (sp : Nat) (o : Bool) (s : GenState) : (ifend sp o s).pc = s.pc := by
  unfold ifend
  simp only
  split <;> simp [patch, rearm]

theorem ifend_nprog (sp : Nat) (o : Bool) (s : GenState) : (ifend sp o s).nprog = s.nprog := by
  unfold ifend
  simp only
  split <;> simp [patch, rearm]

theorem ifconstfalse_pc (E : GenEnv) (t1 t2 : GenState) :
    (ifconstfalse E t1 t2).pc = t2.pc ∧ (ifconstfalse E t1 t2).nprog = t2.nprog := by
  unfold ifconstfalse
  split <;> simp

theorem ifconsttrue_pc (E : GenEnv) (t1 t2 : GenState) :
    (ifconsttrue E t1 t2).pc = t2.pc ∧ (ifconsttrue E t1 t2).nprog = t2.nprog := by
  unfold ifconsttrue
  simp only
  split <;> simp

theorem supgen_grow (f : GenState → GenState) (n : Node) (s : GenState)
    (hf : ∀ t, t.pc ≤ (f t).pc ∧ t.nprog ≤ (f t).nprog) :
    s.pc ≤ (supgen f n s).pc ∧ s.nprog ≤ (supgen f n s).nprog := by
  unfold supgen
  split
  · simp
  · simpa [leave, enter] using (hf (enter s)).2

/-- Lowering a statement never moves the position or the number of records
back. -/
theorem gen_grow (E : GenEnv) (n : Node) :
    ∀ s, s.pc ≤ (gen E n s).pc ∧ s.nprog ≤ (gen E n s).nprog := by
  induction n with
  | Z => intro s; simp [gen]
  | OEXPR e => intro s; simp [gen]
  | OUSED e => intro s; simp [gen]
  | OLIST left right ihl ihr =>
    intro s
    have h1 := ihl (reachcheck true s)
    have h2 := ihr (gen E left (reachcheck true s))
    simp only [gen]
    simp only [reachcheck_pc, reachcheck_nprog] at h1
    exact ⟨le_trans h1.1 h2.1, le_trans h1.2 h2.2⟩
  | ORETURN e => intro s; simpa [gen] using returnstmt_grow e (reachcheck false s)
  | OLABEL left right ih =>
    intro s
    have h1 := labelstmt_grow left (reachcheck true s)
    have h2 := ih (labelstmt left (reachcheck true s))
    simp only [gen]
    simp only [reachcheck_pc, reachcheck_nprog] at h1
    exact ⟨le_trans h1.1 h2.1, le_trans h1.2 h2.2⟩
  | OGOTO left => intro s; simpa [gen] using gotostmt_grow left (reachcheck false s)
  | OCASE left right ih =>
    intro s
    have h1 := casestmt_grow left (reachcheck true s)
    have h2 := ih (casestmt left (reachcheck true s))
    simp only [gen]
    simp only [reachcheck_pc, reachcheck_nprog] at h1
    exact ⟨le_trans h1.1 h2.1, le_trans h1.2 h2.2⟩
  | OSWITCH left right ih =>
    intro s
    simp only [gen]
    split_ifs
    · simp
    · simp [report]
    · have h1 := switchhead_pc (reachcheck false s)
      have h1n := switchhead_nprog (reachcheck false s)
      have h2 := ih (switchhead (reachcheck false s))
      have h3 := switchtail_grow E left (reachcheck false s)
        (gen E right (switchhead (reachcheck false s)))
      simp only [reachcheck_pc, reachcheck_nprog] at h1 h1n
      constructor <;> omega
  | OWHILE left right ih =>
    intro s
    have h1 := whilehead_grow E false left (reachcheck true s)
    have h2 := ih (whilehead E false left (reachcheck true s))
    have h3 := whiletail_grow (reachcheck true s)
      (gen E right (whilehead E false left (reachcheck true s)))
    simp only [gen]
    simp only [reachcheck_pc, reachcheck_nprog] at h1
    constructor <;> omega
  | ODWHILE left right ih =>
    intro s
    have h1 := whilehead_grow E true left (reachcheck true s)
    have h2 := ih (whilehead E true left (reachcheck true s))
    have h3 := whiletail_grow (reachcheck true s)
      (gen E right (whilehead E true left (reachcheck true s)))
    simp only [gen]
    simp only [reachcheck_pc, reachcheck_nprog] at h1
    constructor <;> omega
  | OFOR init test inc right ihi iht ihb =>
    intro s
    simp only [gen]
    generalize hs0 : forwarn (!init.isZ) (reachcheck true s) = s0
    have h0 : s0.pc = s.pc ∧ s0.nprog = s.nprog := by rw [← hs0]; simp
    have h1 := ihi s0
    generalize gen E init s0 = e at h1 ⊢
    have h2 := forhead_grow E (.OFOR init test inc right) e
    generalize forhead E (.OFOR init test inc right) e = a at h2 ⊢
    have h3 := iht a
    generalize gen E inc a = b at h3 ⊢
    have h4 := fortest_grow E test e b
    generalize fortest E test e b = c at h4 ⊢
    have h5 := ihb c
    generalize gen E right c = d at h5 ⊢
    have h6 := fortail_grow (!inc.isZ) e d
    constructor <;> omega
  | OCONTINUE => intro s; simpa [gen] using continuestmt_grow (reachcheck false s)
  | OBREAK => intro s; simpa [gen] using breakstmt_grow (reachcheck true s)
  | OIF left thn els iht ihe =>
    intro s
    have hb := bcomplex_grow E left (some (.OLIST thn els)) (reachcheck false s)
    simp only [reachcheck_pc, reachcheck_nprog] at hb
    simp only [gen]
    generalize (bcomplex E left (some (.OLIST thn els)) (reachcheck false s)) = r at hb ⊢
    generalize (if left.typefd then left.fconst0 else decide (left.vconst = 0)) = f
    have A1 := supgen_grow (gen E thn) thn (reach r.2) iht
    have A2 := ihe (reach (supgen (gen E thn) thn (reach r.2)))
    have A3 := ifconstfalse_pc E (supgen (gen E thn) thn (reach r.2))
      (gen E els (reach (supgen (gen E thn) thn (reach r.2))))
    have B1 := iht (reach r.2)
    have B2 := supgen_grow (gen E els) els (reach (gen E thn (reach r.2))) ihe
    have B3 := ifconsttrue_pc E (gen E thn (reach r.2))
      (supgen (gen E els) els (reach (gen E thn (reach r.2))))
    have C1 := ihe (patch r.2.p (gbranch .OGOTO (reach (reach r.2))).pc
      (gbranch .OGOTO (reach (reach r.2))))
    have C2 := ihe (patch r.2.p (gbranch .OGOTO (reach (gen E thn (reach r.2)))).pc
      (gbranch .OGOTO (reach (gen E thn (reach r.2)))))
    simp only [reach_pc, reach_nprog, patch_pc, patch_nprog, gbranch_pc, gbranch_nprog]
      at A1 A2 B1 B2 C1 C2
    split_ifs <;>
      simp only [ifend_pc, ifend_nprog, A3.1, A3.2, B3.1, B3.2, reach_pc, reach_nprog,
        patch_pc, patch_nprog, gbranch_pc, gbranch_nprog] <;>
      constructor <;> omega

/-! ## The `if` statement -/

@[simp] theorem reachcheck_true (s : GenState) : reachcheck true s = s := by
  simp [reachcheck]

theorem isZ_eq (n : Node) (h : n.isZ = true) : n = .Z := by
  cases n <;> simp [Node.isZ] at h ⊢

theorem bcomplex_nonconst (E : GenEnv) (n : Expr) (c : Option Node) (s : GenState)
    (h : n.oconst = false) : (bcomplex E n c s).1 = false := by
  unfold bcomplex
  split
  · rfl
  · cases c <;> simp [h]

theorem ifend_canreach (sp : Nat) (o : Bool) (s : GenState) :
    (ifend sp o s).canreach = (s.canreach || o) := by
  unfold ifend
  simp only
  split
  · rename_i h; simpa using h.symm
  · rename_i h; simpa [rearm] using h

/-- C19: when the condition of an `if` is not a constant, `gen` lowers the
first branch from the state `a` after the condition and the second branch
from the state `b` after the jump over it, both with `canreach = 1`; after
the `if`, `canreach` is the OR of `canreach` at the end of the two branches,
a branch that is absent counting as reachable; an `if` without `else`
leaves `canreach = 1`. -/
theorem gen_if_canreach (E : GenEnv) (left : Expr) (thn els : Node) (s : GenState)
    (hc : left.oconst = false) :
    let t := (bcomplex E left (some (.OLIST thn els)) (reachcheck false s)).2
    let a := reach t
    let j := gbranch .OGOTO (reach (gen E thn a))
    let b := patch t.p j.pc j
    a.canreach = true ∧ b.canreach = true ∧
      (gen E (.OIF left thn els) s).canreach =
        ((if thn.isZ then true else (gen E thn a).canreach) ||
          (if els.isZ then true else (gen E els b).canreach)) ∧
      (els = .Z → (gen E (.OIF left thn els) s).canreach = true) := by
  have hb := bcomplex_nonconst E left (some (.OLIST thn els)) (reachcheck false s) hc
  have key : (gen E (.OIF left thn els) s).canreach =
      ((if thn.isZ then true
        else (gen E thn (reach (bcomplex E left (some (.OLIST thn els))
          (reachcheck false s)).2)).canreach) ||
        (if els.isZ then true
         else (gen E els (patch (bcomplex E left (some (.OLIST thn els))
           (reachcheck false s)).2.p
           (gbranch .OGOTO (reach (gen E thn (reach (bcomplex E left (some (.OLIST thn els))
             (reachcheck false s)).2)))).pc
           (gbranch .OGOTO (reach (gen E thn (reach (bcomplex E left (some (.OLIST thn els))
             (reachcheck false s)).2)))))).canreach)) := by
    simp only [gen, hb]
    by_cases ht : thn.isZ = true
    · have := isZ_eq thn ht
      subst this
      by_cases he : els.isZ = true
      · simp [ht, he, ifend_canreach]
      · simp [ht, he, ifend_canreach, gen, Bool.or_comm]
    · by_cases he : els.isZ = true
      · simp [ht, he, ifend_canreach]
      · simp [ht, he, ifend_canreach, Bool.or_comm]
  refine ⟨rfl, by simp, key, ?_⟩
  intro he
  subst he
  rw [key]
  simp [Node.isZ]

/-- With the sample condition: `if(c) return 1;` in the sample state
leaves `canreach = 1`. -/
theorem gen_if_canreach_witness :
    cond.oconst = false ∧ (gen plainE (.OIF cond (.ORETURN one) .Z) start).canreach = true :=
  ⟨rfl, (gen_if_canreach plainE cond (.ORETURN one) .Z start rfl).2.2.2 rfl⟩

/-! ## Unreachable `break` and `continue` -/

/-- C18 (counterexample): in the body of `while(c)`, after `return 1;`
(`canreach` is 0, `warnreach` is 1, and both positions are set), a `break`
emits no branch and is not counted in `nbreak`, and a `continue` draws the
warning "unreachable code". -/
theorem unreachable_jump_counterexample :
    dead.canreach = false ∧ dead.warnreach = true ∧ 0 ≤ dead.breakpc ∧ 0 ≤ dead.continpc ∧
      (gen plainE .OBREAK dead).prog = dead.prog ∧
      (gen plainE .OBREAK dead).nbreak = dead.nbreak ∧
      (gen plainE .OCONTINUE dead).msgs = [.unreachable] := by
  decide

/-- C18: while `canreach` is 0 and `warnreach` is 1, a `break` inside a
loop or switch leaves the state as it is (no diagnostic, no branch, no
count in `nbreak`); a `continue` inside a loop records the warning
"unreachable code", then emits one jump patched to `continpc`, counts in
`ncontin`, leaves `canreach` 0 and sets `warnreach` to `!suppress`. -/
theorem gen_unreachable_jump (E : GenEnv) (s : GenState) (hr : s.canreach = false)
    (hw : s.warnreach = true) :
    (0 ≤ s.breakpc → gen E .OBREAK s = s) ∧
      (0 ≤ s.continpc →
        (gen E .OCONTINUE s).msgs = s.msgs ++ [.unreachable] ∧
        lastprog (gen E .OCONTINUE s) =
          some { id := s.nprog, as := .AJMP, to_ := some s.continpc } ∧
        (gen E .OCONTINUE s).prog.length = s.prog.length + 1 ∧
        (gen E .OCONTINUE s).ncontin = s.ncontin + 1 ∧
        (gen E .OCONTINUE s).nbreak = s.nbreak ∧
        (gen E .OCONTINUE s).canreach = false ∧
        (gen E .OCONTINUE s).warnreach = decide (s.suppress = 0)) := by
  constructor
  · intro hb
    simp [gen, breakstmt, hr, not_lt.mpr hb]
  · intro hcp
    have h1 : reachcheck false s = { report .unreachable s with warnreach := false } := by
      simp [reachcheck, hr, hw]
    simp [gen, h1, continuestmt, not_lt.mpr hcp, lastprog, patch, gbranch, nextpc, rearm,
      report]

/-- In the sample state after `return 1;` in the body of `while(c)`. -/
theorem gen_unreachable_jump_witness :
    gen plainE .OBREAK dead = dead ∧
      (gen plainE .OCONTINUE dead).msgs = dead.msgs ++ [.unreachable] :=
  ⟨(gen_unreachable_jump plainE dead (by decide) (by decide)).1 (by decide),
    ((gen_unreachable_jump plainE dead (by decide) (by decide)).2 (by decide)).1⟩

/-! ## The counters and the case table -/

theorem bcomplex_counts (E : GenEnv) (n : Expr) (c : Option Node) (s : GenState) :
    (bcomplex E n c s).2.nbreak = s.nbreak ∧ (bcomplex E n c s).2.ncontin = s.ncontin ∧
      (bcomplex E n c s).2.cases = s.cases := by
  unfold bcomplex
  split
  · simp
  · split
    · split <;> simp
    · simp

theorem labelstmt_counts (l : Option Label) (s : GenState) :
    (labelstmt l s).nbreak = s.nbreak ∧ (labelstmt l s).ncontin = s.ncontin ∧
      (labelstmt l s).cases = s.cases := by
  unfold labelstmt
  cases l <;> simp

theorem gotostmt_counts (n : Option Label) (s : GenState) :
    (gotostmt n s).nbreak = s.nbreak ∧ (gotostmt n s).ncontin = s.ncontin ∧
      (gotostmt n s).cases = s.cases := by
  unfold gotostmt
  cases n with
  | none => simp
  | some n =>
    simp only
    split
    · simp
    · split
      · simp
      · split <;> simp

theorem casestmt_counts (l : Option Expr) (s : GenState) :
    (casestmt l s).nbreak = s.nbreak ∧ (casestmt l s).ncontin = s.ncontin := by
  unfold casestmt
  cases l with
  | none => simp only; split <;> simp
  | some l =>
    simp only
    split
    · split <;> simp
    · split <;> split <;> simp

theorem returnstmt_counts (e : Expr) (s : GenState) :
    (returnstmt e s).nbreak = s.nbreak ∧ (returnstmt e s).ncontin = s.ncontin ∧
      (returnstmt e s).cases = s.cases := by
  unfold returnstmt
  simp only
  split <;> simp

theorem continuestmt_counts (s : GenState) :
    (continuestmt s).nbreak = s.nbreak ∧ (continuestmt s).cases = s.cases := by
  unfold continuestmt
  split <;> simp

theorem breakstmt_counts (s : GenState) :
    (breakstmt s).ncontin = s.ncontin ∧ (breakstmt s).cases = s.cases := by
  unfold breakstmt
  split
  · simp
  · split <;> simp

theorem reachexit_counts (s : GenState) :
    (reachexit s).nbreak = s.nbreak ∧ (reachexit s).ncontin = s.ncontin ∧
      (reachexit s).cases = s.cases := by
  unfold reachexit; split <;> simp

theorem switchhead_ncontin (s : GenState) : (switchhead s).ncontin = s.ncontin := by
  simp [switchhead]

theorem switchtail_counts (E : GenEnv) (l : Expr) (s0 s : GenState) :
    (switchtail E l s0 s).nbreak = s0.nbreak ∧ (switchtail E l s0 s).ncontin = s.ncontin ∧
      (switchtail E l s0 s).cases = s0.cases := by
  unfold switchtail
  simp only
  split <;> simp [reachexit_counts]

theorem whilehead_counts (E : GenEnv) (isdo : Bool) (l : Expr) (s : GenState) :
    (whilehead E isdo l s).ncontin = s.ncontin ∧ (whilehead E isdo l s).cases = s.cases := by
  unfold whilehead
  simp only
  have h := fun c t => bcomplex_counts E l c t
  cases isdo <;> simp only [Bool.false_eq_true, if_false, if_true] <;> split_ifs <;> simp [h]

theorem whiletail_counts (s0 s : GenState) :
    (whiletail s0 s).nbreak = s0.nbreak ∧ (whiletail s0 s).ncontin = s.ncontin ∧
      (whiletail s0 s).cases = s.cases := by
  unfold whiletail
  simp [reachexit_counts]

theorem forhead_cases (E : GenEnv) (n : Node) (e : GenState) :
    (forhead E n e).cases = e.cases := by
  unfold forhead
  simp only
  split <;> simp

theorem fortest_cases (E : GenEnv) (test : Option Expr) (e s : GenState) :
    (fortest E test e s).cases = s.cases := by
  unfold fortest
  have h := fun l c t => bcomplex_counts E l c t
  cases test with
  | none => simp
  | some l => simp only; split <;> simp [h]

theorem fortail_counts (hasinc : Bool) (e s : GenState) :
    (fortail hasinc e s).nbreak = e.nbreak ∧ (fortail hasinc e s).ncontin = e.ncontin ∧
      (fortail hasinc e s).cases = s.cases := by
  unfold fortail
  simp only
  split <;> split <;> simp [reachexit_counts]

theorem ifend_counts (sp : Nat) (o : Bool) (s : GenState) :
    (ifend sp o s).nbreak = s.nbreak ∧ (ifend sp o s).ncontin = s.ncontin ∧
      (ifend sp o s).cases = s.cases := by
  unfold ifend
  simp only
  split <;> simp

theorem ifconstfalse_counts (E : GenEnv) (t1 t2 : GenState) :
    (ifconstfalse E t1 t2).nbreak = t2.nbreak ∧ (ifconstfalse E t1 t2).ncontin = t2.ncontin ∧
      (ifconstfalse E t1 t2).cases = t2.cases := by
  unfold ifconstfalse
  split <;> simp

theorem ifconsttrue_counts (E : GenEnv) (t1 t2 : GenState) :
    (ifconsttrue E t1 t2).nbreak = t2.nbreak ∧ (ifconsttrue E t1 t2).ncontin = t2.ncontin ∧
      (ifconsttrue E t1 t2).cases = t2.cases := by
  unfold ifconsttrue
  simp only
  split <;> simp

theorem supgen_nbreak (f : GenState → GenState) (n : Node) (s : GenState)
    (hf : ∀ t, (f t).nbreak = t.nbreak) : (supgen f n s).nbreak = s.nbreak := by
  unfold supgen
  split
  · rfl
  · simp [leave, enter, hf]

theorem supgen_ncontin (f : GenState → GenState) (n : Node) (s : GenState)
    (hf : ∀ t, (f t).ncontin = t.ncontin) : (supgen f n s).ncontin = s.ncontin := by
  unfold supgen
  split
  · rfl
  · simp [leave, enter, hf]

theorem supgen_cases (f : GenState → GenState) (n : Node) (s : GenState)
    (hf : ∀ t, (f t).cases = t.cases) : (supgen f n s).cases = s.cases := by
  unfold supgen
  split
  · rfl
  · simp [leave, enter, hf]

/-- A statement without a `break` of the enclosing scope leaves `nbreak` as
it is. -/
theorem gen_nbreak (E : GenEnv) (n : Node) :
    ∀ s, hasbreak n = false → (gen E n s).nbreak = s.nbreak := by
  induction n with
  | Z => intro s _; simp [gen]
  | OEXPR e => intro s _; simp [gen]
  | OUSED e => intro s _; simp [gen]
  | OLIST left right ihl ihr =>
    intro s h
    simp only [hasbreak, Bool.or_eq_false_iff] at h
    simp [gen, ihl _ h.1, ihr _ h.2]
  | ORETURN e => intro s _; simp [gen, returnstmt_counts]
  | OLABEL left right ih =>
    intro s h
    simp only [hasbreak] at h
    simp [gen, ih _ h, labelstmt_counts]
  | OGOTO left => intro s _; simp [gen, gotostmt_counts]
  | OCASE left right ih =>
    intro s h
    simp only [hasbreak] at h
    simp [gen, ih _ h, casestmt_counts]
  | OSWITCH left right ih =>
    intro s _
    simp only [gen]
    split_ifs <;> simp [switchtail_counts]
  | OWHILE left right ih => intro s _; simp [gen, whiletail_counts]
  | ODWHILE left right ih => intro s _; simp [gen, whiletail_counts]
  | OFOR init test inc right ihi iht ihb =>
    intro s h
    simp only [hasbreak] at h
    simp [gen, fortail_counts, ihi _ h]
  | OCONTINUE => intro s _; simp [gen, continuestmt_counts]
  | OBREAK => intro s h; simp [hasbreak] at h
  | OIF left thn els iht ihe =>
    intro s h
    simp only [hasbreak, Bool.or_eq_false_iff] at h
    have hb := (bcomplex_counts E left (some (.OLIST thn els)) (reachcheck false s)).1
    have ht := fun t => iht t h.1
    have he := fun t => ihe t h.2
    simp only [gen]
    split_ifs <;>
      simp [ifconstfalse_counts, ifconsttrue_counts, ifend_counts, supgen_nbreak _ _ _ ht,
        supgen_nbreak _ _ _ he, ht, he, hb]

/-- A statement without a `continue` of the enclosing loop leaves `ncontin`
as it is. -/
theorem gen_ncontin (E : GenEnv) (n : Node) :
    ∀ s, hascontinue n = false → (gen E n s).ncontin = s.ncontin := by
  induction n with
  | Z => intro s _; simp [gen]
  | OEXPR e => intro s _; simp [gen]
  | OUSED e => intro s _; simp [gen]
  | OLIST left right ihl ihr =>
    intro s h
    simp only [hascontinue, Bool.or_eq_false_iff] at h
    simp [gen, ihl _ h.1, ihr _ h.2]
  | ORETURN e => intro s _; simp [gen, returnstmt_counts]
  | OLABEL left right ih =>
    intro s h
    simp only [hascontinue] at h
    simp [gen, ih _ h, labelstmt_counts]
  | OGOTO left => intro s _; simp [gen, gotostmt_counts]
  | OCASE left right ih =>
    intro s h
    simp only [hascontinue] at h
    simp [gen, ih _ h, casestmt_counts]
  | OSWITCH left right ih =>
    intro s h
    simp only [hascontinue] at h
    simp only [gen]
    split_ifs <;> simp [switchtail_counts, ih _ h, switchhead_ncontin]
  | OWHILE left right ih =>
    intro s h
    simp only [hascontinue] at h
    simp [gen, whiletail_counts, ih _ h, whilehead_counts]
  | ODWHILE left right ih =>
    intro s h
    simp only [hascontinue] at h
    simp [gen, whiletail_counts, ih _ h, whilehead_counts]
  | OFOR init test inc right ihi iht ihb =>
    intro s h
    simp only [hascontinue] at h
    simp [gen, fortail_counts, ihi _ h]
  | OCONTINUE => intro s h; simp [hascontinue] at h
  | OBREAK => intro s _; simp [gen, breakstmt_counts]
  | OIF left thn els iht ihe =>
    intro s h
    simp only [hascontinue, Bool.or_eq_false_iff] at h
    have hb := (bcomplex_counts E left (some (.OLIST thn els)) (reachcheck false s)).2.1
    have ht := fun t => iht t h.1
    have he := fun t => ihe t h.2
    simp only [gen]
    split_ifs <;>
      simp [ifconstfalse_counts, ifconsttrue_counts, ifend_counts, supgen_ncontin _ _ _ ht,
        supgen_ncontin _ _ _ he, ht, he, hb]

/-- A statement without a `case` label of the enclosing switch leaves the
case table as it is. -/
theorem gen_cases (E : GenEnv) (n : Node) :
    ∀ s, hascase n = false → (gen E n s).cases = s.cases := by
  induction n with
  | Z => intro s _; simp [gen]
  | OEXPR e => intro s _; simp [gen]
  | OUSED e => intro s _; simp [gen]
  | OLIST left right ihl ihr =>
    intro s h
    simp only [hascase, Bool.or_eq_false_iff] at h
    simp [gen, ihl _ h.1, ihr _ h.2]
  | ORETURN e => intro s _; simp [gen, returnstmt_counts]
  | OLABEL left right ih =>
    intro s h
    simp only [hascase] at h
    simp [gen, ih _ h, labelstmt_counts]
  | OGOTO left => intro s _; simp [gen, gotostmt_counts]
  | OCASE left right ih => intro s h; simp [hascase] at h
  | OSWITCH left right ih =>
    intro s _
    simp only [gen]
    split_ifs <;> simp [switchtail_counts]
  | OWHILE left right ih =>
    intro s h
    simp only [hascase] at h
    simp [gen, whiletail_counts, ih _ h, whilehead_counts]
  | ODWHILE left right ih =>
    intro s h
    simp only [hascase] at h
    simp [gen, whiletail_counts, ih _ h, whilehead_counts]
  | OFOR init test inc right ihi iht ihb =>
    intro s h
    simp only [hascase, Bool.or_eq_false_iff] at h
    simp [gen, fortail_counts, ihi _ h.1.1, iht _ h.1.2, ihb _ h.2, fortest_cases,
      forhead_cases]
  | OCONTINUE => intro s _; simp [gen, continuestmt_counts]
  | OBREAK => intro s _; simp [gen, breakstmt_counts]
  | OIF left thn els iht ihe =>
    intro s h
    simp only [hascase, Bool.or_eq_false_iff] at h
    have hb := (bcomplex_counts E left (some (.OLIST thn els)) (reachcheck false s)).2.2
    have ht := fun t => iht t h.1
    have he := fun t => ihe t h.2
    simp only [gen]
    split_ifs <;>
      simp [ifconstfalse_counts, ifconsttrue_counts, ifend_counts, supgen_cases _ _ _ ht,
        supgen_cases _ _ _ he, ht, he, hb]

/-! ## What a loop or switch restores -/

/-- C17 (counterexample): `while(c) continue;` as the first statement of a
function leaves `ncontin` at 1 where it was 0, and so does
`switch(c) continue;` in the body of a loop; in the body of a switch,
`while(c) case 1: e;` leaves a case table of two entries where there was
one. -/
theorem loop_ncontin_counterexample :
    start.ncontin = 0 ∧ (gen plainE (.OWHILE cond .OCONTINUE) start).ncontin = 1 ∧
      inloop.ncontin = 0 ∧ (gen plainE (.OSWITCH cond .OCONTINUE) inloop).ncontin = 1 ∧
      inswitch.cases.length = 1 ∧
      (gen plainE (.OWHILE cond (.OCASE (some one) stmt)) inswitch).cases.length = 2 := by
  decide

/-- C17: every `while`, `do-while` and `switch` statement leaves `breakpc`,
`continpc` and `nbreak` as they were before it, and so does every `for`
statement whose init has no `break`; a `switch` also restores `cases`, and
a `for` whose init has no `continue` also restores `ncontin`.  A `while`,
`do-while` or `switch` restores `ncontin` when its body has no `continue`
outside the increment and body of `for` loops, and a loop restores `cases`
when it has no `case` label outside the switches in it. -/
theorem gen_restores_scope (E : GenEnv) (s : GenState) (l : Expr) (test : Option Expr)
    (init inc body : Node) :
    (∀ n, n = .OWHILE l body ∨ n = .ODWHILE l body →
      (gen E n s).breakpc = s.breakpc ∧ (gen E n s).continpc = s.continpc ∧
      (gen E n s).nbreak = s.nbreak ∧
      (hascontinue body = false → (gen E n s).ncontin = s.ncontin) ∧
      (hascase body = false → (gen E n s).cases = s.cases)) ∧
    ((gen E (.OSWITCH l body) s).breakpc = s.breakpc ∧
      (gen E (.OSWITCH l body) s).continpc = s.continpc ∧
      (gen E (.OSWITCH l body) s).nbreak = s.nbreak ∧
      (gen E (.OSWITCH l body) s).cases = s.cases ∧
      (hascontinue body = false → (gen E (.OSWITCH l body) s).ncontin = s.ncontin)) ∧
    ((gen E (.OFOR init test inc body) s).breakpc = s.breakpc ∧
      (gen E (.OFOR init test inc body) s).continpc = s.continpc ∧
      (hasbreak init = false → (gen E (.OFOR init test inc body) s).nbreak = s.nbreak) ∧
      (hascontinue init = false → (gen E (.OFOR init test inc body) s).ncontin = s.ncontin) ∧
      (hascase init = false → hascase inc = false → hascase body = false →
        (gen E (.OFOR init test inc body) s).cases = s.cases)) := by
  refine ⟨?_, ?_, ?_⟩
  · intro n hn
    refine ⟨(gen_scope E n s).1, (gen_scope E n s).2.1, ?_, ?_, ?_⟩
    · exact gen_nbreak E n s (by rcases hn with h | h <;> subst h <;> rfl)
    · intro h
      exact gen_ncontin E n s (by rcases hn with h1 | h1 <;> subst h1 <;> simpa [hascontinue])
    · intro h
      exact gen_cases E n s (by rcases hn with h1 | h1 <;> subst h1 <;> simpa [hascase])
  · refine ⟨(gen_scope E _ s).1, (gen_scope E _ s).2.1, gen_nbreak E _ s rfl,
      gen_cases E _ s rfl, ?_⟩
    intro h
    exact gen_ncontin E _ s (by simpa [hascontinue])
  · refine ⟨(gen_scope E _ s).1, (gen_scope E _ s).2.1, ?_, ?_, ?_⟩
    · intro h
      exact gen_nbreak E _ s (by simpa [hasbreak])
    · intro h
      exact gen_ncontin E _ s (by simpa [hascontinue])
    · intro h1 h2 h3
      exact gen_cases E _ s (by simp [hascase, h1, h2, h3])

/-- In the sample state: `for(e; c; e) continue;` restores all five, and
`while(c) break;` restores `ncontin` and `cases` besides the other three. -/
theorem gen_restores_scope_witness :
    ((gen plainE (.OFOR stmt (some cond) stmt .OCONTINUE) start).nbreak = start.nbreak ∧
      (gen plainE (.OFOR stmt (some cond) stmt .OCONTINUE) start).ncontin = start.ncontin ∧
      (gen plainE (.OFOR stmt (some cond) stmt .OCONTINUE) start).cases = start.cases) ∧
    ((gen plainE (.OWHILE cond .OBREAK) start).ncontin = start.ncontin ∧
      (gen plainE (.OWHILE cond .OBREAK) start).cases = start.cases) :=
  ⟨⟨(gen_restores_scope plainE start cond (some cond) stmt stmt .OCONTINUE).2.2.2.2.1 rfl,
      (gen_restores_scope plainE start cond (some cond) stmt stmt .OCONTINUE).2.2.2.2.2.1 rfl,
      (gen_restores_scope plainE start cond (some cond) stmt stmt .OCONTINUE).2.2.2.2.2.2
        rfl rfl rfl⟩,
    ⟨((gen_restores_scope plainE start cond none .Z .Z .OBREAK).1 _ (Or.inl rfl)).2.2.2.1 rfl,
      ((gen_restores_scope plainE start cond none .Z .Z .OBREAK).1 _ (Or.inl rfl)).2.2.2.2
        rfl⟩⟩

/-! ## The statements directly in a body -/

theorem supgen_eq (f : GenState → GenState) (n : Node) (s : GenState) :
    supgen f n s = if n.isZ then s else leave s (f (enter s)) := rfl

/-- Every statement that `gen` meets directly in `n` is lowered with the
break and continue positions of `n`, at a position not before that of
`n`. -/
theorem visits_scope (E : GenEnv) (n : Node) :
    ∀ s, ∀ v ∈ visits E n s,
      v.2.breakpc = s.breakpc ∧ v.2.continpc = s.continpc ∧ s.pc ≤ v.2.pc := by
  induction n with
  | Z => intro s v hv; simp [visits] at hv
  | OEXPR e => intro s v hv; simp [visits] at hv
  | OUSED e => intro s v hv; simp [visits] at hv
  | ORETURN e => intro s v hv; simp [visits] at hv
  | OGOTO left => intro s v hv; simp [visits] at hv
  | OSWITCH left right ih => intro s v hv; simp [visits] at hv
  | OWHILE left right ih => intro s v hv; simp [visits] at hv; subst hv; simp
  | ODWHILE left right ih => intro s v hv; simp [visits] at hv; subst hv; simp
  | OCONTINUE => intro s v hv; simp [visits] at hv; subst hv; simp
  | OBREAK => intro s v hv; simp [visits] at hv; subst hv; simp
  | OLIST left right ihl ihr =>
    intro s v hv
    simp only [visits, reachcheck_true, List.mem_append] at hv
    rcases hv with h | h
    · exact ihl s v h
    · have h1 := ihr _ v h
      have h2 := gen_scope E left s
      have h3 := gen_grow E left s
      exact ⟨h1.1.trans h2.1, h1.2.1.trans h2.2.1, le_trans h3.1 h1.2.2⟩
  | OLABEL left right ih =>
    intro s v hv
    simp only [visits, reachcheck_true] at hv
    have h1 := ih _ v hv
    have h2 := labelstmt_scope left s
    have h3 := labelstmt_grow left s
    exact ⟨h1.1.trans h2.1, h1.2.1.trans h2.2.1, le_trans h3.1 h1.2.2⟩
  | OCASE left right ih =>
    intro s v hv
    simp only [visits, reachcheck_true] at hv
    have h1 := ih _ v hv
    have h2 := casestmt_scope left s
    have h3 := casestmt_grow left s
    exact ⟨h1.1.trans h2.1, h1.2.1.trans h2.2.1, le_trans h3.1 h1.2.2⟩
  | OFOR init test inc right ihi iht ihb =>
    intro s v hv
    simp only [visits, reachcheck_true, List.mem_cons] at hv
    rcases hv with h | h
    · subst h; simp
    · have h1 := ihi _ v h
      simpa using h1
  | OIF left thn els iht ihe =>
    intro s v hv
    have hb := bcomplex_scope E left (some (.OLIST thn els)) (reachcheck false s)
    have hg := bcomplex_grow E left (some (.OLIST thn els)) (reachcheck false s)
    simp only [reachcheck_breakpc, reachcheck_continpc, reachcheck_pc] at hb hg
    simp only [visits] at hv
    generalize (bcomplex E left (some (.OLIST thn els)) (reachcheck false s)) = r at hb hg hv
    generalize (if left.typefd then left.fconst0 else decide (left.vconst = 0)) = f at hv
    have A1 := supgen_scope (gen E thn) thn (reach r.2) (gen_scope E thn)
    have A2 := supgen_grow (gen E thn) thn (reach r.2) (gen_grow E thn)
    have B1 := gen_scope E thn (reach r.2)
    have B2 := gen_grow E thn (reach r.2)
    simp only [reach_breakpc, reach_continpc, reach_pc] at A1 A2 B1 B2
    split_ifs at hv <;> simp only [List.mem_append] at hv <;> rcases hv with h | h
    · have h1 := iht _ v h
      simp only [enter, reach_breakpc, reach_continpc, reach_pc] at h1
      exact ⟨h1.1.trans hb.1, h1.2.1.trans hb.2.1, le_trans hg.1 h1.2.2⟩
    · have h1 := ihe _ v h
      simp only [reach_breakpc, reach_continpc, reach_pc] at h1
      exact ⟨h1.1.trans (A1.1.trans hb.1), h1.2.1.trans (A1.2.1.trans hb.2.1),
        le_trans hg.1 (le_trans A2.1 h1.2.2)⟩
    · have h1 := iht _ v h
      simp only [reach_breakpc, reach_continpc, reach_pc] at h1
      exact ⟨h1.1.trans hb.1, h1.2.1.trans hb.2.1, le_trans hg.1 h1.2.2⟩
    · have h1 := ihe _ v h
      simp only [enter, reach_breakpc, reach_continpc, reach_pc] at h1
      exact ⟨h1.1.trans (B1.1.trans hb.1), h1.2.1.trans (B1.2.1.trans hb.2.1),
        le_trans hg.1 (le_trans B2.1 h1.2.2)⟩
    · have h1 := iht _ v h
      simp only [reach_breakpc, reach_continpc, reach_pc] at h1
      exact ⟨h1.1.trans hb.1, h1.2.1.trans hb.2.1, le_trans hg.1 h1.2.2⟩
    · have h1 := ihe _ v h
      simp only [patch_breakpc, patch_continpc, patch_pc, gbranch_breakpc, gbranch_continpc,
        gbranch_pc, reach_breakpc, reach_continpc, reach_pc] at h1
      exact ⟨h1.1.trans (B1.1.trans hb.1), h1.2.1.trans (B1.2.1.trans hb.2.1),
        le_trans hg.1 (le_trans B2.1 (le_trans (by omega) h1.2.2))⟩

/-! ## Counting the reachable breaks -/

theorem breaks_list (E : GenEnv) (left right : Node) (s : GenState) :
    breaks E (.OLIST left right) s = breaks E left s + breaks E right (gen E left s) := by
  simp [breaks, visits, List.filter_append]

theorem breaks_label (E : GenEnv) (left : Option Label) (right : Node) (s : GenState) :
    breaks E (.OLABEL left right) s = breaks E right (labelstmt left s) := by
  simp [breaks, visits]

theorem breaks_case (E : GenEnv) (left : Option Expr) (right : Node) (s : GenState) :
    breaks E (.OCASE left right) s = breaks E right (casestmt left s) := by
  simp [breaks, visits]

theorem breaks_for (E : GenEnv) (init : Node) (test : Option Expr) (inc right : Node)
    (s : GenState) :
    breaks E (.OFOR init test inc right) s = breaks E init (forwarn (!init.isZ) s) := by
  simp [breaks, visits, List.filter_cons]

theorem breaks_break (E : GenEnv) (s : GenState) :
    breaks E .OBREAK s = if s.canreach then 1 else 0 := by
  cases h : s.canreach <;> simp [breaks, visits, h]

theorem breaks_Z (E : GenEnv) (s : GenState) : breaks E .Z s = 0 := by
  simp [breaks, visits]

theorem breaks_if (E : GenEnv) (left : Expr) (thn els : Node) (s : GenState) :
    breaks E (.OIF left thn els) s =
      if (bcomplex E left (some (.OLIST thn els)) (reachcheck false s)).1 then
        if (if left.typefd then left.fconst0 else decide (left.vconst = 0)) then
          breaks E thn
              (enter (reach (bcomplex E left (some (.OLIST thn els)) (reachcheck false s)).2)) +
            breaks E els (reach (supgen (gen E thn) thn
              (reach (bcomplex E left (some (.OLIST thn els)) (reachcheck false s)).2)))
        else
          breaks E thn (reach (bcomplex E left (some (.OLIST thn els)) (reachcheck false s)).2) +
            breaks E els (enter (reach (gen E thn
              (reach (bcomplex E left (some (.OLIST thn els)) (reachcheck false s)).2))))
      else
        breaks E thn (reach (bcomplex E left (some (.OLIST thn els)) (reachcheck false s)).2) +
          breaks E els
            (patch (bcomplex E left (some (.OLIST thn els)) (reachcheck false s)).2.p
              (gbranch .OGOTO (reach (gen E thn
                (reach (bcomplex E left (some (.OLIST thn els)) (reachcheck false s)).2)))).pc
              (gbranch .OGOTO (reach (gen E thn
                (reach (bcomplex E left (some (.OLIST thn els)) (reachcheck false s)).2))))) := by
  simp only [breaks, visits]
  split_ifs <;> simp [List.filter_append]

theorem breakstmt_nbreak (s : GenState) (h : 0 ≤ s.breakpc) :
    (breakstmt s).nbreak = s.nbreak + (if s.canreach then 1 else 0) := by
  unfold breakstmt
  rw [if_neg (not_lt.mpr h)]
  cases hc : s.canreach <;> simp

theorem supgen_nbreak_eq (f : GenState → GenState) (n : Node) (s : GenState) :
    (supgen f n s).nbreak = if n.isZ then s.nbreak else (f (enter s)).nbreak := by
  unfold supgen
  split <;> simp [leave]

/-- After a statement, `nbreak` has grown by the number of reachable breaks
directly in it. -/
theorem gen_nbreak_count (E : GenEnv) (n : Node) :
    ∀ s, 0 ≤ s.breakpc → (gen E n s).nbreak = s.nbreak + breaks E n s := by
  induction n with
  | Z => intro s _; simp [gen, breaks, visits]
  | OEXPR e => intro s _; simp [gen, breaks, visits]
  | OUSED e => intro s _; simp [gen, breaks, visits]
  | ORETURN e => intro s _; simp [gen, breaks, visits, returnstmt_counts]
  | OGOTO left => intro s _; simp [gen, breaks, visits, gotostmt_counts]
  | OSWITCH left right ih =>
    intro s _
    simp only [gen]
    split_ifs <;> simp [switchtail_counts, breaks, visits]
  | OWHILE left right ih => intro s _; simp [gen, whiletail_counts, breaks, visits]
  | ODWHILE left right ih => intro s _; simp [gen, whiletail_counts, breaks, visits]
  | OCONTINUE => intro s _; simp [gen, continuestmt_counts, breaks, visits]
  | OBREAK =>
    intro s h
    simp only [gen, reachcheck_true, breakstmt_nbreak s h, breaks_break]
    split <;> simp
  | OLIST left right ihl ihr =>
    intro s h
    have h2 : 0 ≤ (gen E left s).breakpc := by rw [(gen_scope E left s).1]; exact h
    simp only [gen, reachcheck_true, breaks_list, ihr _ h2, ihl _ h]
    push_cast
    ring
  | OLABEL left right ih =>
    intro s h
    have h2 : 0 ≤ (labelstmt left s).breakpc := by rw [(labelstmt_scope left s).1]; exact h
    simp only [gen, reachcheck_true, breaks_label, ih _ h2, (labelstmt_counts left s).1]
  | OCASE left right ih =>
    intro s h
    have h2 : 0 ≤ (casestmt left s).breakpc := by rw [(casestmt_scope left s).1]; exact h
    simp only [gen, reachcheck_true, breaks_case, ih _ h2, (casestmt_counts left s).1]
  | OFOR init test inc right ihi iht ihb =>
    intro s h
    have h2 : 0 ≤ (forwarn (!init.isZ) s).breakpc := by simpa using h
    simp only [gen, reachcheck_true, breaks_for, (fortail_counts _ _ _).1, ihi _ h2,
      forwarn_nbreak]
  | OIF left thn els iht ihe =>
    intro s h
    have hb := bcomplex_scope E left (some (.OLIST thn els)) (reachcheck false s)
    have hc := bcomplex_counts E left (some (.OLIST thn els)) (reachcheck false s)
    simp only [reachcheck_breakpc, reachcheck_nbreak] at hb hc
    rw [breaks_if]
    simp only [gen]
    generalize (bcomplex E left (some (.OLIST thn els)) (reachcheck false s)) = r at hb hc ⊢
    generalize (if left.typefd then left.fconst0 else decide (left.vconst = 0)) = f
    have hr : 0 ≤ (reach r.2).breakpc := by simpa [hb.1] using h
    have he0 : 0 ≤ (enter (reach r.2)).breakpc := by simpa [enter, hb.1] using h
    have T1 := iht _ hr
    have T2 := iht _ he0
    have S1 := supgen_scope (gen E thn) thn (reach r.2) (gen_scope E thn)
    have G1 := gen_scope E thn (reach r.2)
    have hz : ∀ t, thn.isZ = true → breaks E thn t = 0 := by
      intro t ht; rw [isZ_eq thn ht]; exact breaks_Z E t
    have hze : ∀ t, els.isZ = true → breaks E els t = 0 := by
      intro t ht; rw [isZ_eq els ht]; exact breaks_Z E t
    have hgz : ∀ t, thn.isZ = true → gen E thn t = t := by
      intro t ht; rw [isZ_eq thn ht]; simp [gen]
    by_cases c1 : r.1 = true
    · cases f
      · -- constant, true
        have E1 := ihe (enter (reach (gen E thn (reach r.2))))
          (by simpa [enter, G1.1, hb.1] using h)
        simp only [c1, if_true, Bool.false_eq_true, if_false]
        rw [(ifconsttrue_counts _ _ _).1, supgen_nbreak_eq]
        by_cases hz1 : els.isZ = true
        · simp [hz1, hze _ hz1, T1, hc.1]
        · simp only [hz1, Bool.false_eq_true, if_false, E1]
          simp [enter, T1, hc.1]
          ring
      · -- constant, false
        have E1 := ihe (reach (supgen (gen E thn) thn (reach r.2)))
          (by simpa [S1.1, hb.1] using h)
        simp only [c1, if_true]
        rw [(ifconstfalse_counts _ _ _).1, E1, reach_nbreak, supgen_nbreak_eq]
        by_cases hz1 : thn.isZ = true
        · simp [hz1, hz _ hz1, hc.1]
        · simp only [hz1, Bool.false_eq_true, if_false, T2]
          simp [enter, hc.1]
          ring
    · -- not constant
      have E1 := ihe (patch r.2.p (gbranch .OGOTO (reach (gen E thn (reach r.2)))).pc
        (gbranch .OGOTO (reach (gen E thn (reach r.2))))) (by simpa [G1.1, hb.1] using h)
      simp only [c1, if_false, Bool.false_eq_true]
      by_cases hz1 : thn.isZ = true
      · rw [hgz _ hz1] at E1 ⊢
        simp only [gbranch_pc, reach_pc, patch_nbreak, gbranch_nbreak, reach_nbreak] at E1 ⊢
        by_cases hz2 : els.isZ = true
        · simp [hz1, hz2, (ifend_counts _ _ _).1, hc.1, hz _ hz1, hze _ hz2]
        · simp [hz1, hz2, (ifend_counts _ _ _).1, hc.1, hz _ hz1, E1]
      · simp only [gbranch_pc, reach_pc, patch_nbreak, gbranch_nbreak, reach_nbreak] at E1 ⊢
        by_cases hz2 : els.isZ = true
        · simp [hz1, hz2, (ifend_counts _ _ _).1, hc.1, T1, hze _ hz2]
        · simp [hz1, hz2, (ifend_counts _ _ _).1, hc.1, T1, E1]
          ring

/-! ## Reachability after a `while` or `do-while` loop -/

theorem whilehead_nbreak (E : GenEnv) (isdo : Bool) (l : Expr) (s : GenState) :
    (whilehead E isdo l s).nbreak =
      if (!l.oconst || decide (l.vconstval = 0)) = true then 1 else 0 := by
  unfold whilehead
  simp only
  have h := fun c t => (bcomplex_counts E l c t).1
  cases isdo <;> simp only [Bool.false_eq_true, if_false, if_true] <;> split_ifs <;> simp [h]

theorem whiletail_canreach (s0 t : GenState) :
    (whiletail s0 t).canreach = decide (t.nbreak ≠ 0) ∧
      (t.nbreak = 0 → (whiletail s0 t).warnreach = decide (t.suppress = 0)) := by
  unfold whiletail reachexit
  simp only
  constructor
  · split_ifs with h
    · simpa using h
    · simpa using h
  · intro h
    simp [h]

theorem while_canreach (E : GenEnv) (isdo : Bool) (l : Expr) (body : Node) (s : GenState)
    (hpc : 0 ≤ s.pc) :
    ((whiletail s (gen E body (whilehead E isdo l s))).canreach = true ↔
        ¬ (l.oconst = true ∧ l.vconstval ≠ 0) ∨ 0 < breaks E body (whilehead E isdo l s)) ∧
      (l.oconst = true → l.vconstval ≠ 0 → breaks E body (whilehead E isdo l s) = 0 →
        (whiletail s (gen E body (whilehead E isdo l s))).canreach = false ∧
        (whiletail s (gen E body (whilehead E isdo l s))).warnreach =
          decide (s.suppress = 0)) := by
  have hs := whilehead_scope E isdo l s
  have hb : 0 ≤ (whilehead E isdo l s).breakpc := by rw [hs.1]; omega
  have hn := gen_nbreak_count E body _ hb
  have hc := whiletail_canreach s (gen E body (whilehead E isdo l s))
  have hsup : (gen E body (whilehead E isdo l s)).suppress = s.suppress := by
    rw [(gen_scope E body _).2.2, hs.2.2]
  rw [whilehead_nbreak] at hn
  constructor
  · rw [hc.1, hn]
    by_cases h1 : l.oconst = true
    · by_cases h2 : l.vconstval = 0
      · simp [h1, h2]; omega
      · simp [h1, h2]; omega
    · simp [h1]; omega
  · intro h1 h2 h3
    have h0 : (gen E body (whilehead E isdo l s)).nbreak = 0 := by
      rw [hn, h3]; simp [h1, h2]
    refine ⟨?_, ?_⟩
    · rw [hc.1, h0]; simp
    · rw [hc.2 h0, hsup]

theorem loop_gen_eq (E : GenEnv) (L : Loop) (b : Node) (s : GenState) :
    gen E (L.node b) s = L.finish E s (gen E b (L.bodystate E b s)) := by
  cases L <;> simp [Loop.node, Loop.finish, Loop.bodystate, gen]

/-- The positions that a loop sets for its body lie after the position at
which the loop starts and before the position at which the body starts. -/
theorem loop_body_scope (E : GenEnv) (L : Loop) (b : Node) (s : GenState) :
    s.pc + 1 ≤ (L.bodystate E b s).continpc ∧ s.pc + 2 ≤ (L.bodystate E b s).breakpc ∧
      (L.bodystate E b s).continpc < (L.bodystate E b s).pc ∧
      (L.bodystate E b s).breakpc < (L.bodystate E b s).pc := by
  cases L with
  | whileloop l =>
    have h1 := whilehead_scope E false l s
    have h2 := whilehead_grow E false l s
    simp only [Loop.bodystate, reachcheck_true]
    refine ⟨?_, ?_, ?_, ?_⟩ <;> omega
  | dowhile l =>
    have h1 := whilehead_scope E true l s
    have h2 := whilehead_grow E true l s
    simp only [Loop.bodystate, reachcheck_true]
    refine ⟨?_, ?_, ?_, ?_⟩ <;> omega
  | forloop init test inc =>
    simp only [Loop.bodystate, reachcheck_true]
    have h0 := gen_grow E init (forwarn (!init.isZ) s)
    simp only [forwarn_pc] at h0
    generalize gen E init (forwarn (!init.isZ) s) = e at h0 ⊢
    have h1 := forhead_scope E (.OFOR init test inc b) e
    have h2 := forhead_grow E (.OFOR init test inc b) e
    generalize forhead E (.OFOR init test inc b) e = a at h1 h2 ⊢
    have h3 := gen_scope E inc a
    have h4 := gen_grow E inc a
    generalize gen E inc a = c at h3 h4 ⊢
    have h5 := fortest_scope E test e c
    have h6 := fortest_grow E test e c
    refine ⟨?_, ?_, ?_, ?_⟩ <;> omega

theorem break_patched (E : GenEnv) (t : GenState) (hr : t.canreach = true)
    (hb : 0 ≤ t.breakpc) :
    lastprog (gen E .OBREAK t) = some { id := t.nprog, as := .AJMP, to_ := some t.breakpc } := by
  simp [gen, breakstmt, hr, not_lt.mpr hb, lastprog, patch, gbranch, nextpc, rearm]

theorem continue_patched (E : GenEnv) (t : GenState) (hb : 0 ≤ t.continpc) :
    lastprog (gen E .OCONTINUE t) =
      some { id := t.nprog, as := .AJMP, to_ := some t.continpc } := by
  have h1 := reachcheck_continpc false t
  have h2 := reachcheck_nprog false t
  simp only [gen]
  generalize reachcheck false t = u at h1 h2
  rw [← h1, ← h2]
  rw [← h1] at hb
  simp [continuestmt, not_lt.mpr hb, lastprog, patch, gbranch, nextpc, rearm]

theorem stays_refl (k : Nat) (p : List Prog) : Stays k p p := fun _ _ h _ => h

theorem stays_trans {k : Nat} {p l m : List Prog} (h1 : Stays k p l) (h2 : Stays k l m) :
    Stays k p m := fun i q hq hk => h2 i q (h1 i q hq hk) hk

theorem stays_append {k : Nat} {p l : List Prog} (m : List Prog) (h : Stays k p l) :
    Stays k p (l ++ m) := by
  intro i q hq hk
  have h1 := h i q hq hk
  have hi : i < l.length := by
    by_contra hne
    rw [List.getElem?_eq_none (not_lt.mp hne)] at h1
    exact absurd h1 (by simp)
  rw [List.getElem?_append_left hi]
  exact h1

theorem stays_map {k op : Nat} {p l : List Prog} (x : Int) (hop : op ≠ k) (h : Stays k p l) :
    Stays k p (l.map (fun q => if q.id = op then { q with to_ := some x } else q)) := by
  intro i q hq hk
  have h1 := h i q hq hk
  rw [List.getElem?_map, h1]
  have : ¬ q.id = op := by rw [hk]; exact fun e => hop e.symm
  simp [this]

theorem stays_take {k : Nat} {p l : List Prog} (h : Stays k p l) :
    Stays k p (l.take p.length) := by
  intro i q hq hk
  have h1 := h i q hq hk
  have hi : i < p.length := by
    by_contra hne
    rw [List.getElem?_eq_none (not_lt.mp hne)] at hq
    exact absurd hq (by simp)
  rw [List.getElem?_take_of_lt hi]
  exact h1

theorem stays_patch {k op : Nat} {p : List Prog} (x : Int) (t : GenState) (hop : op ≠ k)
    (h : Stays k p t.prog) : Stays k p (patch op x t).prog :=
  stays_map x hop h

theorem stays_nextpc {k : Nat} {p : List Prog} (a : As) (t : GenState)
    (h : Stays k p t.prog) : Stays k p (nextpc a t).prog :=
  stays_append _ h

theorem stays_gbranch {k : Nat} {p : List Prog} (o : BranchOp) (t : GenState)
    (h : Stays k p t.prog) : Stays k p (gbranch o t).prog := by
  cases o <;> exact stays_append _ h

theorem stays_emit {k : Nat} {p : List Prog} (n : Nat) (t : GenState)
    (h : Stays k p t.prog) : Stays k p (emit n t).prog := by
  induction n generalizing t with
  | zero => exact h
  | succ n ih => exact ih _ (stays_nextpc _ t h)

theorem stays_bcomplex {k : Nat} {p : List Prog} (E : GenEnv) (n : Expr) (c : Option Node)
    (t : GenState) (h : Stays k p t.prog) : Stays k p (bcomplex E n c t).2.prog := by
  unfold bcomplex
  split
  · exact stays_gbranch _ _ h
  · split
    · split
      · exact h
      · exact stays_nextpc _ _ (stays_emit _ _ h)
    · exact stays_nextpc _ _ (stays_emit _ _ h)

theorem bcomplex_p (E : GenEnv) (n : Expr) (c : Option Node) (t : GenState)
    (h : (bcomplex E n c t).1 = false) : t.nprog ≤ (bcomplex E n c t).2.p := by
  unfold bcomplex at h ⊢
  split
  · simp
  · rename_i h0
    split
    · split
      · rename_i h3
        simp [h0, h3] at h
      · simp
    · simp

theorem bcomplex_none (E : GenEnv) (n : Expr) (t : GenState) :
    (bcomplex E n none t).1 = false := by
  unfold bcomplex
  split <;> rfl

theorem bcomplex_labels (E : GenEnv) (n : Expr) (c : Option Node) (t : GenState) :
    (bcomplex E n c t).2.labels = t.labels := by
  unfold bcomplex
  split
  · simp
  · split
    · split <;> simp
    · simp

theorem stays_bcomplex_patch {k : Nat} {p : List Prog} (E : GenEnv) (l : Expr) (x : Int)
    (t : GenState) (hk : k < t.nprog) (h : Stays k p t.prog) :
    Stays k p (patch (bcomplex E l none t).2.p x (bcomplex E l none t).2).prog := by
  have hp := bcomplex_p E l none t (bcomplex_none E l t)
  exact stays_patch _ _ (by omega) (stays_bcomplex E l none t h)

theorem stays_reachcheck {k : Nat} {p : List Prog} (b : Bool) (t : GenState)
    (h : Stays k p t.prog) : Stays k p (reachcheck b t).prog := by
  rw [reachcheck_prog]; exact h

theorem stays_forwarn {k : Nat} {p : List Prog} (b : Bool) (t : GenState)
    (h : Stays k p t.prog) : Stays k p (forwarn b t).prog := by
  rw [forwarn_prog]; exact h

theorem reachexit_prog (s : GenState) : (reachexit s).prog = s.prog := by
  unfold reachexit; split <;> rfl

theorem reachexit_labels (s : GenState) : (reachexit s).labels = s.labels := by
  unfold reachexit; split <;> rfl

theorem whilehead_stays {k : Nat} {p : List Prog} (E : GenEnv) (isdo : Bool) (l : Expr)
    (s : GenState) (hk : k < s.nprog) (h : Stays k p s.prog) :
    Stays k p (whilehead E isdo l s).prog := by
  have hg := fun t => (bcomplex_grow E l none t).2
  unfold whilehead
  simp only
  cases isdo <;> simp only [Bool.false_eq_true, if_false, if_true] <;> split_ifs <;>
    repeat' first
      | exact h
      | apply stays_bcomplex_patch
      | apply stays_patch
      | apply stays_gbranch
      | omega
      | (simp only [gbranch_nprog, patch_nprog]; omega)

theorem whilehead_labels (E : GenEnv) (isdo : Bool) (l : Expr) (s : GenState) :
    (whilehead E isdo l s).labels = s.labels := by
  unfold whilehead
  simp only
  cases isdo <;> simp only [Bool.false_eq_true, if_false, if_true] <;> split_ifs <;>
    simp [bcomplex_labels]

theorem keeps_refl {k lid : Nat} {s : GenState} (h : Inv k lid s) : Keeps k lid s s :=
  ⟨h, rfl, stays_refl _ _⟩

theorem keeps_trans {k lid : Nat} {s t u : GenState} (h1 : Keeps k lid s t)
    (h2 : Keeps k lid t u) : Keeps k lid s u :=
  ⟨h2.1, h2.2.1.trans h1.2.1, stays_trans h1.2.2 h2.2.2⟩

theorem keeps_of {k lid : Nat} {s t : GenState} (hl : t.labels = s.labels)
    (hn : s.nprog ≤ t.nprog) (hs : Stays k s.prog t.prog) (h : Inv k lid s) :
    Keeps k lid s t :=
  ⟨⟨lt_of_lt_of_le h.1 hn, by rw [hl]; exact h.2⟩, by rw [hl], hs⟩

theorem emit_labels_keeps {k lid : Nat} (n : Nat) (s : GenState) (h : Inv k lid s) :
    Keeps k lid s (emit n s) :=
  keeps_of (emit_labels n s) (by simp) (stays_emit n s (stays_refl _ _)) h

theorem returnstmt_keeps {k lid : Nat} (e : Expr) (s : GenState) (h : Inv k lid s) :
    Keeps k lid s (returnstmt e s) := by
  refine keeps_of ?_ (returnstmt_grow e s).2 ?_ h
  · unfold returnstmt; simp only; split <;> simp
  · unfold returnstmt
    simp only
    split
    · exact stays_refl _ _
    · exact stays_gbranch _ _ (stays_emit _ _ (stays_refl _ _))

theorem casestmt_keeps {k lid : Nat} (l : Option Expr) (s : GenState) (h : Inv k lid s) :
    Keeps k lid s (casestmt l s) := by
  have hp : (casestmt l s).prog = s.prog ∧ (casestmt l s).labels = s.labels := by
    unfold casestmt
    cases l with
    | none => simp only; split <;> simp
    | some l =>
      simp only
      split
      · split <;> simp
      · split <;> split <;> simp
  refine keeps_of hp.2 (casestmt_grow l s).2 ?_ h
  rw [hp.1]; exact stays_refl _ _

theorem continuestmt_keeps {k lid : Nat} (s : GenState) (h : Inv k lid s) :
    Keeps k lid s (continuestmt s) := by
  have hk := h.1
  refine keeps_of ?_ (continuestmt_grow s).2 ?_ h
  · unfold continuestmt; split <;> simp
  · unfold continuestmt
    split
    · exact stays_refl _ _
    · exact stays_patch _ _ (by simp; omega) (stays_gbranch _ _ (stays_refl _ _))

theorem breakstmt_keeps {k lid : Nat} (s : GenState) (h : Inv k lid s) :
    Keeps k lid s (breakstmt s) := by
  have hk := h.1
  refine keeps_of ?_ (breakstmt_grow s).2 ?_ h
  · unfold breakstmt
    split
    · simp
    · split <;> simp
  · unfold breakstmt
    split
    · exact stays_refl _ _
    · split
      · exact stays_refl _ _
      · exact stays_patch _ _ (by simp; omega) (stays_gbranch _ _ (stays_refl _ _))

theorem reachcheck_keeps {k lid : Nat} (b : Bool) (s : GenState) (h : Inv k lid s) :
    Keeps k lid s (reachcheck b s) :=
  keeps_of (reachcheck_labels b s) (by simp) (by rw [reachcheck_prog]; exact stays_refl _ _) h

theorem forwarn_keeps {k lid : Nat} (b : Bool) (s : GenState) (h : Inv k lid s) :
    Keeps k lid s (forwarn b s) :=
  keeps_of (forwarn_labels b s) (by simp) (by rw [forwarn_prog]; exact stays_refl _ _) h

theorem reach_keeps {k lid : Nat} (s : GenState) (h : Inv k lid s) :
    Keeps k lid s (reach s) :=
  keeps_of rfl (le_refl _) (stays_refl _ _) h

theorem enter_keeps {k lid : Nat} (s : GenState) (h : Inv k lid s) :
    Keeps k lid s (enter s) :=
  keeps_of rfl (le_refl _) (stays_refl _ _) h

theorem bcomplex_keeps {k lid : Nat} (E : GenEnv) (n : Expr) (c : Option Node) (s : GenState)
    (h : Inv k lid s) : Keeps k lid s (bcomplex E n c s).2 :=
  keeps_of (bcomplex_labels E n c s) (bcomplex_grow E n c s).2
    (stays_bcomplex E n c s (stays_refl _ _)) h

theorem switchhead_keeps {k lid : Nat} (s : GenState) (h : Inv k lid s) :
    Keeps k lid s (switchhead s) := by
  refine keeps_of ?_ (by rw [switchhead_nprog]; omega) ?_ h
  · simp [switchhead]
  · unfold switchhead
    exact stays_gbranch _ _ (stays_gbranch _ _ (stays_refl _ _))

theorem switchtail_keeps {k lid : Nat} (E : GenEnv) (l : Expr) (s0 s : GenState)
    (hk0 : k < s0.nprog) (h : Inv k lid s) : Keeps k lid s (switchtail E l s0 s) := by
  have hk := h.1
  refine keeps_of ?_ (switchtail_grow E l s0 s).2 ?_ h
  · unfold switchtail
    simp only
    split <;> simp [reachexit_labels]
  · unfold switchtail
    simp only
    rw [reachexit_prog]
    split <;>
    repeat' first
      | exact stays_refl _ _
      | apply stays_patch
      | apply stays_emit
      | apply stays_gbranch
      | omega
      | (simp only [gbranch_p]; omega)

theorem whilehead_keeps {k lid : Nat} (E : GenEnv) (isdo : Bool) (l : Expr) (s : GenState)
    (h : Inv k lid s) : Keeps k lid s (whilehead E isdo l s) :=
  keeps_of (whilehead_labels E isdo l s) (by have := (whilehead_grow E isdo l s).2; omega)
    (whilehead_stays E isdo l s h.1 (stays_refl _ _)) h

theorem whiletail_keeps {k lid : Nat} (s0 s : GenState) (hk0 : k < s0.nprog)
    (h : Inv k lid s) : Keeps k lid s (whiletail s0 s) := by
  have hk := h.1
  refine keeps_of ?_ (whiletail_grow s0 s).2 ?_ h
  · unfold whiletail
    simp [reachexit_labels]
  · unfold whiletail
    simp only
    rw [reachexit_prog]
    repeat' first
      | exact stays_refl _ _
      | apply stays_patch
      | apply stays_gbranch
      | omega
      | (simp only [gbranch_p]; omega)

theorem forhead_keeps {k lid : Nat} (E : GenEnv) (n : Node) (e : GenState)
    (h : Inv k lid e) : Keeps k lid e (forhead E n e) := by
  have hk := h.1
  refine keeps_of ?_ (by have := (forhead_grow E n e).2; omega) ?_ h
  · unfold forhead
    simp only
    split <;> simp
  · unfold forhead
    simp only
    split <;>
    repeat' first
      | exact stays_refl _ _
      | apply stays_patch
      | apply stays_gbranch
      | omega

theorem fortest_keeps {k lid : Nat} (E : GenEnv) (test : Option Expr) (e s : GenState)
    (hk0 : k < e.nprog) (h : Inv k lid s) : Keeps k lid s (fortest E test e s) := by
  have hk := h.1
  refine keeps_of ?_ (fortest_grow E test e s).2 ?_ h
  · unfold fortest
    cases test with
    | none => simp
    | some l => simp only; split <;> simp [bcomplex_labels]
  · unfold fortest
    cases test with
    | none => exact stays_patch _ _ (by omega) (stays_refl _ _)
    | some l =>
      simp only
      split <;>
      repeat' first
        | exact stays_refl _ _
        | apply stays_bcomplex_patch
        | apply stays_patch
        | omega
        | (simp only [patch_nprog]; omega)

theorem fortail_keeps {k lid : Nat} (hasinc : Bool) (e s : GenState)
    (hk0 : k < e.nprog) (h : Inv k lid s) : Keeps k lid s (fortail hasinc e s) := by
  have hk := h.1
  refine keeps_of ?_ (fortail_grow hasinc e s).2 ?_ h
  · unfold fortail
    simp only
    split <;> split <;> simp [reachexit_labels]
  · unfold fortail
    simp only
    rw [reachexit_prog]
    split <;> split <;>
    repeat' first
      | exact stays_refl _ _
      | apply stays_patch
      | apply stays_gbranch
      | omega
      | (simp only [gbranch_p]; omega)

theorem ifend_keeps {k lid : Nat} (sp : Nat) (o : Bool) (s : GenState) (hsp : sp ≠ k)
    (h : Inv k lid s) : Keeps k lid s (ifend sp o s) := by
  refine keeps_of ?_ (by rw [ifend_nprog]) ?_ h
  · unfold ifend
    simp only
    split <;> simp
  · unfold ifend
    simp only
    split <;> exact stays_patch _ _ hsp (stays_refl _ _)

theorem ifconstfalse_keeps {k lid : Nat} (E : GenEnv) (t1 t2 : GenState)
    (h : Inv k lid t2) : Keeps k lid t2 (ifconstfalse E t1 t2) := by
  refine keeps_of ?_ (by rw [(ifconstfalse_pc E t1 t2).2]) ?_ h
  · unfold ifconstfalse; split <;> simp
  · unfold ifconstfalse; split <;> exact stays_refl _ _

theorem ifconsttrue_keeps {k lid : Nat} (E : GenEnv) (t1 t2 : GenState)
    (h : Inv k lid t2) : Keeps k lid t2 (ifconsttrue E t1 t2) := by
  refine keeps_of ?_ (by rw [(ifconsttrue_pc E t1 t2).2]) ?_ h
  · unfold ifconsttrue; simp only; split <;> simp
  · unfold ifconsttrue; simp only; split <;> exact stays_refl _ _

theorem supgen_keeps {k lid : Nat} (f : GenState → GenState) (n : Node) (s : GenState)
    (hf : ∀ t, Inv k lid t → Keeps k lid t (f t)) (h : Inv k lid s) :
    Keeps k lid s (supgen f n s) := by
  unfold supgen
  split
  · exact keeps_refl h
  · have h1 := hf (enter s) (enter_keeps s h).1
    exact ⟨⟨h1.1.1, h1.1.2⟩, h1.2.1, stays_take h1.2.2⟩

theorem setlabelpc_keeps {k lid : Nat} (id : Nat) (x : Int) (s : GenState) (hid : id ≠ lid)
    (h : Inv k lid s) : Keeps k lid s (setlabelpc id x s) := by
  refine ⟨⟨h.1, ?_⟩, ?_, stays_refl _ _⟩
  · intro y hy
    by_cases hyi : y = id
    · subst hyi
      simpa [setlabelpc] using h.2 y hy
    · simpa [setlabelpc, Function.update_noteq hyi] using h.2 y hy
  · simp [setlabelpc, Function.update_noteq (Ne.symm hid)]

theorem setpending_keeps {k lid : Nat} (id a : Nat) (s : GenState) (hid : id ≠ lid)
    (ha : a ≠ k) (h : Inv k lid s) : Keeps k lid s (setpending id a s) := by
  refine ⟨⟨h.1, ?_⟩, ?_, stays_refl _ _⟩
  · intro y hy
    by_cases hyi : y = id
    · subst hyi
      simpa [setpending] using ha
    · simpa [setpending, Function.update_noteq hyi] using h.2 y hy
  · simp [setpending, Function.update_noteq (Ne.symm hid)]

theorem patchpending_keeps {k lid : Nat} (id : Nat) (x : Int) (s : GenState) (hid : id ≠ lid)
    (h : Inv k lid s) : Keeps k lid s (patchpending id x s) := by
  have hpend := h.2 id hid
  refine keeps_of (patchpending_labels id x s) (by simp) ?_ h
  unfold patchpending
  cases hp : (s.labels id).label with
  | none => exact stays_refl _ _
  | some a =>
    have ha : a ≠ k := by
      intro e; rw [hp, e] at hpend; exact hpend rfl
    exact stays_patch _ _ ha (stays_refl _ _)

theorem jump_keeps {k lid : Nat} (s : GenState) (x : Int) (h : Inv k lid s) :
    Keeps k lid s (patch s.nprog x (gbranch .OGOTO s)) :=
  keeps_of (by simp) (by simp) (stays_patch _ _ (by have := h.1; omega)
    (stays_gbranch _ _ (stays_refl _ _))) h

theorem labelstmt_keeps {k lid : Nat} (l : Option Label) (s : GenState)
    (hl : ∀ lab, l = some lab → lab.id ≠ lid) (h : Inv k lid s) :
    Keeps k lid s (labelstmt l s) := by
  cases l with
  | none =>
    have h1 := reach_keeps s h
    exact keeps_trans h1 (by simpa using jump_keeps (reach s) ((reach s).pc + 1) h1.1)
  | some lab =>
    have hne := hl lab rfl
    have h1 := reach_keeps s h
    have h2 := setlabelpc_keeps lab.id (reach s).pc (reach s) hne h1.1
    have h3 := patchpending_keeps lab.id (reach s).pc _ hne h2.1
    have h4 := jump_keeps (patchpending lab.id (reach s).pc (setlabelpc lab.id (reach s).pc
      (reach s))) ((reach s).pc + 1) h3.1
    exact keeps_trans (keeps_trans (keeps_trans h1 h2) h3) (by simpa [labelstmt] using h4)

theorem gotostmt_keeps {k lid : Nat} (n : Option Label) (s : GenState)
    (hl : ∀ lab, n = some lab → lab.id ≠ lid) (h : Inv k lid s) :
    Keeps k lid s (gotostmt n s) := by
  have hk := h.1
  have h1 : Keeps k lid s (rearm { s with canreach := false }) :=
    keeps_of rfl (le_refl _) (stays_refl _ _) h
  cases n with
  | none => exact h1
  | some lab =>
    have hne := hl lab rfl
    unfold gotostmt
    simp only
    split
    · exact keeps_of rfl (le_refl _) (stays_refl _ _) h
    · split
      · exact h1
      · have h2 : Keeps k lid (rearm { s with canreach := false })
            (gbranch .OGOTO (rearm { s with canreach := false })) :=
          keeps_of (by simp) (by simp) (stays_gbranch _ _ (stays_refl _ _)) h1.1
        split
        · exact keeps_trans (keeps_trans h1 h2)
            (keeps_of (by simp) (by simp) (stays_patch _ _ (by simp; omega) (stays_refl _ _))
              h2.1)
        · have h3 := patchpending_keeps lab.id
            ((gbranch .OGOTO (rearm { s with canreach := false })).pc - 1) _ hne h2.1
          have h4 := setpending_keeps lab.id
            (gbranch .OGOTO (rearm { s with canreach := false })).p _ hne
            (by simp; omega) h3.1
          exact keeps_trans (keeps_trans (keeps_trans h1 h2) h3) h4

theorem report_keeps {k lid : Nat} (m : Msg) (s : GenState) (h : Inv k lid s) :
    Keeps k lid s (report m s) :=
  keeps_of rfl (le_refl _) (stays_refl _ _) h

/-- Statements that do not mention the label `lid` leave the record `k`
alone, whether it is the pending branch of `lid` or not. -/
theorem gen_keeps (E : GenEnv) (k lid : Nat) (n : Node) :
    ∀ s, mentions lid n = false → Inv k lid s → Keeps k lid s (gen E n s) := by
  induction n with
  | Z => intro s _ h; simpa [gen] using keeps_refl h
  | OEXPR e =>
    intro s _ h
    have h1 := reachcheck_keeps false s h
    simpa [gen] using keeps_trans h1 (emit_labels_keeps e.ninstr _ h1.1)
  | OUSED e =>
    intro s _ h
    have h1 := reachcheck_keeps false s h
    simpa [gen] using keeps_trans h1 (emit_labels_keeps e.ninstr _ h1.1)
  | OLIST left right ihl ihr =>
    intro s hm h
    simp only [mentions, Bool.or_eq_false_iff] at hm
    have h1 := ihl s hm.1 h
    simpa [gen] using keeps_trans h1 (ihr _ hm.2 h1.1)
  | ORETURN e =>
    intro s _ h
    have h1 := reachcheck_keeps false s h
    simpa [gen] using keeps_trans h1 (returnstmt_keeps e _ h1.1)
  | OLABEL left right ih =>
    intro s hm h
    have hl : (∀ lab, left = some lab → lab.id ≠ lid) ∧ mentions lid right = false := by
      cases left with
      | none => exact ⟨fun _ e => (by cases e), by simpa [mentions] using hm⟩
      | some lab =>
        simp only [mentions, Bool.or_eq_false_iff, decide_eq_false_iff_not] at hm
        exact ⟨fun _ e => (by cases e; exact hm.1), hm.2⟩
    have h1 := labelstmt_keeps left s hl.1 h
    simpa [gen] using keeps_trans h1 (ih _ hl.2 h1.1)
  | OGOTO left =>
    intro s hm h
    have hl : ∀ lab, left = some lab → lab.id ≠ lid := by
      intro lab e
      subst e
      simpa [mentions] using hm
    have h1 := reachcheck_keeps false s h
    simpa [gen] using keeps_trans h1 (gotostmt_keeps left _ hl h1.1)
  | OCASE left right ih =>
    intro s hm h
    simp only [mentions] at hm
    have h1 := casestmt_keeps left s h
    simpa [gen] using keeps_trans h1 (ih _ hm h1.1)
  | OSWITCH left right ih =>
    intro s hm h
    simp only [mentions] at hm
    have h0 := reachcheck_keeps false s h
    simp only [gen]
    split_ifs
    · exact h0
    · exact keeps_trans h0 (report_keeps _ _ h0.1)
    · have h1 := switchhead_keeps _ h0.1
      have h2 := ih _ hm h1.1
      have h3 := switchtail_keeps E left (reachcheck false s) _ h0.1.1 h2.1
      exact keeps_trans (keeps_trans (keeps_trans h0 h1) h2) h3
  | OWHILE left right ih =>
    intro s hm h
    simp only [mentions] at hm
    have h1 := whilehead_keeps E false left s h
    have h2 := ih _ hm h1.1
    have h3 := whiletail_keeps s _ h.1 h2.1
    simpa [gen] using keeps_trans (keeps_trans h1 h2) h3
  | ODWHILE left right ih =>
    intro s hm h
    simp only [mentions] at hm
    have h1 := whilehead_keeps E true left s h
    have h2 := ih _ hm h1.1
    have h3 := whiletail_keeps s _ h.1 h2.1
    simpa [gen] using keeps_trans (keeps_trans h1 h2) h3
  | OFOR init test inc right ihi iht ihb =>
    intro s hm h
    simp only [mentions, Bool.or_eq_false_iff] at hm
    have h0 := forwarn_keeps (!init.isZ) s h
    have h1 := ihi _ hm.1.1 h0.1
    have h2 := forhead_keeps E (.OFOR init test inc right) _ h1.1
    have h3 := iht _ hm.1.2 h2.1
    have h4 := fortest_keeps E test (gen E init (forwarn (!init.isZ) s)) _ h1.1.1 h3.1
    have h5 := ihb _ hm.2 h4.1
    have h6 := fortail_keeps (!inc.isZ) (gen E init (forwarn (!init.isZ) s)) _ h1.1.1 h5.1
    simpa [gen] using
      keeps_trans (keeps_trans (keeps_trans (keeps_trans (keeps_trans (keeps_trans h0 h1) h2)
        h3) h4) h5) h6
  | OCONTINUE =>
    intro s _ h
    have h1 := reachcheck_keeps false s h
    simpa [gen] using keeps_trans h1 (continuestmt_keeps _ h1.1)
  | OBREAK =>
    intro s _ h
    simpa [gen] using breakstmt_keeps s h
  | OIF left thn els iht ihe =>
    intro s hm h
    simp only [mentions, Bool.or_eq_false_iff] at hm
    have h0 := reachcheck_keeps false s h
    have hb := bcomplex_keeps E left (some (.OLIST thn els)) _ h0.1
    have hp := bcomplex_p E left (some (.OLIST thn els)) (reachcheck false s)
    have hk0 := h0.1.1
    simp only [gen]
    generalize (bcomplex E left (some (.OLIST thn els)) (reachcheck false s)) = r at hb hp ⊢
    generalize (if left.typefd then left.fconst0 else decide (left.vconst = 0)) = f
    have hr := reach_keeps r.2 hb.1
    have start := keeps_trans (keeps_trans h0 hb) hr
    by_cases c1 : r.1 = true
    · cases f
      · simp only [c1, if_true, Bool.false_eq_true, if_false]
        have h1 := iht _ hm.1 hr.1
        have h2 := reach_keeps _ h1.1
        have h3 := supgen_keeps (gen E els) els _ (fun t ht => ihe t hm.2 ht) h2.1
        have h4 := ifconsttrue_keeps E (gen E thn (reach r.2)) _ h3.1
        exact keeps_trans (keeps_trans (keeps_trans (keeps_trans start h1) h2) h3) h4
      · simp only [c1, if_true]
        have h1 := supgen_keeps (gen E thn) thn _ (fun t ht => iht t hm.1 ht) hr.1
        have h2 := reach_keeps _ h1.1
        have h3 := ihe _ hm.2 h2.1
        have h4 := ifconstfalse_keeps E (supgen (gen E thn) thn (reach r.2)) _ h3.1
        exact keeps_trans (keeps_trans (keeps_trans (keeps_trans start h1) h2) h3) h4
    · simp only [c1, Bool.false_eq_true, if_false]
      have hpk : r.2.p ≠ k := by
        have := hp (by simpa using c1)
        simp only [reachcheck_nprog] at this hk0
        omega
      have h1 : Keeps k lid (reach r.2)
          (if thn.isZ = true then reach r.2 else gen E thn (reach r.2)) := by
        split
        · exact keeps_refl hr.1
        · exact iht _ hm.1 hr.1
      generalize (if thn.isZ = true then reach r.2 else gen E thn (reach r.2)) = t1 at h1 ⊢
      have h2 := reach_keeps _ h1.1
      split
      · have h3 := ifend_keeps r.2.p t1.canreach _ hpk h2.1
        exact keeps_trans (keeps_trans (keeps_trans start h1) h2) h3
      · have h3 : Keeps k lid (reach t1)
            (patch r.2.p (gbranch .OGOTO (reach t1)).pc (gbranch .OGOTO (reach t1))) :=
          keeps_of (by simp) (by simp)
            (stays_patch _ _ hpk (stays_gbranch _ _ (stays_refl _ _))) h2.1
        have h4 := ihe _ hm.2 h3.1
        have h5 := ifend_keeps (gbranch .OGOTO (reach t1)).p t1.canreach _
          (by have := h2.1.1; simp at this ⊢; omega) h4.1
        exact keeps_trans (keeps_trans (keeps_trans (keeps_trans (keeps_trans start h1) h2)
          h3) h4) h5

/-! ## Forward gotos -/

/-- C15 (counterexample): in `goto L; goto L; L: ;`, lowered with
`suppress = 0` from the sample state, the label gets the position 3, the
jump of the second `goto` (record 2) gets the target 3, and the jump of the
first `goto` (record 1) gets the target 2, the position of the second
jump. -/
theorem forward_goto_counterexample :
    start.suppress = 0 ∧ ((gen plainE twogotos start).labels labelL.id).pc = 3 ∧
      (gen plainE twogotos start).prog =
        [{ id := 0, as := .ACODE, to_ := none }, { id := 1, as := .AJMP, to_ := some 2 },
         { id := 2, as := .AJMP, to_ := some 3 }, { id := 3, as := .AJMP, to_ := some 4 }] := by
  decide

theorem goto_forward (L : Label) (s : GenState) (hs : s.suppress = 0)
    (hL : L.complex = true) (hpc : (s.labels L.id).pc = 0) :
    gotostmt (some L) s =
      setpending L.id s.nprog
        (patchpending L.id s.pc (gbranch .OGOTO (rearm { s with canreach := false }))) := by
  unfold gotostmt
  simp [hL, hs, hpc]

theorem label_pending (L : Label) (k : Nat) (m : GenState)
    (hp : (m.labels L.id).label = some k) :
    labelstmt (some L) m =
      patch m.nprog (m.pc + 1)
        (gbranch .OGOTO (patch k m.pc (setlabelpc L.id m.pc (reach m)))) := by
  have h : ((setlabelpc L.id m.pc (reach m)).labels L.id).label = some k := by
    simp [setlabelpc, hp]
  unfold labelstmt
  simp [patchpending, h]

/-- C15: let `goto L` be lowered with `suppress = 0` before the label `L` has
been lowered, in a state whose pending branches are records that exist, and
let statements that do not mention `L` follow up to the label.  The `goto`
makes the jump `s.nprog` at the position `s.pc`, with its target pending,
and an earlier `goto L` whose jump was pending gets the position `s.pc` of
this jump as its target; after `gen` has lowered the label, the jump of
this `goto` has the position recorded for the label (`l->pc`) as its
target. -/
theorem forward_goto_resolved (E : GenEnv) (L : Label) (mid : Node) (s : GenState)
    (hs : s.suppress = 0) (hL : L.complex = true) (hpc : (s.labels L.id).pc = 0)
    (hwf : ∀ x a, (s.labels x).label = some a → a < s.nprog)
    (hmid : mentions L.id mid = false) :
    ((gen E (.OGOTO (some L)) s).labels L.id).label = some s.nprog ∧
      (gen E (.OGOTO (some L)) s).prog[s.prog.length]? =
        some { id := s.nprog, as := .AJMP, to_ := none } ∧
      (∀ a, (s.labels L.id).label = some a →
        ∀ q ∈ (gen E (.OGOTO (some L)) s).prog, q.id = a → q.to_ = some s.pc) ∧
      ((gen E (.OLABEL (some L) .Z) (gen E mid (gen E (.OGOTO (some L)) s))).labels L.id).pc =
        (gen E mid (gen E (.OGOTO (some L)) s)).pc ∧
      (gen E (.OLABEL (some L) .Z) (gen E mid (gen E (.OGOTO (some L)) s))).prog[s.prog.length]? =
        some { id := s.nprog, as := .AJMP,
               to_ := some ((gen E (.OLABEL (some L) .Z)
                 (gen E mid (gen E (.OGOTO (some L)) s))).labels L.id).pc } := by
  obtain ⟨b, hg, hprog, hlab⟩ : ∃ b : GenState,
      gen E (.OGOTO (some L)) s = setpending L.id s.nprog (patchpending L.id s.pc b) ∧
      b.prog = s.prog ++ [{ id := s.nprog, as := .AJMP, to_ := none }] ∧
      b.labels = s.labels := by
    refine ⟨gbranch .OGOTO (rearm { reachcheck false s with canreach := false }), ?_, ?_, ?_⟩
    · simp only [gen]
      rw [goto_forward L (reachcheck false s) (by simpa using hs) hL (by simpa using hpc)]
      simp
    · simp [gbranch, nextpc, rearm]
    · simp
  have hbn : b.nprog = s.nprog + 1 := by
    have := congrArg GenState.nprog hg
    simpa [gen, goto_forward L (reachcheck false s) (by simpa using hs) hL
      (by simpa using hpc)] using this.symm
  -- the state after the goto
  have g1 : ((gen E (.OGOTO (some L)) s).labels L.id).label = some s.nprog := by
    rw [hg]; simp [setpending]
  have g2 : (gen E (.OGOTO (some L)) s).prog[s.prog.length]? =
      some { id := s.nprog, as := .AJMP, to_ := none } := by
    rw [hg]
    simp only [setpending_prog]
    unfold patchpending
    rw [hlab]
    cases hp : (s.labels L.id).label with
    | none => simp [hprog]
    | some a =>
      have ha := hwf _ _ hp
      have : ¬ s.nprog = a := by omega
      simp [patch, hprog, this]
  have g3 : ∀ a, (s.labels L.id).label = some a →
      ∀ q ∈ (gen E (.OGOTO (some L)) s).prog, q.id = a → q.to_ = some s.pc := by
    intro a hp q hq hqa
    rw [hg] at hq
    simp only [setpending_prog] at hq
    unfold patchpending at hq
    rw [hlab, hp] at hq
    simp only [patch, List.mem_map] at hq
    obtain ⟨q0, _, hq0⟩ := hq
    by_cases h0 : q0.id = a
    · rw [if_pos h0] at hq0
      rw [← hq0]
    · rw [if_neg h0] at hq0
      rw [hq0] at h0
      exact absurd hqa h0
  have gn : (gen E (.OGOTO (some L)) s).nprog = s.nprog + 1 := by
    rw [hg]; simp [hbn]
  have glab : ∀ x, x ≠ L.id → (gen E (.OGOTO (some L)) s).labels x = s.labels x := by
    intro x hx
    rw [hg]
    simp [setpending, Function.update_noteq hx, hlab]
  -- the statements up to the label
  have hinv : Inv s.nprog L.id (gen E (.OGOTO (some L)) s) := by
    refine ⟨by omega, ?_⟩
    intro x hx e
    rw [glab x hx] at e
    have := hwf _ _ e
    omega
  have hk := gen_keeps E s.nprog L.id mid _ hmid hinv
  generalize gen E (.OGOTO (some L)) s = g at g1 g2 g3 gn hk
  have m1 : ((gen E mid g).labels L.id).label = some s.nprog := by rw [hk.2.1]; exact g1
  have m2 := hk.2.2 _ _ g2 rfl
  have mn := hk.1.1
  generalize gen E mid g = m at m1 m2 mn
  -- the label
  have ht : gen E (.OLABEL (some L) .Z) m =
      patch m.nprog (m.pc + 1)
        (gbranch .OGOTO (patch s.nprog m.pc (setlabelpc L.id m.pc (reach m)))) := by
    simp only [gen, reachcheck_true]
    exact label_pending L s.nprog m m1
  have t1 : ((gen E (.OLABEL (some L) .Z) m).labels L.id).pc = m.pc := by
    rw [ht]; simp [setlabelpc]
  refine ⟨g1, g2, g3, t1, ?_⟩
  rw [t1, ht]
  have e1 : (patch s.nprog m.pc (setlabelpc L.id m.pc (reach m))).prog[s.prog.length]? =
      some { id := s.nprog, as := .AJMP, to_ := some m.pc } := by
    simp [patch, List.getElem?_map, m2]
  exact stays_patch (m.pc + 1) _ (by omega)
    (stays_gbranch .OGOTO _ (stays_refl s.nprog _)) _ _ e1 rfl


/-- In the sample state: after `goto L; while(c) break; L: ;` the jump of
the `goto` (record 1, the second of the stream) has the position of the
label as its target. -/
theorem forward_goto_resolved_witness :
    start.suppress = 0 ∧ mentions labelL.id (.OWHILE cond .OBREAK) = false ∧
      (gen plainE (.OLABEL (some labelL) .Z)
        (gen plainE (.OWHILE cond .OBREAK)
          (gen plainE (.OGOTO (some labelL)) start))).prog[start.prog.length]? =
        some { id := start.nprog, as := .AJMP,
               to_ := some ((gen plainE (.OLABEL (some labelL) .Z)
                 (gen plainE (.OWHILE cond .OBREAK)
                   (gen plainE (.OGOTO (some labelL)) start))).labels labelL.id).pc } :=
  ⟨rfl, rfl,
    (forward_goto_resolved plainE labelL (.OWHILE cond .OBREAK) start rfl rfl rfl
      (fun x a h => by simp [start] at h) rfl).2.2.2.2⟩

/-! ## Unreachable plain statements -/

theorem reachcheck_quiet (b : Bool) (s : GenState) (hw : s.warnreach = false) :
    reachcheck b s = s := by
  simp [reachcheck, hw]

theorem gen_plain_empty (E : GenEnv) (n : Node) :
    ∀ s, plain n = true → nstmts n = 0 → gen E n s = s := by
  induction n with
  | OLIST left right ihl ihr =>
    intro s hp hn
    simp only [plain, Bool.and_eq_true] at hp
    simp only [nstmts, Nat.add_eq_zero] at hn
    simp [gen, ihl _ hp.1 hn.1, ihr _ hp.2 hn.2]
  | Z => intro s _ _; simp [gen]
  | OEXPR e => intro s _ hn; simp [nstmts] at hn
  | OUSED e => intro s _ hn; simp [nstmts] at hn
  | _ => intro s hp _; simp [plain] at hp

theorem gen_plain_quiet (E : GenEnv) (n : Node) :
    ∀ s, plain n = true → s.canreach = false → s.warnreach = false →
      (gen E n s).msgs = s.msgs ∧ (gen E n s).warnreach = false ∧
        (gen E n s).canreach = false := by
  induction n with
  | OLIST left right ihl ihr =>
    intro s hp hr hw
    simp only [plain, Bool.and_eq_true] at hp
    obtain ⟨a1, a2, a3⟩ := ihl s hp.1 hr hw
    obtain ⟨b1, b2, b3⟩ := ihr _ hp.2 a3 a2
    simp only [gen, reachcheck_true]
    exact ⟨b1.trans a1, b2, b3⟩
  | Z => intro s _ hr hw; simp [gen, hr, hw]
  | OEXPR e => intro s _ hr hw; simp [gen, reachcheck_quiet _ s hw, hr, hw]
  | OUSED e => intro s _ hr hw; simp [gen, reachcheck_quiet _ s hw, hr, hw]
  | _ => intro s hp _ _; simp [plain] at hp

theorem reachcheck_warns (s : GenState) (hr : s.canreach = false) (hw : s.warnreach = true) :
    (reachcheck false s).msgs = s.msgs ++ [.unreachable] ∧
      (reachcheck false s).warnreach = false ∧ (reachcheck false s).canreach = false := by
  simp [reachcheck, hr, hw]

theorem gen_plain_first (E : GenEnv) (n : Node) :
    ∀ s, plain n = true → 1 ≤ nstmts n → s.canreach = false → s.warnreach = true →
      (gen E n s).msgs = s.msgs ++ [.unreachable] ∧ (gen E n s).warnreach = false ∧
        (gen E n s).canreach = false := by
  induction n with
  | OLIST left right ihl ihr =>
    intro s hp hn hr hw
    simp only [plain, Bool.and_eq_true] at hp
    simp only [nstmts] at hn
    simp only [gen, reachcheck_true]
    by_cases h0 : nstmts left = 0
    · rw [gen_plain_empty E left s hp.1 h0]
      exact ihr s hp.2 (by omega) hr hw
    · obtain ⟨a1, a2, a3⟩ := ihl s hp.1 (by omega) hr hw
      obtain ⟨b1, b2, b3⟩ := gen_plain_quiet E right _ hp.2 a3 a2
      exact ⟨b1.trans a1, b2, b3⟩
  | Z => intro s _ hn; simp [nstmts] at hn
  | OEXPR e =>
    intro s _ _ hr hw
    simpa [gen] using reachcheck_warns s hr hw
  | OUSED e =>
    intro s _ _ hr hw
    simpa [gen] using reachcheck_warns s hr hw
  | _ => intro s hp; simp [plain] at hp

/-- C21: a sequence of `n ≥ 1` plain statements lowered from a state with
`canreach = 0` and `warnreach = 1` records the warning "unreachable code"
once and nothing else, and leaves `warnreach = 0` and `canreach = 0`; when
the sequence is `left` followed by `right` and `left` holds a statement,
the warning is there after `left`, so that it is for the first statement,
and `right` adds no message. -/
theorem gen_plain_unreachable (E : GenEnv) (n : Node) (s : GenState)
    (hp : plain n = true) (hn : 1 ≤ nstmts n) (hr : s.canreach = false)
    (hw : s.warnreach = true) :
    (gen E n s).msgs = s.msgs ++ [.unreachable] ∧ (gen E n s).warnreach = false ∧
      (gen E n s).canreach = false ∧
      (∀ left right, n = .OLIST left right → 1 ≤ nstmts left →
        (gen E left s).msgs = s.msgs ++ [.unreachable] ∧
        (gen E right (gen E left s)).msgs = (gen E left s).msgs) := by
  obtain ⟨h1, h2, h3⟩ := gen_plain_first E n s hp hn hr hw
  refine ⟨h1, h2, h3, ?_⟩
  intro left right hnode hleft
  subst hnode
  simp only [plain, Bool.and_eq_true] at hp
  obtain ⟨a1, a2, a3⟩ := gen_plain_first E left s hp.1 hleft hr hw
  exact ⟨a1, (gen_plain_quiet E right _ hp.2 a3 a2).1⟩

/-- In the sample function, the three statements `e; e; e;` after `goto L;`
draw one warning. -/
theorem gen_plain_unreachable_witness :
    aftergoto.canreach = false ∧ aftergoto.warnreach = true ∧
      (gen plainE threestmts aftergoto).msgs = aftergoto.msgs ++ [.unreachable] ∧
      (gen plainE threestmts aftergoto).warnreach = false :=
  ⟨by decide, by decide,
    (gen_plain_unreachable plainE threestmts aftergoto (by decide) (by decide) (by decide)
      (by decide)).1,
    (gen_plain_unreachable plainE threestmts aftergoto (by decide) (by decide) (by decide)
      (by decide)).2.1⟩

/-! ## What suppressed lowering leaves of the stream -/

theorem returnstmt_stays {k : Nat} {p : List Prog} (e : Expr) (s : GenState)
    (h : Stays k p s.prog) : Stays k p (returnstmt e s).prog := by
  unfold returnstmt
  simp only
  split
  · exact h
  · exact stays_gbranch _ _ (stays_emit _ _ h)

theorem casestmt_prog (l : Option Expr) (s : GenState) : (casestmt l s).prog = s.prog := by
  unfold casestmt
  cases l with
  | none => simp only; split <;> simp
  | some l =>
    simp only
    split
    · split <;> simp
    · split <;> split <;> simp

theorem gotostmt_suppressed (n : Option Label) (s : GenState) (hs : s.suppress ≠ 0) :
    (gotostmt n s).prog = s.prog := by
  unfold gotostmt
  cases n with
  | none => rfl
  | some lab =>
    simp only
    split
    · rfl
    · simp [hs]

theorem continuestmt_stays {k : Nat} {p : List Prog} (s : GenState) (hk : k < s.nprog)
    (h : Stays k p s.prog) : Stays k p (continuestmt s).prog := by
  unfold continuestmt
  split
  · exact h
  · exact stays_patch _ _ (by simp; omega) (stays_gbranch _ _ h)

theorem breakstmt_stays {k : Nat} {p : List Prog} (s : GenState) (hk : k < s.nprog)
    (h : Stays k p s.prog) : Stays k p (breakstmt s).prog := by
  unfold breakstmt
  split
  · exact h
  · split
    · exact h
    · exact stays_patch _ _ (by simp; omega) (stays_gbranch _ _ h)

theorem switchhead_stays {k : Nat} {p : List Prog} (s : GenState) (h : Stays k p s.prog) :
    Stays k p (switchhead s).prog := by
  unfold switchhead
  exact stays_gbranch _ _ (stays_gbranch _ _ h)

theorem switchtail_stays {k : Nat} {p : List Prog} (E : GenEnv) (l : Expr) (s0 s : GenState)
    (hk0 : k < s0.nprog) (hk : k < s.nprog) (h : Stays k p s.prog) :
    Stays k p (switchtail E l s0 s).prog := by
  unfold switchtail
  simp only
  rw [reachexit_prog]
  split <;>
  repeat' first
    | exact h
    | apply stays_patch
    | apply stays_emit
    | apply stays_gbranch
    | omega
    | (simp only [gbranch_p]; omega)

theorem whiletail_stays {k : Nat} {p : List Prog} (s0 s : GenState) (hk0 : k < s0.nprog)
    (hk : k < s.nprog) (h : Stays k p s.prog) : Stays k p (whiletail s0 s).prog := by
  unfold whiletail
  simp only
  rw [reachexit_prog]
  repeat' first
    | exact h
    | apply stays_patch
    | apply stays_gbranch
    | omega
    | (simp only [gbranch_p]; omega)

theorem forhead_stays {k : Nat} {p : List Prog} (E : GenEnv) (n : Node) (e : GenState)
    (hk : k < e.nprog) (h : Stays k p e.prog) : Stays k p (forhead E n e).prog := by
  unfold forhead
  simp only
  split <;>
  repeat' first
    | exact h
    | apply stays_patch
    | apply stays_gbranch
    | omega

theorem fortest_stays {k : Nat} {p : List Prog} (E : GenEnv) (test : Option Expr)
    (e s : GenState) (hk0 : k < e.nprog) (hk : k < s.nprog) (h : Stays k p s.prog) :
    Stays k p (fortest E test e s).prog := by
  unfold fortest
  cases test with
  | none => exact stays_patch _ _ (by omega) h
  | some l =>
    simp only
    split <;>
    repeat' first
      | exact h
      | apply stays_bcomplex_patch
      | apply stays_patch
      | omega
      | (simp only [patch_nprog]; omega)

theorem fortail_stays {k : Nat} {p : List Prog} (hasinc : Bool) (e s : GenState)
    (hk0 : k < e.nprog) (hk : k < s.nprog) (h : Stays k p s.prog) :
    Stays k p (fortail hasinc e s).prog := by
  unfold fortail
  simp only
  rw [reachexit_prog]
  split <;> split <;>
  repeat' first
    | exact h
    | apply stays_patch
    | apply stays_gbranch
    | omega
    | (simp only [gbranch_p]; omega)

theorem ifend_stays {k : Nat} {p : List Prog} (sp : Nat) (o : Bool) (s : GenState)
    (hsp : sp ≠ k) (h : Stays k p s.prog) : Stays k p (ifend sp o s).prog := by
  unfold ifend
  simp only
  split <;> exact stays_patch _ _ hsp h

theorem ifconstfalse_prog (E : GenEnv) (t1 t2 : GenState) :
    (ifconstfalse E t1 t2).prog = t2.prog := by
  unfold ifconstfalse; split <;> rfl

theorem ifconsttrue_prog (E : GenEnv) (t1 t2 : GenState) :
    (ifconsttrue E t1 t2).prog = t2.prog := by
  unfold ifconsttrue; simp only; split <;> rfl

theorem stays_take_of_le {k : Nat} {p l : List Prog} (n : Nat) (hn : p.length ≤ n)
    (h : Stays k p l) : Stays k p (l.take n) := by
  intro i q hq hk
  have h1 := h i q hq hk
  have hi : i < p.length := by
    by_contra hne
    rw [List.getElem?_eq_none (not_lt.mp hne)] at hq
    exact absurd hq (by simp)
  rw [List.getElem?_take_of_lt (by omega)]
  exact h1

theorem stays_take_mid {k : Nat} {p m l : List Prog} (h1 : Stays k p m) (h2 : Stays k m l) :
    Stays k p (l.take m.length) := by
  intro i q hq hk
  have a := h1 i q hq hk
  have b := h2 i q a hk
  have hi : i < m.length := by
    by_contra hne
    rw [List.getElem?_eq_none (not_lt.mp hne)] at a
    exact absurd a (by simp)
  rw [List.getElem?_take_of_lt hi]
  exact b

theorem supgen_stays {k : Nat} {p : List Prog} (f : GenState → GenState) (n : Node)
    (s : GenState)
    (hf : ∀ t, 0 < t.suppress → k < t.nprog → Stays k t.prog (f t).prog)
    (hs : 0 < s.suppress) (hk : k < s.nprog) (h : Stays k p s.prog) :
    Stays k p (supgen f n s).prog := by
  unfold supgen
  split
  · exact h
  · have h1 := hf (enter s) (by simp [enter]; omega) hk
    exact stays_take_mid h h1

/-- While `suppress` is positive, statements without a label statement leave
every record that exists alone. -/
theorem gen_old (E : GenEnv) (k : Nat) (n : Node) :
    ∀ s, haslabel n = false → 0 < s.suppress → k < s.nprog →
      Stays k s.prog (gen E n s).prog := by
  induction n with
  | Z => intro s _ _ _; simpa [gen] using stays_refl k s.prog
  | OEXPR e =>
    intro s _ _ _
    simpa [gen] using stays_emit e.ninstr _ (stays_reachcheck false s (stays_refl k s.prog))
  | OUSED e =>
    intro s _ _ _
    simpa [gen] using stays_emit e.ninstr _ (stays_reachcheck false s (stays_refl k s.prog))
  | OLIST left right ihl ihr =>
    intro s hl hs hk
    simp only [haslabel, Bool.or_eq_false_iff] at hl
    have h1 := ihl s hl.1 hs hk
    have hs1 : 0 < (gen E left s).suppress := by rw [(gen_scope E left s).2.2]; exact hs
    have hk1 : k < (gen E left s).nprog := lt_of_lt_of_le hk (gen_grow E left s).2
    simpa [gen] using stays_trans h1 (ihr _ hl.2 hs1 hk1)
  | ORETURN e =>
    intro s _ _ _
    simpa [gen] using returnstmt_stays e _ (stays_reachcheck false s (stays_refl k s.prog))
  | OLABEL left right ih => intro s hl; simp [haslabel] at hl
  | OGOTO left =>
    intro s _ hs _
    have h1 : (reachcheck false s).suppress ≠ 0 := by simp; omega
    simp only [gen]
    rw [gotostmt_suppressed left _ h1, reachcheck_prog]
    exact stays_refl k s.prog
  | OCASE left right ih =>
    intro s hl hs hk
    simp only [haslabel] at hl
    have hs1 : 0 < (casestmt left s).suppress := by rw [(casestmt_scope left s).2.2]; exact hs
    have hk1 : k < (casestmt left s).nprog := lt_of_lt_of_le hk (casestmt_grow left s).2
    have h2 := ih _ hl hs1 hk1
    rw [casestmt_prog] at h2
    simpa [gen] using h2
  | OSWITCH left right ih =>
    intro s hl hs hk
    simp only [haslabel] at hl
    simp only [gen]
    split_ifs
    · simpa using stays_refl k s.prog
    · simpa using stays_refl k s.prog
    · have h1 : Stays k s.prog (switchhead (reachcheck false s)).prog :=
        switchhead_stays _ (stays_reachcheck false s (stays_refl k s.prog))
      have hs1 : 0 < (switchhead (reachcheck false s)).suppress := by
        rw [(switchhead_scope _).2.2]; simpa using hs
      have hk1 : k < (switchhead (reachcheck false s)).nprog := by
        rw [switchhead_nprog]; simp; omega
      have h2 := ih _ hl hs1 hk1
      have hk2 := lt_of_lt_of_le hk1 (gen_grow E right _).2
      exact switchtail_stays E left (reachcheck false s) _ (by simpa using hk) hk2
        (stays_trans h1 h2)
  | OWHILE left right ih =>
    intro s hl hs hk
    simp only [haslabel] at hl
    have h1 := whilehead_stays E false left s hk (stays_refl k s.prog)
    have hs1 : 0 < (whilehead E false left s).suppress := by
      rw [(whilehead_scope E false left s).2.2]; exact hs
    have hk1 : k < (whilehead E false left s).nprog := by
      have := (whilehead_grow E false left s).2; omega
    have h2 := ih _ hl hs1 hk1
    have hk2 := lt_of_lt_of_le hk1 (gen_grow E right _).2
    simpa [gen] using whiletail_stays s _ hk hk2 (stays_trans h1 h2)
  | ODWHILE left right ih =>
    intro s hl hs hk
    simp only [haslabel] at hl
    have h1 := whilehead_stays E true left s hk (stays_refl k s.prog)
    have hs1 : 0 < (whilehead E true left s).suppress := by
      rw [(whilehead_scope E true left s).2.2]; exact hs
    have hk1 : k < (whilehead E true left s).nprog := by
      have := (whilehead_grow E true left s).2; omega
    have h2 := ih _ hl hs1 hk1
    have hk2 := lt_of_lt_of_le hk1 (gen_grow E right _).2
    simpa [gen] using whiletail_stays s _ hk hk2 (stays_trans h1 h2)
  | OFOR init test inc right ihi iht ihb =>
    intro s hl hs hk
    simp only [haslabel, Bool.or_eq_false_iff] at hl
    simp only [gen, reachcheck_true]
    have h0 : Stays k s.prog (forwarn (!init.isZ) s).prog :=
      stays_forwarn _ s (stays_refl k s.prog)
    have hs0 : 0 < (forwarn (!init.isZ) s).suppress := by simpa using hs
    have hk0 : k < (forwarn (!init.isZ) s).nprog := by simpa using hk
    generalize forwarn (!init.isZ) s = s0 at h0 hs0 hk0
    have h1 := ihi s0 hl.1.1 hs0 hk0
    have hs1 : 0 < (gen E init s0).suppress := by rw [(gen_scope E init s0).2.2]; exact hs0
    have hk1 : k < (gen E init s0).nprog := lt_of_lt_of_le hk0 (gen_grow E init s0).2
    generalize gen E init s0 = e at h1 hs1 hk1 ⊢
    have h2 := forhead_stays E (.OFOR init test inc right) e hk1 (stays_refl k e.prog)
    have hs2 : 0 < (forhead E (.OFOR init test inc right) e).suppress := by
      rw [(forhead_scope E _ e).2.2]; exact hs1
    have hk2 : k < (forhead E (.OFOR init test inc right) e).nprog := by
      have := (forhead_grow E (.OFOR init test inc right) e).2; omega
    generalize forhead E (.OFOR init test inc right) e = a at h2 hs2 hk2 ⊢
    have h3 := iht a hl.1.2 hs2 hk2
    have hs3 : 0 < (gen E inc a).suppress := by rw [(gen_scope E inc a).2.2]; exact hs2
    have hk3 : k < (gen E inc a).nprog := lt_of_lt_of_le hk2 (gen_grow E inc a).2
    generalize gen E inc a = b at h3 hs3 hk3 ⊢
    have h4 := fortest_stays E test e b hk1 hk3 (stays_refl k b.prog)
    have hs4 : 0 < (fortest E test e b).suppress := by
      rw [(fortest_scope E test e b).2.2]; exact hs3
    have hk4 : k < (fortest E test e b).nprog :=
      lt_of_lt_of_le hk3 (fortest_grow E test e b).2
    generalize fortest E test e b = c at h4 hs4 hk4 ⊢
    have h5 := ihb c hl.2 hs4 hk4
    have hk5 : k < (gen E right c).nprog := lt_of_lt_of_le hk4 (gen_grow E right c).2
    exact fortail_stays _ e _ hk1 hk5
      (stays_trans (stays_trans (stays_trans (stays_trans (stays_trans h0 h1) h2) h3) h4) h5)
  | OCONTINUE =>
    intro s _ _ hk
    simpa [gen] using continuestmt_stays (reachcheck false s) (by simpa using hk)
      (stays_reachcheck false s (stays_refl k s.prog))
  | OBREAK =>
    intro s _ _ hk
    simpa [gen] using breakstmt_stays s hk (stays_refl k s.prog)
  | OIF left thn els iht ihe =>
    intro s hl hs hk
    simp only [haslabel, Bool.or_eq_false_iff] at hl
    have hb : Stays k s.prog
        (bcomplex E left (some (.OLIST thn els)) (reachcheck false s)).2.prog :=
      stays_bcomplex E left _ _ (stays_reachcheck false s (stays_refl k s.prog))
    have hbs := (bcomplex_scope E left (some (.OLIST thn els)) (reachcheck false s)).2.2
    have hbg := (bcomplex_grow E left (some (.OLIST thn els)) (reachcheck false s)).2
    have hp := bcomplex_p E left (some (.OLIST thn els)) (reachcheck false s)
    simp only [reachcheck_suppress, reachcheck_nprog] at hbs hbg hp
    simp only [gen]
    generalize (bcomplex E left (some (.OLIST thn els)) (reachcheck false s)) = r
      at hb hbs hbg hp ⊢
    generalize (if left.typefd then left.fconst0 else decide (left.vconst = 0)) = f
    have hrs : 0 < (reach r.2).suppress := by simp [hbs]; exact hs
    have hrk : k < (reach r.2).nprog := by simp; omega
    have hr : Stays k s.prog (reach r.2).prog := hb
    have ht := fun t (a : 0 < t.suppress) (b : k < t.nprog) => iht t hl.1 a b
    have he := fun t (a : 0 < t.suppress) (b : k < t.nprog) => ihe t hl.2 a b
    by_cases c1 : r.1 = true
    · cases f
      · simp only [c1, if_true, Bool.false_eq_true, if_false]
        rw [ifconsttrue_prog]
        have h1 := ht _ hrs hrk
        have hs1 : 0 < (reach (gen E thn (reach r.2))).suppress := by
          simp [(gen_scope E thn (reach r.2)).2.2, hbs]; exact hs
        have hk1 : k < (reach (gen E thn (reach r.2))).nprog := by
          have := (gen_grow E thn (reach r.2)).2
          simp at this ⊢; omega
        exact supgen_stays (gen E els) els _ he hs1 hk1 (stays_trans hr h1)
      · simp only [c1, if_true]
        rw [ifconstfalse_prog]
        have h1 : Stays k s.prog (supgen (gen E thn) thn (reach r.2)).prog :=
          supgen_stays (gen E thn) thn _ ht hrs hrk hr
        have hs1 : 0 < (reach (supgen (gen E thn) thn (reach r.2))).suppress := by
          simp [(supgen_scope (gen E thn) thn (reach r.2) (gen_scope E thn)).2.2, hbs]
          exact hs
        have hk1 : k < (reach (supgen (gen E thn) thn (reach r.2))).nprog := by
          have := (supgen_grow (gen E thn) thn (reach r.2) (gen_grow E thn)).2
          simp at this ⊢; omega
        exact stays_trans h1 (he _ hs1 hk1)
    · simp only [c1, Bool.false_eq_true, if_false]
      have hpk : r.2.p ≠ k := by
        have := hp (by simpa using c1)
        omega
      have h1 : Stays k s.prog (if thn.isZ = true then reach r.2
          else gen E thn (reach r.2)).prog ∧
          0 < (if thn.isZ = true then reach r.2 else gen E thn (reach r.2)).suppress ∧
          k < (if thn.isZ = true then reach r.2 else gen E thn (reach r.2)).nprog := by
        split
        · exact ⟨hr, hrs, hrk⟩
        · refine ⟨stays_trans hr (ht _ hrs hrk), ?_, ?_⟩
          · rw [(gen_scope E thn (reach r.2)).2.2]; exact hrs
          · exact lt_of_lt_of_le hrk (gen_grow E thn (reach r.2)).2
      generalize (if thn.isZ = true then reach r.2 else gen E thn (reach r.2)) = t1 at h1 ⊢
      obtain ⟨h1, hs1, hk1⟩ := h1
      split
      · exact ifend_stays _ _ _ hpk h1
      · have h3 : Stays k s.prog
            (patch r.2.p (gbranch .OGOTO (reach t1)).pc (gbranch .OGOTO (reach t1))).prog :=
          stays_patch _ _ hpk (stays_gbranch _ _ h1)
        have h4 := he (patch r.2.p (gbranch .OGOTO (reach t1)).pc (gbranch .OGOTO (reach t1)))
          (by simpa using hs1) (by simp; omega)
        exact ifend_stays _ _ _ (by simp; omega) (stays_trans h3 h4)

/-! ## Suppressed lowering records no warning -/

theorem quiet_refl {s : GenState} (hw : s.warnreach = false) : Quiet s s :=
  ⟨hw, rfl, [], by simp, by simp⟩

theorem quiet_trans {s t u : GenState} (h1 : Quiet s t) (h2 : Quiet t u) : Quiet s u := by
  obtain ⟨_, a2, x, a3, a4⟩ := h1
  obtain ⟨b1, b2, y, b3, b4⟩ := h2
  refine ⟨b1, b2.trans a2, x ++ y, by rw [b3, a3, List.append_assoc], ?_⟩
  intro m hm
  rcases List.mem_append.1 hm with h | h
  · exact a4 m h
  · exact b4 m h

theorem quiet_same {s t : GenState} (hw : t.warnreach = false) (hs : t.suppress = s.suppress)
    (hm : t.msgs = s.msgs) : Quiet s t :=
  ⟨hw, hs, [], by simp [hm], by simp⟩

theorem quiet_diag {s t : GenState} (m : Msg) (hm : iswarning m = false)
    (hw : t.warnreach = false) (hs : t.suppress = s.suppress) (hmsg : t.msgs = s.msgs ++ [m]) :
    Quiet s t :=
  ⟨hw, hs, [m], hmsg, by simpa using hm⟩

theorem forwarn_quiet (b : Bool) (s : GenState) (hw : s.warnreach = false) :
    forwarn b s = s := by
  simp [forwarn, hw]

theorem bcomplex_warn (E : GenEnv) (n : Expr) (c : Option Node) (s : GenState) :
    (bcomplex E n c s).2.warnreach = s.warnreach ∧ (bcomplex E n c s).2.msgs = s.msgs := by
  unfold bcomplex
  split
  · simp
  · split
    · split <;> simp
    · simp

theorem decide_suppress (s : GenState) (hs : 0 < s.suppress) :
    decide (s.suppress = 0) = false := by
  simp; omega

theorem returnstmt_quiet (e : Expr) (s : GenState) (hs : 0 < s.suppress) :
    Quiet s (returnstmt e s) := by
  have hd := decide_suppress s hs
  unfold returnstmt
  simp only
  split <;> exact quiet_same (by simp [hd]) (by simp) (by simp)

theorem labelstmt_quiet (l : Option Label) (s : GenState) (hw : s.warnreach = false) :
    Quiet s (labelstmt l s) := by
  unfold labelstmt
  cases l <;> exact quiet_same (by simp [hw]) (by simp) (by simp)

theorem gotostmt_quiet (n : Option Label) (s : GenState) (hs : 0 < s.suppress) :
    Quiet s (gotostmt n s) := by
  have hd := decide_suppress s hs
  have hne : s.suppress ≠ 0 := by omega
  unfold gotostmt
  cases n with
  | none => exact quiet_same (by simp [hd]) (by simp) (by simp)
  | some lab =>
    simp only
    split
    · exact quiet_diag .labelUndefined rfl (by simp [hd]) (by simp) (by simp)
    · simp only [rearm_suppress, hne, ne_eq, not_false_eq_true, if_true]
      exact quiet_same (by simp [hd]) (by simp) (by simp)

theorem report_quiet (m : Msg) (s : GenState) (hm : iswarning m = false)
    (hw : s.warnreach = false) : Quiet s (report m s) :=
  quiet_diag m hm (by simp [hw]) (by simp) (by simp)

theorem casestmt_quiet (l : Option Expr) (s : GenState) (hw : s.warnreach = false) :
    Quiet s (casestmt l s) := by
  have h1 : Quiet s (if (reach s).cases.isEmpty then report .caseOutside (reach s)
      else reach s) := by
    split
    · exact quiet_diag .caseOutside rfl (by simp [hw]) (by simp) (by simp)
    · exact quiet_same (by simp [hw]) (by simp) (by simp)
  unfold casestmt
  simp only
  change Quiet s (match l with
    | none => _
    | some l => _)
  generalize hs2 : (if (reach s).cases.isEmpty then report .caseOutside (reach s)
      else reach s) = s2 at h1
  have key : Quiet s2 (match l with
      | none =>
        { s2 with cases := { val := 0, def_ := true, label := s2.pc, isv := false } :: s2.cases }
      | some l =>
        if !l.typed then s2
        else if l.oconst && l.word && !l.ind then
          { s2 with
            cases := { val := l.vconst, def_ := false, label := s2.pc, isv := l.typev } ::
              s2.cases }
        else report .caseNotConst s2) := by
    cases l with
    | none => exact quiet_same h1.1 rfl rfl
    | some l =>
      simp only
      split
      · exact quiet_refl h1.1
      · split
        · exact quiet_same h1.1 rfl rfl
        · exact report_quiet _ _ rfl h1.1
  have := quiet_trans h1 key
  rw [← hs2] at this
  exact this

theorem reachexit_warn (s : GenState) (hw : s.warnreach = false) (hs : 0 < s.suppress) :
    (reachexit s).warnreach = false ∧ (reachexit s).msgs = s.msgs := by
  have hd := decide_suppress s hs
  unfold reachexit
  split <;> simp [hw, hd]

theorem switchhead_quiet (s : GenState) (hw : s.warnreach = false) :
    Quiet s (switchhead s) :=
  quiet_same (by simp [switchhead, hw]) (switchhead_scope s).2.2 (by simp [switchhead])

theorem switchtail_quiet (E : GenEnv) (l : Expr) (s0 s : GenState) (hw : s.warnreach = false)
    (hs : 0 < s.suppress) : Quiet s (switchtail E l s0 s) := by
  refine quiet_same ?_ (switchtail_scope E l s0 s).2.2 ?_
  · unfold switchtail
    simp only
    split <;> exact (reachexit_warn _ (by simp [hw]) (by simpa using hs)).1
  · unfold switchtail
    simp only
    split <;> rw [(reachexit_warn _ (by simp [hw]) (by simpa using hs)).2] <;> simp

theorem whilehead_quiet (E : GenEnv) (isdo : Bool) (l : Expr) (s : GenState)
    (hw : s.warnreach = false) : Quiet s (whilehead E isdo l s) := by
  have h := fun c t => bcomplex_warn E l c t
  refine quiet_same ?_ (whilehead_scope E isdo l s).2.2 ?_
  · unfold whilehead
    simp only
    cases isdo <;> simp only [Bool.false_eq_true, if_false, if_true] <;> split_ifs <;>
      simp [h, hw]
  · unfold whilehead
    simp only
    cases isdo <;> simp only [Bool.false_eq_true, if_false, if_true] <;> split_ifs <;>
      simp [h]

theorem whiletail_quiet (s0 s : GenState) (hw : s.warnreach = false) (hs : 0 < s.suppress) :
    Quiet s (whiletail s0 s) := by
  refine quiet_same ?_ (whiletail_scope s0 s).2.2 ?_
  · unfold whiletail
    simp only
    exact (reachexit_warn _ (by simp [hw]) (by simpa using hs)).1
  · unfold whiletail
    simp only
    rw [(reachexit_warn _ (by simp [hw]) (by simpa using hs)).2]
    simp

theorem forhead_quiet (E : GenEnv) (n : Node) (e : GenState) (hw : e.warnreach = false) :
    Quiet e (forhead E n e) := by
  refine quiet_same ?_ (forhead_scope E n e).2.2 ?_
  · unfold forhead
    simp [hw]
  · unfold forhead
    simp [hw]

theorem fortest_quiet (E : GenEnv) (test : Option Expr) (e s : GenState)
    (hw : s.warnreach = false) : Quiet s (fortest E test e s) := by
  have h := fun l c t => bcomplex_warn E l c t
  refine quiet_same ?_ (fortest_scope E test e s).2.2 ?_
  · unfold fortest
    cases test with
    | none => simp [hw]
    | some l => simp only; split <;> simp [h, hw]
  · unfold fortest
    cases test with
    | none => simp
    | some l => simp only; split <;> simp [h]

theorem fortail_quiet (hasinc : Bool) (e s : GenState) (hw : s.warnreach = false)
    (hs : 0 < s.suppress) : Quiet s (fortail hasinc e s) := by
  have key : ∀ s1 : GenState, s1.warnreach = false →
      (if (decide (s1.ncontin = 0) && hasinc && s1.warnreach) = true then
        { report .unreachableInc s1 with warnreach := false } else s1) = s1 := by
    intro s1 h1
    simp [h1]
  refine quiet_same ?_ (fortail_scope hasinc e s).2.2 ?_
  · unfold fortail
    simp only
    split
    · rw [key _ (by simp [hw])]
      exact (reachexit_warn _ (by simp [hw]) (by simpa using hs)).1
    · rw [key _ hw]
      exact (reachexit_warn _ (by simp [hw]) (by simpa using hs)).1
  · unfold fortail
    simp only
    split
    · rw [key _ (by simp [hw])]
      rw [(reachexit_warn _ (by simp [hw]) (by simpa using hs)).2]
      simp
    · rw [key _ hw]
      rw [(reachexit_warn _ (by simp [hw]) (by simpa using hs)).2]
      simp

theorem continuestmt_quiet (s : GenState) (hw : s.warnreach = false) (hs : 0 < s.suppress) :
    Quiet s (continuestmt s) := by
  have hd := decide_suppress s hs
  unfold continuestmt
  split
  · exact report_quiet _ _ rfl hw
  · exact quiet_same (by simp [hd]) (by simp) (by simp)

theorem breakstmt_quiet (s : GenState) (hw : s.warnreach = false) (hs : 0 < s.suppress) :
    Quiet s (breakstmt s) := by
  have hd := decide_suppress s hs
  unfold breakstmt
  split
  · exact report_quiet _ _ rfl hw
  · split
    · exact quiet_refl hw
    · exact quiet_same (by simp [hd]) (by simp) (by simp)

theorem ifend_quiet (sp : Nat) (o : Bool) (s : GenState) (hw : s.warnreach = false)
    (hs : 0 < s.suppress) : Quiet s (ifend sp o s) := by
  have hd := decide_suppress s hs
  unfold ifend
  simp only
  split <;> exact quiet_same (by simp [hw, hd]) (by simp) (by simp)

theorem ifconstfalse_quiet (E : GenEnv) (t1 t2 : GenState) (hw : t2.warnreach = false) :
    Quiet t2 (ifconstfalse E t1 t2) := by
  unfold ifconstfalse
  split <;> exact quiet_same (by simp [hw]) (by simp) (by simp)

theorem ifconsttrue_quiet (E : GenEnv) (t1 t2 : GenState) (hw : t2.warnreach = false) :
    Quiet t2 (ifconsttrue E t1 t2) := by
  unfold ifconsttrue
  simp only
  split <;> exact quiet_same (by simp [hw]) (by simp) (by simp)

theorem supgen_quiet (f : GenState → GenState) (n : Node) (s : GenState)
    (hf : ∀ t, t.warnreach = false → 0 < t.suppress → Quiet t (f t))
    (hw : s.warnreach = false) (hs : 0 ≤ s.suppress) : Quiet s (supgen f n s) := by
  unfold supgen
  split
  · exact quiet_refl hw
  · obtain ⟨_, a2, x, a3, a4⟩ := hf (enter s) (by simp [enter]) (by simp [enter]; omega)
    refine ⟨by simp [leave, hw], ?_, x, ?_, a4⟩
    · show (f (enter s)).suppress - 1 = s.suppress
      rw [a2]
      show s.suppress + 1 - 1 = s.suppress
      omega
    · exact a3

theorem quiet_pos {s t : GenState} (h : Quiet s t) (hs : 0 < s.suppress) : 0 < t.suppress := by
  rw [h.2.1]; exact hs

theorem emit_quiet (k : Nat) (s : GenState) (hw : s.warnreach = false) : Quiet s (emit k s) :=
  quiet_same (by simp [hw]) (by simp) (by simp)

theorem reach_quiet (s : GenState) (hw : s.warnreach = false) : Quiet s (reach s) :=
  quiet_same (by simp [hw]) (by simp) (by simp)

/-- While `suppress` is positive and `warnreach` is 0, a statement records
no warning and leaves `warnreach` at 0. -/
theorem gen_quiet (E : GenEnv) (n : Node) :
    ∀ s, s.warnreach = false → 0 < s.suppress → Quiet s (gen E n s) := by
  induction n with
  | Z => intro s hw _; simpa [gen] using quiet_refl hw
  | OEXPR e => intro s hw _; simpa [gen, reachcheck_quiet _ s hw] using emit_quiet e.ninstr s hw
  | OUSED e => intro s hw _; simpa [gen, reachcheck_quiet _ s hw] using emit_quiet e.ninstr s hw
  | OLIST left right ihl ihr =>
    intro s hw hs
    have h1 := ihl s hw hs
    simpa [gen] using quiet_trans h1 (ihr _ h1.1 (quiet_pos h1 hs))
  | ORETURN e =>
    intro s hw hs
    simpa [gen, reachcheck_quiet _ s hw] using returnstmt_quiet e s hs
  | OLABEL left right ih =>
    intro s hw hs
    have h1 := labelstmt_quiet left s hw
    simpa [gen] using quiet_trans h1 (ih _ h1.1 (quiet_pos h1 hs))
  | OGOTO left =>
    intro s hw hs
    simpa [gen, reachcheck_quiet _ s hw] using gotostmt_quiet left s hs
  | OCASE left right ih =>
    intro s hw hs
    have h1 := casestmt_quiet left s hw
    simpa [gen] using quiet_trans h1 (ih _ h1.1 (quiet_pos h1 hs))
  | OSWITCH left right ih =>
    intro s hw hs
    simp only [gen, reachcheck_quiet _ s hw]
    split_ifs
    · exact quiet_refl hw
    · exact report_quiet _ _ rfl hw
    · have h1 := switchhead_quiet s hw
      have h2 := ih _ h1.1 (quiet_pos h1 hs)
      have h3 := switchtail_quiet E left s _ h2.1 (quiet_pos h2 (quiet_pos h1 hs))
      exact quiet_trans (quiet_trans h1 h2) h3
  | OWHILE left right ih =>
    intro s hw hs
    have h1 := whilehead_quiet E false left s hw
    have h2 := ih _ h1.1 (quiet_pos h1 hs)
    have h3 := whiletail_quiet s _ h2.1 (quiet_pos h2 (quiet_pos h1 hs))
    simpa [gen] using quiet_trans (quiet_trans h1 h2) h3
  | ODWHILE left right ih =>
    intro s hw hs
    have h1 := whilehead_quiet E true left s hw
    have h2 := ih _ h1.1 (quiet_pos h1 hs)
    have h3 := whiletail_quiet s _ h2.1 (quiet_pos h2 (quiet_pos h1 hs))
    simpa [gen] using quiet_trans (quiet_trans h1 h2) h3
  | OFOR init test inc right ihi iht ihb =>
    intro s hw hs
    simp only [gen, reachcheck_true, forwarn_quiet _ s hw]
    have h1 := ihi s hw hs
    have p1 := quiet_pos h1 hs
    generalize gen E init s = e at h1 p1 ⊢
    have h2 := forhead_quiet E (.OFOR init test inc right) e h1.1
    have p2 := quiet_pos h2 p1
    generalize forhead E (.OFOR init test inc right) e = a at h2 p2 ⊢
    have h3 := iht a h2.1 p2
    have p3 := quiet_pos h3 p2
    generalize gen E inc a = b at h3 p3 ⊢
    have h4 := fortest_quiet E test e b h3.1
    have p4 := quiet_pos h4 p3
    generalize fortest E test e b = c at h4 p4 ⊢
    have h5 := ihb c h4.1 p4
    have p5 := quiet_pos h5 p4
    have h6 := fortail_quiet (!inc.isZ) e _ h5.1 p5
    exact quiet_trans (quiet_trans (quiet_trans (quiet_trans (quiet_trans h1 h2) h3) h4) h5) h6
  | OCONTINUE =>
    intro s hw hs
    simpa [gen, reachcheck_quiet _ s hw] using continuestmt_quiet s hw hs
  | OBREAK =>
    intro s hw hs
    simpa [gen] using breakstmt_quiet s hw hs
  | OIF left thn els iht ihe =>
    intro s hw hs
    have hb : Quiet s (bcomplex E left (some (.OLIST thn els)) s).2 :=
      quiet_same (by rw [(bcomplex_warn E left _ s).1]; exact hw)
        (bcomplex_scope E left _ s).2.2 (bcomplex_warn E left _ s).2
    simp only [gen, reachcheck_quiet _ s hw]
    generalize (bcomplex E left (some (.OLIST thn els)) s) = r at hb ⊢
    generalize (if left.typefd then left.fconst0 else decide (left.vconst = 0)) = f
    have hr := quiet_trans hb (reach_quiet r.2 hb.1)
    have pr := quiet_pos hr hs
    by_cases c1 : r.1 = true
    · cases f
      · simp only [c1, if_true, Bool.false_eq_true, if_false]
        have h1 := iht _ hr.1 pr
        have p1 := quiet_pos h1 pr
        have h2 := reach_quiet _ h1.1
        have h3 := supgen_quiet (gen E els) els _ ihe h2.1 (le_of_lt (quiet_pos h2 p1))
        have h4 := ifconsttrue_quiet E (gen E thn (reach r.2)) _ h3.1
        exact quiet_trans (quiet_trans (quiet_trans (quiet_trans hr h1) h2) h3) h4
      · simp only [c1, if_true]
        have h1 := supgen_quiet (gen E thn) thn _ iht hr.1 (le_of_lt pr)
        have p1 := quiet_pos h1 pr
        have h2 := reach_quiet _ h1.1
        have h3 := ihe _ h2.1 (quiet_pos h2 p1)
        have h4 := ifconstfalse_quiet E (supgen (gen E thn) thn (reach r.2)) _ h3.1
        exact quiet_trans (quiet_trans (quiet_trans (quiet_trans hr h1) h2) h3) h4
    · simp only [c1, Bool.false_eq_true, if_false]
      have h1 : Quiet (reach r.2) (if thn.isZ = true then reach r.2
          else gen E thn (reach r.2)) := by
        split
        · exact quiet_refl hr.1
        · exact iht _ hr.1 pr
      have p1 := quiet_pos h1 pr
      generalize (if thn.isZ = true then reach r.2 else gen E thn (reach r.2)) = t1
        at h1 p1 ⊢
      have h2 := reach_quiet _ h1.1
      have p2 := quiet_pos h2 p1
      split
      · have h3 := ifend_quiet r.2.p t1.canreach _ h2.1 p2
        exact quiet_trans (quiet_trans (quiet_trans hr h1) h2) h3
      · have h3 : Quiet (reach t1)
            (patch r.2.p (gbranch .OGOTO (reach t1)).pc (gbranch .OGOTO (reach t1))) :=
          quiet_same (by simpa using h2.1) (by simp) (by simp)
        have p3 := quiet_pos h3 p2
        have h4 := ihe _ h3.1 p3
        have h5 := ifend_quiet (gbranch .OGOTO (reach t1)).p t1.canreach _ h4.1
          (quiet_pos h4 p3)
        exact quiet_trans (quiet_trans (quiet_trans (quiet_trans (quiet_trans hr h1) h2)
          h3) h4) h5

theorem take_old (p l : List Prog)
    (h : ∀ (i : Nat) (q : Prog), p[i]? = some q → l[i]? = some q) :
    l.take p.length = p := by
  apply List.ext_getElem?
  intro i
  by_cases hi : i < p.length
  · rw [List.getElem?_take_of_lt hi]
    have hq : p[i]? = some (p[i]) := List.getElem?_eq_getElem hi
    rw [hq]
    exact h i _ hq
  · have h1 : p[i]? = none := List.getElem?_eq_none (not_lt.mp hi)
    rw [h1]
    apply List.getElem?_eq_none
    rw [List.length_take]
    omega

/-- C22: let `supgen(n)` be called at a suppression depth that is not
negative, on a statement `n` that holds no label statement, in a state
whose records have numbers below `nprog`.  After the call `pc`, the live
instruction stream, `suppress` and `warnreach` are what they were before
it, and the messages recorded during the call hold no warning about
unreachable code. -/
theorem supgen_discards (E : GenEnv) (n : Node) (s : GenState)
    (hl : haslabel n = false) (hs : 0 ≤ s.suppress) (hid : ∀ q ∈ s.prog, q.id < s.nprog) :
    (supgen (gen E n) n s).pc = s.pc ∧ (supgen (gen E n) n s).prog = s.prog ∧
      (supgen (gen E n) n s).suppress = s.suppress ∧
      (supgen (gen E n) n s).warnreach = s.warnreach ∧
      ∃ extra, (supgen (gen E n) n s).msgs = s.msgs ++ extra ∧
        ∀ m ∈ extra, iswarning m = false := by
  by_cases hz : n.isZ = true
  · have h0 : supgen (gen E n) n s = s := by simp [supgen, hz]
    rw [h0]
    exact ⟨rfl, rfl, rfl, rfl, [], by simp, by simp⟩
  · have hq := gen_quiet E n (enter s) (by simp [enter]) (by simp [enter]; omega)
    have hold : ∀ (i : Nat) (q : Prog), s.prog[i]? = some q →
        (gen E n (enter s)).prog[i]? = some q := by
      intro i q hiq
      have hmem : q ∈ s.prog := List.getElem?_mem hiq
      exact gen_old E q.id n (enter s) hl (by simp [enter]; omega) (hid q hmem) i q hiq rfl
    obtain ⟨_, a2, x, a3, a4⟩ := hq
    simp only [supgen, hz, Bool.false_eq_true, if_false]
    refine ⟨rfl, take_old _ _ hold, ?_, rfl, x, a3, a4⟩
    show (gen E n (enter s)).suppress - 1 = s.suppress
    rw [a2]
    show s.suppress + 1 - 1 = s.suppress
    omega

/-- In the sample state: `supgen` of `while(c) { if(c) break; continue; }`
leaves the stream of one instruction, the position 1, the depth 0 and
`warnreach = 1`. -/
theorem supgen_discards_witness :
    haslabel (.OWHILE cond innerbody) = false ∧
      (supgen (gen plainE (.OWHILE cond innerbody)) (.OWHILE cond innerbody) start).pc = 1 ∧
      (supgen (gen plainE (.OWHILE cond innerbody)) (.OWHILE cond innerbody) start).prog =
        start.prog ∧
      (supgen (gen plainE (.OWHILE cond innerbody)) (.OWHILE cond innerbody) start).suppress =
        0 ∧
      (supgen (gen plainE (.OWHILE cond innerbody)) (.OWHILE cond innerbody) start).warnreach =
        true :=
  ⟨rfl,
    (supgen_discards plainE (.OWHILE cond innerbody) start rfl (by decide)
      (by decide)).1,
    (supgen_discards plainE (.OWHILE cond innerbody) start rfl (by decide)
      (by decide)).2.1,
    (supgen_discards plainE (.OWHILE cond innerbody) start rfl (by decide)
      (by decide)).2.2.1,
    (supgen_discards plainE (.OWHILE cond innerbody) start rfl (by decide)
      (by decide)).2.2.2.1⟩


end Cc

namespace Gc

/-! ## Retained autos do not overlap -/

theorem endsize_ge (E : AutoEnv) (hge5 : E.thechar = '5' → ∀ o, o ≤ E.rnd o E.widthptr) :
    ∀ (l : List Node) (S : Int),
      (∀ n ∈ l, isauto n = true → 0 ≤ n.width) →
      (∀ n ∈ l, ∀ o, o ≤ E.rnd o n.align) → S ≤ endsize E l S := by
  intro l
  induction l with
  | nil => intro S _ _; simp [endsize]
  | cons n rest ih =>
    intro S hw hge
    have hrest := ih
    by_cases ha : isauto n = true
    · have h0 := framestep_ge E S n (hge n (List.mem_cons_self _ _)) hge5
      have hw0 := hw n (List.mem_cons_self _ _) ha
      have h1 := ih (framestep E S n) (fun m hm => hw m (List.mem_cons_of_mem _ hm))
        (fun m hm => hge m (List.mem_cons_of_mem _ hm))
      simp only [endsize, ha, if_true]
      omega
    · have hf : isauto n = false := by simpa using ha
      simp only [endsize, hf, Bool.false_eq_true, if_false]
      exact ih S (fun m hm => hw m (List.mem_cons_of_mem _ hm))
        (fun m hm => hge m (List.mem_cons_of_mem _ hm))

theorem place_disjoint (E : AutoEnv) (hge5 : E.thechar = '5' → ∀ o, o ≤ E.rnd o E.widthptr) :
    ∀ (l : List Node) (S : Int),
      (∀ n ∈ l, isauto n = true → 0 ≤ n.width) →
      (∀ n ∈ l, ∀ o, o ≤ E.rnd o n.align) →
      (∀ n ∈ (place E l S).filter isauto,
        0 ≤ n.width ∧ n.xoffset + n.width ≤ -S ∧ -(endsize E l S) ≤ n.xoffset) ∧
      ((place E l S).filter isauto).Pairwise (fun a b => b.xoffset + b.width ≤ a.xoffset) := by
  intro l
  induction l with
  | nil => intro S _ _; simp [place]
  | cons n rest ih =>
    intro S hw hge
    have hwr : ∀ m ∈ rest, isauto m = true → 0 ≤ m.width :=
      fun m hm => hw m (List.mem_cons_of_mem _ hm)
    have hger : ∀ m ∈ rest, ∀ o, o ≤ E.rnd o m.align :=
      fun m hm => hge m (List.mem_cons_of_mem _ hm)
    by_cases ha : isauto n = true
    · have ha1 : isauto { n with xoffset := -(framestep E S n), stkdelta := 0 } = true := by
        simpa [isauto] using ha
      have h0 := framestep_ge E S n (hge n (List.mem_cons_self _ _)) hge5
      have hw0 := hw n (List.mem_cons_self _ _) ha
      have hend := endsize_ge E hge5 rest (framestep E S n) hwr hger
      obtain ⟨h1, h2⟩ := ih (framestep E S n) hwr hger
      rw [place_cons_auto E n rest S ha]
      simp only [List.filter_cons, ha1, if_true, endsize, ha]
      constructor
      · intro m hm
        rcases List.mem_cons.1 hm with rfl | hm
        · refine ⟨hw0, ?_, ?_⟩
          · show -(framestep E S n) + n.width ≤ -S
            omega
          · show -(endsize E rest (framestep E S n)) ≤ -(framestep E S n)
            omega
        · obtain ⟨a, b, c⟩ := h1 m hm
          exact ⟨a, by omega, c⟩
      · refine List.pairwise_cons.2 ⟨?_, h2⟩
        intro m hm
        obtain ⟨_, b, _⟩ := h1 m hm
        exact b
    · have hf : isauto n = false := by simpa using ha
      obtain ⟨h1, h2⟩ := ih S hwr hger
      rw [place_cons_other E n rest S hf]
      simp only [List.filter_cons, hf, Bool.false_eq_true, if_false, endsize]
      exact ⟨h1, h2⟩

/-- C24: when `allocauto` ends without a fatal error, and `rnd` does not round down for the
alignments of the retained locals (nor for `widthptr` on target `5`), the
retained auto locals have non-negative widths, every byte range
`[xoffset, xoffset + width)` of a retained auto lies inside `[-stksize, 0)`,
and of two retained autos the later one in the list ends at or below the
start of the earlier one, so that no two ranges overlap. -/
theorem allocauto_disjoint (E : AutoEnv) (st st1 : Frame)
    (hrun : allocauto E st = .ok st1)
    (hge : ∀ n ∈ st1.dcl, ∀ o, o ≤ E.rnd o n.align)
    (hge5 : E.thechar = '5' → ∀ o, o ≤ E.rnd o E.widthptr) :
    (∀ n ∈ st1.dcl.filter isauto,
        0 ≤ n.width ∧ -st1.stksize ≤ n.xoffset ∧ n.xoffset + n.width ≤ 0) ∧
      (st1.dcl.filter isauto).Pairwise (fun a b => b.xoffset + b.width ≤ a.xoffset) := by
  by_cases hne : st.dcl = []
  · have h1 : st1 = st := by
      simp only [allocauto, hne, if_true, Except.ok.injEq] at hrun
      exact hrun.symm
    rw [h1, hne]
    simp
  rcases allocauto_cases E st st1 hne hrun with
    ⟨u, rest, _, _, hd, hs⟩ | ⟨n, rest, _, _, hd, hs, hw⟩
  · rw [hd]
    simp
  · rw [hd] at hge
    have hge0 : ∀ m ∈ chop (n :: rest), ∀ o, o ≤ E.rnd o m.align := by
      intro m hm o
      obtain ⟨k, hk, _, _, _, _, _, hal⟩ := place_mem E _ 0 m hm
      rw [← hal]
      exact hge k hk o
    obtain ⟨h1, h2⟩ := place_disjoint E hge5 (chop (n :: rest)) 0
      (fun m hm hma => (hw m hm hma).1) hge0
    rw [hd, hs]
    refine ⟨?_, h2⟩
    intro m hm
    obtain ⟨a, b, c⟩ := h1 m hm
    exact ⟨a, c, by omega⟩

/-- Two used autos of 8 and 4 bytes on the 64-bit target: they lie at
`[-8, 0)` and `[-12, -8)` in a frame of 12 bytes. -/
theorem allocauto_disjoint_witness :
    allocauto liveEnv autosFrame = .ok autosPlaced ∧
      (autosPlaced.dcl.filter isauto).Pairwise
        (fun a b => b.xoffset + b.width ≤ a.xoffset) ∧
      (∀ n ∈ autosPlaced.dcl.filter isauto,
        0 ≤ n.width ∧ -autosPlaced.stksize ≤ n.xoffset ∧ n.xoffset + n.width ≤ 0) := by
  have hrun : allocauto liveEnv autosFrame = .ok autosPlaced := rfl
  have hge : ∀ n ∈ autosPlaced.dcl, ∀ o, o ≤ liveEnv.rnd o n.align := by
    intro n hn o
    simp only [autosPlaced, List.mem_cons, List.mem_singleton, List.not_mem_nil, or_false] at hn
    rcases hn with rfl | rfl
    · show o ≤ (o + 8 - 1) / 8 * 8
      omega
    · show o ≤ (o + 4 - 1) / 4 * 4
      omega
  have h := allocauto_disjoint liveEnv autosFrame autosPlaced hrun hge
    (fun h => absurd h (by decide))
  exact ⟨hrun, h.2, h.1⟩

end Gc

namespace Gc

/-! ## The walk advances by the width of the type -/

theorem walkptr_done_offset (A : Arch) (why : Fatal) (width x : Int) (bv : Bvec) (x1 : Int)
    (bv1 : Bvec) (h : walkptr A why width x bv = .done x1 bv1) : x1 = x + width := by
  unfold walkptr at h
  split at h
  · cases h
  · split at h
    · cases h
    · cases h; rfl

theorem walkarray_advances (f : Int → Bvec → Walk) (w : Int)
    (hf : ∀ x bv x1 bv1, f x bv = .done x1 bv1 → x1 = x + w) :
    ∀ (n : Nat) (x : Int) (bv : Bvec) (x1 : Int) (bv1 : Bvec),
      walkarray f n x bv = .done x1 bv1 → x1 = x + n * w := by
  intro n
  induction n with
  | zero =>
    intro x bv x1 bv1 h
    simp only [walkarray, Walk.done.injEq] at h
    simp [h.1]
  | succ n ih =>
    intro x bv x1 bv1 h
    simp only [walkarray] at h
    split at h
    · cases h
    · rename_i x2 bv2 hr
      have h1 := hf x bv x2 bv2 hr
      have h2 := ih x2 bv2 x1 bv1 h
      rw [h2, h1]
      push_cast
      ring

theorem walk_advances (A : Arch) (t : Typ) :
    (wellformed A t = true →
      ∀ x bv x1 bv1, walktype1 A t x bv = .done x1 bv1 → x1 = x + t.width) ∧
    (wellformedFields A t = true →
      ∀ width o x bv x1 bv1, walkfields A width t o x bv = .done x1 bv1 →
        x1 = x + (width - o)) := by
  induction t with
  | T =>
    refine ⟨fun _ x bv x1 bv1 h => ?_, fun _ width o x bv x1 bv1 h => ?_⟩
    · simp [walktype1] at h
    · simp only [walkfields, Walk.done.injEq] at h
      exact h.1.symm
  | mk e w a b ty dn ihty ihdn =>
    constructor
    · intro hwf x bv x1 bv1 h
      by_cases hali : a > 0 ∧ Int.tmod x a ≠ 0
      · simp [walktype1, hali] at h
      · cases e <;> simp only [walktype1, hali, if_false] at h <;>
          first
          | (cases h; rfl)
          | exact walkptr_done_offset A _ w x bv x1 bv1 h
          | skip
        · -- interface
          split at h
          · cases h
          · split at h
            · cases h
            · split at h
              · cases h
              · cases h; rfl
        · -- array
          split at h
          · cases h
          · split at h
            · exact walkptr_done_offset A _ w x bv x1 bv1 h
            · rename_i hsl
              split at h
              · cases h; rfl
              · simp only [wellformed, hsl, Bool.false_or, Bool.and_eq_true,
                  decide_eq_true_eq] at hwf
                obtain ⟨⟨hb, hw⟩, hty⟩ := hwf
                have := walkarray_advances (walktype1 A ty) ty.width (ihty.1 hty) b.toNat
                  x bv x1 bv1 h
                rw [this]
                show x + ((b.toNat : Nat) : Int) * ty.width = x + w
                rw [Int.toNat_of_nonneg hb, hw]
        · -- struct
          simp only [wellformed] at hwf
          have := ihty.2 hwf w 0 x bv x1 bv1 h
          simpa using this
        · cases h
        · cases h
    · intro hwf width o x bv x1 bv1 h
      simp only [wellformedFields, Bool.and_eq_true] at hwf
      simp only [walkfields] at h
      split at h
      · cases h
      · rename_i x2 bv2 hr
        have h1 := ihty.1 hwf.1 _ bv x2 bv2 hr
        have h2 := ihdn.2 hwf.2 width _ x2 bv2 x1 bv1 h
        rw [h2, h1]
        ring

/-- C25: for a well-formed type (every array that is not a slice has the
width `bound * element width`, all the way down), a walk of `walktype1` from
the offset `x` that does not stop ends at the offset `x + t->width`; and for
a well-formed array that is not a slice, the walk element by element, if it
does not stop, ends at `x + t->width` too, which is where the shortcut for
an array without pointers ends. -/
theorem walktype1_advances (A : Arch) (t : Typ) (hwf : wellformed A t = true) :
    (∀ x bv x1 bv1, walktype1 A t x bv = .done x1 bv1 → x1 = x + t.width) ∧
      (∀ w a b ty dn, t = .mk .TARRAY w a b ty dn → A.isslice t = false →
        (∀ x bv x1 bv1, walkarray (walktype1 A ty) b.toNat x bv = .done x1 bv1 →
          x1 = x + w) ∧
        (A.haspointers ty = false → ∀ x bv, ¬ (a > 0 ∧ Int.tmod x a ≠ 0) →
          walktype1 A t x bv = .done (x + w) bv)) := by
  refine ⟨(walk_advances A t).1 hwf, ?_⟩
  intro w a b ty dn ht hsl
  subst ht
  simp only [wellformed, hsl, Bool.false_or, Bool.and_eq_true, decide_eq_true_eq] at hwf
  obtain ⟨⟨hb, hw⟩, hty⟩ := hwf
  constructor
  · intro x bv x1 bv1 h
    have := walkarray_advances (walktype1 A ty) ty.width ((walk_advances A ty).1 hty) b.toNat
      x bv x1 bv1 h
    rw [this]
    show x + ((b.toNat : Nat) : Int) * ty.width = x + w
    rw [Int.toNat_of_nonneg hb, hw]
  · intro hp x bv hali
    have hb2 : ¬ b < -1 := by omega
    simp [walktype1, hali, hsl, hp, hb2]

/-- The struct `{ int32; [2]*T }` walked from offset 0 ends at its width 24,
with the bits 1 and 2 set; the array `[2]*T` walked element by element from
offset 8 ends at offset 24. -/
theorem walktype1_advances_witness :
    wellformed amd64 int32arr = true ∧
      walktype1 amd64 int32arr 0 (bvalloc 3) = .done 24 { n := 3, b := [6] } ∧
      (24 : Int) = 0 + int32arr.width ∧
      walkarray (walktype1 amd64 ptr64) (2 : Int).toNat 8 (bvalloc 3) =
        .done 24 { n := 3, b := [6] } ∧
      (24 : Int) = 8 + 16 :=
  ⟨by decide, by decide,
    (walktype1_advances amd64 int32arr (by decide)).1 0 (bvalloc 3) 24 { n := 3, b := [6] }
      (by decide),
    by decide,
    ((walktype1_advances amd64 arr2ptr (by decide)).2 16 8 2 ptr64 .T rfl (by decide)).1 8
      (bvalloc 3) 24 { n := 3, b := [6] } (by decide)⟩

end Gc

namespace Cc

/-! ## Structs inside structs -/

/-- C23 (the code marks the wrong word): for
`struct { long n; struct { char *p; } s; }` at offset 0 and base index 0,
the only pointer leaf lies at byte `0 + 8 + 0`, word 1, so that the window
of the true pointer set is `2`; `pointermap_type` answers the map `1`,
marking word 0, which holds the `long`. -/
theorem pointermap_type_nested_struct :
    pointermap_type amd64 nestedstruct 0 0 = some (1, []) ∧
      ptrleaves nestedstruct 0 = [8] ∧ truewindow amd64 nestedstruct 0 0 = 2 := by
  decide

/-! ## The chunks against the pointers of the argument list -/

mutual
/-- On a `direct` type `pointermap_type` answers the window of the pointer
leaves: bit `j` is set if and only if a pointer leaf lies at word
`baseidx + j`. -/
theorem pointermap_type_direct (M : Mach) (baseidx : Int) :
    ∀ t : Typ, direct t = true → ∀ offset : Int,
      ∃ m errs, pointermap_type M t offset baseidx = some (m, errs) ∧
        ∀ j : Nat, j < 32 →
          (m.testBit j = true ↔
            ∃ p ∈ ptrleaves t offset, Int.tdiv p M.ewidthTIND = baseidx + (j : Int))
  | .mk e o w link, h, offset => by
    simp only [direct, Bool.or_eq_true, Bool.and_eq_true, decide_eq_true_eq] at h
    rcases h with (h | he) | ⟨⟨he, ho⟩, hl⟩
    · refine ⟨0, [], ?_, ?_⟩
      · cases e <;> simp [EType.isScalar] at h <;> simp [pointermap_type]
      · intro j _
        cases e <;> simp [EType.isScalar] at h <;> simp [ptrleaves]
    · subst he
      by_cases hwin : Int.tdiv (offset + o) M.ewidthTIND ≥ baseidx ∧
          Int.tdiv (offset + o) M.ewidthTIND < baseidx + 32
      · refine ⟨1 <<< (Int.tdiv (offset + o) M.ewidthTIND - baseidx).toNat,
          if Int.tmod (offset + o) M.ewidthTIND ≠ 0 then [Diag.unalignedPointer] else [],
          by simp only [pointermap_type, hwin, and_self, if_true], ?_⟩
        intro j _
        rw [Nat.one_shiftLeft, Nat.testBit_two_pow]
        simp only [decide_eq_true_eq, ptrleaves, List.mem_singleton, exists_eq_left]
        omega
      · refine ⟨0, if Int.tmod (offset + o) M.ewidthTIND ≠ 0 then [Diag.unalignedPointer]
          else [], by simp only [pointermap_type, hwin, if_false], ?_⟩
        intro j hj
        simp only [Nat.zero_testBit, Bool.false_eq_true, false_iff, ptrleaves,
          List.mem_singleton, exists_eq_left]
        omega
    · subst he
      subst ho
      obtain ⟨m, errs, hm, hbits⟩ := structmembers_direct M baseidx link hl offset 0 []
      refine ⟨m, errs, by simpa [pointermap_type] using hm, ?_⟩
      intro j hj
      rw [hbits j hj]
      simp [ptrleaves]
/-- The member loop on a chain of `direct` types adds to the running map
the window of the pointer leaves of the members. -/
theorem structmembers_direct (M : Mach) (baseidx : Int) :
    ∀ l : List Typ, alldirect l = true → ∀ (offset : Int) (m0 : Nat) (errs0 : List Diag),
      ∃ m errs, structmembers M l offset baseidx m0 errs0 = some (m, errs) ∧
        ∀ j : Nat, j < 32 →
          (m.testBit j = true ↔
            (m0.testBit j = true ∨
              ∃ p ∈ memberleaves l offset, Int.tdiv p M.ewidthTIND = baseidx + (j : Int)))
  | [], _, offset, m0, errs0 =>
    ⟨m0, errs0, by simp [structmembers], by intro j _; simp [memberleaves]⟩
  | t :: rest, h, offset, m0, errs0 => by
    simp only [alldirect, Bool.and_eq_true] at h
    obtain ⟨m1, e1, h1, b1⟩ := pointermap_type_direct M baseidx t h.1 offset
    obtain ⟨m2, e2, h2, b2⟩ :=
      structmembers_direct M baseidx rest h.2 offset (m0 ||| m1) (errs0 ++ e1)
    refine ⟨m2, e2, by simp [structmembers, h1, h2], ?_⟩
    intro j hj
    rw [b2 j hj, Nat.testBit_or, Bool.or_eq_true, b1 j hj]
    simp only [memberleaves, List.mem_append]
    constructor
    · rintro ((h0 | ⟨p, hp, e⟩) | ⟨p, hp, e⟩)
      · exact Or.inl h0
      · exact Or.inr ⟨p, Or.inl hp, e⟩
      · exact Or.inr ⟨p, Or.inr hp, e⟩
    · rintro (h0 | ⟨p, hp | hp, e⟩)
      · exact Or.inl (Or.inl h0)
      · exact Or.inl (Or.inr ⟨p, hp, e⟩)
      · exact Or.inr ⟨p, hp, e⟩
end

/-- The parameter loop on `void` entries and `direct` types adds to the
running map the window of the pointers of the parameters. -/
theorem parammasks_direct (M : Mach) (i : Int) :
    ∀ l : List Typ, directparams l = true → ∀ (s : Int) (m0 : Nat) (errs0 : List Diag),
      ∃ m errs, parammasks M l s i m0 errs0 = some (m, errs) ∧
        ∀ j : Nat, j < 32 →
          (m.testBit j = true ↔
            (m0.testBit j = true ∨
              ∃ p ∈ paramleaves M l s, Int.tdiv p M.ewidthTIND = i + (j : Int)))
  | [], _, s, m0, errs0 =>
    ⟨m0, errs0, by simp [parammasks], by intro j _; simp [paramleaves]⟩
  | t :: rest, h, s, m0, errs0 => by
    have hrest : directparams rest = true := by
      simp only [directparams, List.all_cons, Bool.and_eq_true] at h
      simpa [directparams] using h.2
    by_cases hv : t.etype = .TVOID
    · obtain ⟨m, e, hm, b⟩ := parammasks_direct M i rest hrest s m0 errs0
      exact ⟨m, e, by simp [parammasks, hv, hm], by
        intro j hj
        rw [b j hj]
        simp [paramleaves, hv]⟩
    · have ht : direct t = true := by
        simp only [directparams, List.all_cons, Bool.and_eq_true, Bool.or_eq_true,
          decide_eq_true_eq] at h
        rcases h.1 with h1 | h1
        · exact absurd h1 hv
        · exact h1
      obtain ⟨m1, e1, h1, b1⟩ :=
        pointermap_type_direct M i t ht (int32 (M.align s t .Aarg1))
      obtain ⟨m2, e2, h2, b2⟩ :=
        parammasks_direct M i rest hrest
          (int32 (M.align (int32 (M.align s t .Aarg1)) t .Aarg2)) (m0 ||| m1) (errs0 ++ e1)
      refine ⟨m2, e2, by simp [parammasks, hv, h1, h2], ?_⟩
      intro j hj
      rw [b2 j hj, Nat.testBit_or, Bool.or_eq_true, b1 j hj]
      simp only [paramleaves, hv, if_false, List.mem_append]
      constructor
      · rintro ((h0 | ⟨p, hp, e⟩) | ⟨p, hp, e⟩)
        · exact Or.inl h0
        · exact Or.inr ⟨p, Or.inl hp, e⟩
        · exact Or.inr ⟨p, Or.inr hp, e⟩
      · rintro (h0 | ⟨p, hp | hp, e⟩)
        · exact Or.inl (Or.inl h0)
        · exact Or.inl (Or.inr ⟨p, hp, e⟩)
        · exact Or.inr ⟨p, hp, e⟩

/-- For a function whose parameters are `void` entries and `direct` types,
the mask of chunk `k` is computed, and its bit `j` tells whether word slot
`32 * k + j` of the argument list holds a pointer. -/
theorem chunkmask_direct (M : Mach) (thisfn : Func) (hd : directparams thisfn.down = true)
    (k j : Nat) (hj : j < 32) :
    ∃ m errs, chunkmask M thisfn (32 * (k : Int)) = some (m, errs) ∧
      m.testBit j = ptrslot M thisfn (32 * (k : Int) + j) := by
  have hslot : ∀ l : List Int, (l.any (fun p => decide
      (Int.tdiv p M.ewidthTIND = 32 * (k : Int) + j)) = true ↔
      ∃ p ∈ l, Int.tdiv p M.ewidthTIND = 32 * (k : Int) + j) := by
    intro l
    simp [List.any_eq_true]
  by_cases hs : int32 (M.align 0 thisfn.link .Aarg0) > 0
  · by_cases hk : (32 * (k : Int)) = 0
    · obtain ⟨m, e, hm, b⟩ := parammasks_direct M (32 * (k : Int)) thisfn.down hd
        (int32 (M.align 0 thisfn.link .Aarg0)) 1
        (if int32 (M.align 0 thisfn.link .Aarg0) ≠ M.ewidthTIND then [Diag.passbyptrSize]
          else [])
      refine ⟨m, e, by simp only [chunkmask, hs, hk, and_self, if_true] at hm ⊢; exact hm, ?_⟩
      rw [Bool.eq_iff_iff, b j hj, ptrslot, hslot]
      simp only [argptrs, hs, if_true, List.singleton_append, List.mem_cons,
        exists_eq_or_imp, Int.zero_tdiv]
      have h1 : (Nat.testBit 1 j = true ↔ (0 : Int) = 32 * (k : Int) + j) := by
        have : (1 : Nat) = 2 ^ 0 := rfl
        rw [this, Nat.testBit_two_pow]
        simp only [decide_eq_true_eq]
        omega
      rw [h1]
    · obtain ⟨m, e, hm, b⟩ := parammasks_direct M (32 * (k : Int)) thisfn.down hd
        (int32 (M.align 0 thisfn.link .Aarg0)) 0 []
      refine ⟨m, e, by simp only [chunkmask, hk, and_false, if_false]; exact hm, ?_⟩
      rw [Bool.eq_iff_iff, b j hj, ptrslot, hslot]
      simp only [argptrs, hs, if_true, List.singleton_append, List.mem_cons,
        exists_eq_or_imp, Int.zero_tdiv, Nat.zero_testBit, Bool.false_eq_true]
      have h1 : ¬ ((0 : Int) = 32 * (k : Int) + j) := by omega
      simp only [h1]
  · obtain ⟨m, e, hm, b⟩ := parammasks_direct M (32 * (k : Int)) thisfn.down hd
      (int32 (M.align 0 thisfn.link .Aarg0)) 0 []
    refine ⟨m, e, by simp only [chunkmask, hs, false_and, if_false]; exact hm, ?_⟩
    rw [Bool.eq_iff_iff, b j hj, ptrslot, hslot]
    simp only [argptrs, hs, if_false, List.nil_append, Nat.zero_testBit, Bool.false_eq_true,
      false_or]

/-- For a function whose parameters are `void` entries and `direct` types
the C compiler lays down the frame size at byte offset 0, the count at byte
offset 4 and one 4-byte chunk at `8 + 4 * k` for each `k` below the count
over 32 rounded up, and bit `j` of chunk `k` tells whether word slot
`32 * k + j` of the argument list holds a pointer. -/
theorem codgen_gcsym_direct (M : Mach) (nosplit : Bool) (thisfn : Func) (stkoff : Int)
    (h0 : 0 ≤ stkoff) (h1 : stkoff < 4294967296) (hn : 0 ≤ nptrs M nosplit thisfn)
    (hd : directparams thisfn.down = true) :
    ∃ chunks diags,
      codgen_gcsym M nosplit thisfn stkoff =
        some ({ off := 0, width := 4, val := stkoff }
              :: { off := 4, width := 4, val := nptrs M nosplit thisfn } :: chunks,
             4 + 4 + 4 * (nchunks (nptrs M nosplit thisfn) : Int), diags) ∧
      chunks.length = nchunks (nptrs M nosplit thisfn) ∧
      ∀ k j : Nat, k < nchunks (nptrs M nosplit thisfn) → j < 32 →
        ∃ d, chunks[k]? = some d ∧ d.off = 8 + 4 * (k : Int) ∧ d.width = 4 ∧
          d.val.toNat.testBit j = ptrslot M thisfn (32 * (k : Int) + j) := by
  have hok : ∀ k : Nat, k < nchunks (nptrs M nosplit thisfn) →
      (chunkmask M thisfn (32 * (k : Int))).isSome := by
    intro k _
    obtain ⟨m, e, hm, _⟩ := chunkmask_direct M thisfn hd k 0 (by decide)
    simp [hm]
  obtain ⟨diags, hrun⟩ := codgen_gcsym_eq M nosplit thisfn stkoff h0 h1 hn hok
  refine ⟨chunkwords M thisfn 8 (nptrs M nosplit thisfn), diags, hrun,
    by simp [chunkwords], ?_⟩
  intro k j hk hj
  obtain ⟨m, e, hm, hb⟩ := chunkmask_direct M thisfn hd k j hj
  obtain ⟨d, hd1, hd2, hd3, hd4⟩ :=
    chunkwords_get M thisfn 8 (nptrs M nosplit thisfn) k j hk hj m e hm
  exact ⟨d, hd1, hd2, hd3, by rw [hd4, hb]⟩

/-- The function `void h(struct { char *p; long n; } a, char *q)` with frame
size 24: its parameters are direct, the count is 3, and the blob has the
frame size, the count and one chunk whose bits are those of the pointer
slots. -/
theorem codgen_gcsym_direct_witness :
    directparams directFn.down = true ∧ nptrs amd64 true directFn = 3 ∧
    ∃ chunks diags,
      codgen_gcsym amd64 true directFn 24 =
        some ({ off := 0, width := 4, val := 24 }
              :: { off := 4, width := 4, val := nptrs amd64 true directFn } :: chunks,
             4 + 4 + 4 * (nchunks (nptrs amd64 true directFn) : Int), diags) ∧
      chunks.length = nchunks (nptrs amd64 true directFn) ∧
      ∀ k j : Nat, k < nchunks (nptrs amd64 true directFn) → j < 32 →
        ∃ d, chunks[k]? = some d ∧ d.off = 8 + 4 * (k : Int) ∧ d.width = 4 ∧
          d.val.toNat.testBit j = ptrslot amd64 directFn (32 * (k : Int) + j) :=
  ⟨by decide, by decide,
    codgen_gcsym_direct amd64 true directFn 24 (by decide) (by decide) (by decide)
      (by decide)⟩

/-! ## A struct parameter with a struct inside -/

/-- C6 (the C compiler mis-describes a word slot): for the function
`void h(struct { long n; struct { char *p; } s; } a)` with frame size 16 the
end of `codgen` lays down the frame size 16 at byte offset 0, the count 2 at
byte offset 4 and one chunk at byte offset 8, 12 bytes in all, and the chunk
is `1`: bit 0 is set and bit 1 is clear.  The only pointer of the argument
list lies at byte 8: word slot 1 holds the pointer `p` and word slot 0 holds
the `long`. -/
theorem codgen_gcsym_nested_param :
    codgen_gcsym amd64 true nestedFn 16 =
        some ([{ off := 0, width := 4, val := 16 }, { off := 4, width := 4, val := 2 },
               { off := 8, width := 4, val := 1 }], 12, []) ∧
      nptrs amd64 true nestedFn = 2 ∧
      argptrs amd64 nestedFn = [8] ∧
      ptrslot amd64 nestedFn 0 = false ∧ ptrslot amd64 nestedFn 1 = true ∧
      Nat.testBit 1 0 = true ∧ Nat.testBit 1 1 = false := by
  decide

end Cc

end Pgen
